import Mathlib

/-!
# Banking system: a shallow embedding of `src/main.cpp`

The program keeps a ledger of bank accounts (`class Bank`), each account
(`class Account`) carrying a `float` balance and a vector of `Transaction`
records, and persists the accounts in the text file `Bank.data`.

Conventions of the embedding.

* `float` is IEEE-754 binary32 with round-to-nearest-even (`F32` below), and an
  expression of type `float` is evaluated in binary32 (`FLT_EVAL_METHOD` 0).  A finite
  value is a sign and a magnitude counted in units of `2^-149`, the spacing of the
  subnormal numbers, so that every finite binary32 value is an integer number of
  units and comparisons are comparisons of integers.  The type also holds magnitudes
  that no `float` has (more than 24 significant bits); the properties below hold for
  them as well.  The sign and the payload of a NaN are not modelled.
* The stream operations on `Bank.data` follow libstdc++ on glibc in the "C" locale:
  `operator<<` on a `float` prints as `printf("%.6g")` does, `operator>>` reads as
  `num_get` and `strtof` do.
* `long` is embedded in `Int`.  Signed overflow is undefined behaviour in C++, so
  the embedding describes the executions in which `nextAccountNumber` stays below
  `2^63 - 1`.
* A member function that mutates `*this` and may throw becomes a function that
  returns the outcome (normal return or the exception thrown) together with the
  state of the object afterwards.
* `time(nullptr)` is an input of every operation that records a transaction.
-/

set_option exponentiation.threshold 4096
set_option maxRecDepth 100000

/-! ## IEEE-754 binary32 -/

/-- A binary32 value.  `fin neg mag` is the finite number `(-1)^neg * mag * 2^-149`. -/
inductive F32 where
  | nan : F32
  | inf (neg : Bool) : F32
  | fin (neg : Bool) (mag : Nat) : F32
deriving DecidableEq

namespace F32

/-- Auxiliary for `log2`: structural recursion on the fuel. -/
def log2Aux : Nat → Nat → Nat
  | 0, _ => 0
  | fuel + 1, n => if 2 ≤ n then log2Aux fuel (n / 2) + 1 else 0

/-- Position of the leading bit: `floor (log2 n)` for `n > 0`, and `0` for `n = 0`. -/
def log2 (n : Nat) : Nat := log2Aux n n

/-- Round the non-negative rational `N / D` to the nearest number that has at most `p`
significant bits and is a whole number of units, ties to even.  The quantum is
`2^k` units, where `k` is chosen from the leading bit of `N / D`. -/
def rne (p N D : Nat) : Nat :=
  let k := log2 (N / D) - (p - 1)
  let d := D * 2 ^ k
  let q := N / d
  let r := N % d
  let m := if 2 * r < d then q else if d < 2 * r then q + 1 else if q % 2 = 0 then q else q + 1
  m * 2 ^ k

/-- Round `(-1)^neg * N / D` units to binary32: 24 significant bits, overflow to
infinity from `2^128 = 2^277` units on. -/
def round (neg : Bool) (N D : Nat) : F32 :=
  let n := rne 24 N D
  if n < 2 ^ 277 then fin neg n else inf neg

/-- The signed number of units of a finite value. -/
def toInt (neg : Bool) (mag : Nat) : Int := if neg then -(mag : Int) else (mag : Int)

/-- Unary minus. -/
def neg : F32 → F32
  | nan => nan
  | inf s => inf (!s)
  | fin s n => fin (!s) n

/-- Addition (`+` on `float`). -/
def add : F32 → F32 → F32
  | nan, _ => nan
  | _, nan => nan
  | inf a, inf b => if a = b then inf a else nan
  | inf a, fin _ _ => inf a
  | fin _ _, inf b => inf b
  | fin s1 n1, fin s2 n2 =>
    let x := toInt s1 n1 + toInt s2 n2
    if x = 0 then fin (s1 && s2) 0 else round (decide (x < 0)) x.natAbs 1

/-- Subtraction (`-` on `float`). -/
def sub (x y : F32) : F32 := add x (neg y)

/-- Multiplication (`*` on `float`). -/
def mul : F32 → F32 → F32
  | nan, _ => nan
  | _, nan => nan
  | inf a, inf b => inf (xor a b)
  | inf a, fin b n => if n = 0 then nan else inf (xor a b)
  | fin a n, inf b => if n = 0 then nan else inf (xor a b)
  | fin s1 n1, fin s2 n2 => round (xor s1 s2) (n1 * n2) (2 ^ 149)

/-- The comparison `<` on `float`: false as soon as an operand is NaN. -/
def lt : F32 → F32 → Bool
  | nan, _ => false
  | _, nan => false
  | inf a, inf b => a && !b
  | inf a, fin _ _ => a
  | fin _ _, inf b => !b
  | fin s1 n1, fin s2 n2 => decide (toInt s1 n1 < toInt s2 n2)

/-- The comparison `<=` on `float`: false as soon as an operand is NaN. -/
def le : F32 → F32 → Bool
  | nan, _ => false
  | _, nan => false
  | inf a, inf b => a || !b
  | inf a, fin _ _ => a
  | fin _ _, inf b => !b
  | fin s1 n1, fin s2 n2 => decide (toInt s1 n1 ≤ toInt s2 n2)

/-- Conversion of an integer to `float`. -/
def ofInt (i : Int) : F32 := round (decide (i < 0)) (i.natAbs * 2 ^ 149) 1

/-- The exact value of a finite number as a rational (`0` for NaN and the infinities,
which have no rational value). -/
def toRat : F32 → ℚ
  | fin s n => (toInt s n : ℚ) / 2 ^ 149
  | _ => 0

end F32

/-- A positive finite binary64 value, counted in units of `2^-1074`. -/
structure F64 where
  units : Nat
deriving DecidableEq

/-- The `double` denoted by the decimal literal `num / den`. -/
def F64.ofDecimal (num den : Nat) : F64 := ⟨F32.rne 53 (num * 2 ^ 1074) den⟩

/-- Conversion of a `double` to `float` (`2^-149 = 2^925 * 2^-1074`). -/
def F32.ofF64 (d : F64) : F32 := F32.round false d.units (2 ^ 925)

/-! ## Constants, transactions, accounts -/

/-- `#define MIN_BALANCE 500` -/
def MIN_BALANCE : Int := 500

/-- `#define SAVINGS_INTEREST_RATE 0.05` -/
def SAVINGS_INTEREST_RATE : F64 := F64.ofDecimal 5 100

/-- `#define CHECKING_INTEREST_RATE 0.02` -/
def CHECKING_INTEREST_RATE : F64 := F64.ofDecimal 2 100

/-- The exception classes `InsufficientFunds`, `InvalidInput`, `InvalidPassword`. -/
inductive Error where
  | InsufficientFunds
  | InvalidInput
  | InvalidPassword
deriving DecidableEq

/-- How a call ends: it returns a value or it throws. -/
inductive Outcome (α : Type) where
  | ok (value : α) : Outcome α
  | thrown (e : Error) : Outcome α
deriving DecidableEq

/-- `struct Transaction` -/
structure Transaction where
  type : String
  amount : F32
  balance : F32
  timestamp : Int
deriving DecidableEq

/-- `enum AccountType { SAVINGS, CHECKING }` -/
inductive AccountType where
  | SAVINGS
  | CHECKING
deriving DecidableEq

/-- `class Account` (the static member `nextAccountNumber` lives in `Bank` below). -/
structure Account where
  accountNumber : Int
  firstName : String
  lastName : String
  password : String
  balance : F32
  type : AccountType
  transactions : List Transaction
deriving DecidableEq

namespace Account

/-- `Account::addTransaction`: push a record carrying the current balance. -/
def addTransaction (a : Account) (type : String) (amount : F32) (now : Int) : Account :=
  { a with transactions := a.transactions ++ [⟨type, amount, a.balance, now⟩] }

/-- `Account::Account(fname, lname, pwd, balance, t)`, given the value of the static
counter; returns the account and the new value of the counter. -/
def create (nextAccountNumber : Int) (fname lname pwd : String) (balance : F32)
    (t : AccountType) (now : Int) : Account × Int :=
  let next := nextAccountNumber + 1
  let a : Account :=
    { accountNumber := next, firstName := fname, lastName := lname, password := pwd,
      balance := balance, type := t, transactions := [] }
  (a.addTransaction "Initial Deposit" balance now, next)

/-- `Account::deposit` -/
def deposit (a : Account) (amount : F32) (now : Int) : Outcome Unit × Account :=
  if F32.le amount (F32.ofInt 0) then (.thrown .InvalidInput, a)
  else
    let a1 := { a with balance := F32.add a.balance amount }
    (.ok (), a1.addTransaction "Deposit" amount now)

/-- `Account::withdraw` -/
def withdraw (a : Account) (amount : F32) (now : Int) : Outcome Unit × Account :=
  if F32.le amount (F32.ofInt 0) then (.thrown .InvalidInput, a)
  else if F32.lt (F32.sub a.balance amount) (F32.ofInt MIN_BALANCE) then
    (.thrown .InsufficientFunds, a)
  else
    let a1 := { a with balance := F32.sub a.balance amount }
    (.ok (), a1.addTransaction "Withdrawal" amount now)

/-- `Account::calculateInterest` -/
def calculateInterest (a : Account) (now : Int) : Account :=
  let interestRate : F32 :=
    if a.type = AccountType.SAVINGS then F32.ofF64 SAVINGS_INTEREST_RATE
    else F32.ofF64 CHECKING_INTEREST_RATE
  let interest := F32.mul a.balance interestRate
  let a1 := { a with balance := F32.add a.balance interest }
  a1.addTransaction "Interest" interest now

/-- `Account::verifyPassword` -/
def verifyPassword (a : Account) (pwd : String) : Bool := a.password == pwd

end Account

/-! ## Text output: `operator<<` on an `ofstream` with the default format flags -/

/-- The character of a decimal digit. -/
def digitChar (d : Nat) : Char := Char.ofNat (48 + d)

/-- Auxiliary for `natToChars`: structural recursion on the fuel. -/
def natToCharsAux : Nat → Nat → List Char → List Char
  | 0, _, acc => acc
  | fuel + 1, n, acc =>
    if n < 10 then digitChar n :: acc else natToCharsAux fuel (n / 10) (digitChar (n % 10) :: acc)

/-- Decimal digits of a natural number, most significant first. -/
def natToChars (n : Nat) : List Char := natToCharsAux (n + 1) n []

/-- `os << n` for an integer `n` (`long`, `int`). -/
def intToChars (i : Int) : List Char :=
  if i < 0 then '-' :: natToChars i.natAbs else natToChars i.natAbs

/-- Remove the zeros that end a list of digits. -/
def stripZeros (ds : List Char) : List Char := (ds.reverse.dropWhile (fun c => c == '0')).reverse

/-- Integer nearest to `N / D`, ties to even. -/
def divRoundEven (N D : Nat) : Nat :=
  let q := N / D
  let r := N % D
  if 2 * r < D then q else if D < 2 * r then q + 1 else if q % 2 = 0 then q else q + 1

namespace F32

/-- For a positive number of `n` units, `45 + floor (log10 (n * 2^-149))`: one less than
the number of digits of the integer part of `n * 2^-149 * 10^45`. -/
def decExp (n : Nat) : Nat := (natToChars (n * 10 ^ 45 / 2 ^ 149)).length - 1

/-- The layout of `%g` for the six significant digits `ds` of a number whose decimal
exponent is `e - 45`: fixed notation when the exponent `X` satisfies `-4 ≤ X < 6`,
scientific notation otherwise, the exponent written with two digits at least; trailing
zeros of the fraction removed. -/
def layout (ds : List Char) (e : Nat) : List Char :=
  if 41 ≤ e ∧ e < 51 then
    if 45 ≤ e then
      let fp := stripZeros (ds.drop (e - 44))
      ds.take (e - 44) ++ (if fp = [] then [] else '.' :: fp)
    else
      '0' :: '.' :: (List.replicate (44 - e) '0' ++ stripZeros ds)
  else
    let fp := stripZeros (ds.drop 1)
    let x := if 45 ≤ e then e - 45 else 45 - e
    ds.take 1 ++ (if fp = [] then [] else '.' :: fp) ++
      ('e' :: (if 45 ≤ e then '+' else '-') :: ((if x < 10 then ['0'] else []) ++ natToChars x))

/-- The conversion `%g` with precision 6 of the positive number of `n` units: six
significant digits, rounded to nearest (ties to even) from the exact value, a carry
into a seventh digit moving the exponent up. -/
def formatMag (n : Nat) : List Char :=
  let e0 := decExp n
  let d0 := divRoundEven (n * 10 ^ (45 + (5 - e0))) (2 ^ 149 * 10 ^ (e0 - 5))
  layout (natToChars (if d0 = 1000000 then 100000 else d0)) (if d0 = 1000000 then e0 + 1 else e0)

/-- `os << x` for a `float` with the default flags (general notation, precision 6), as
implemented by libstdc++ through `printf("%.6g")`.  The sign of a NaN is not modelled. -/
def format : F32 → List Char
  | nan => ['n', 'a', 'n']
  | inf s => (if s then ['-'] else []) ++ ['i', 'n', 'f']
  | fin s n => (if s then ['-'] else []) ++ (if n = 0 then ['0'] else formatMag n)

end F32

/-! ## Text input: `operator>>` on an `ifstream`

The extractors follow libstdc++ in the "C" locale: the sentry skips white space and
fails at the end of the file; an extraction that fails at the sentry leaves its target
alone; a number that fails to convert is stored as zero. -/

/-- `isspace` in the "C" locale. -/
def isspace (c : Char) : Bool :=
  c == ' ' || c == '\t' || c == '\n' || c == '\x0b' || c == '\x0c' || c == '\r'

/-- The number denoted by a list of decimal digits, most significant first. -/
def natOfChars (ds : List Char) : Nat := ds.foldl (fun acc c => acc * 10 + (c.toNat - 48)) 0

/-- An input file stream: the characters not read yet, `failbit` and `eofbit`. -/
structure IStream where
  buf : List Char
  failbit : Bool
  eofbit : Bool
deriving DecidableEq

namespace IStream

/-- `ios::good()` -/
def good (s : IStream) : Bool := !s.failbit && !s.eofbit

/-- The sentry of a formatted extraction: whether the extraction goes ahead, and the
stream after white space has been skipped. -/
def sentry (s : IStream) : Bool × IStream :=
  if !s.good then (false, { s with failbit := true })
  else
    match s.buf.dropWhile isspace with
    | [] => (false, { buf := [], failbit := true, eofbit := true })
    | c :: cs => (true, { s with buf := c :: cs })

/-- `is >> str` for a `std::string`: the characters up to the next white space. -/
def readString (s : IStream) (old : String) : String × IStream :=
  match s.sentry with
  | (false, s1) => (old, s1)
  | (true, s1) =>
    let rest := s1.buf.dropWhile (fun c => !isspace c)
    (String.mk (s1.buf.takeWhile (fun c => !isspace c)), { s1 with buf := rest, eofbit := rest.isEmpty })

/-- `is >> n` for a signed integer type with values `lo .. hi`: an optional sign and
the digits that follow; zero and `failbit` when there is no digit, the nearest bound and
`failbit` when the number is out of range. -/
def readInteger (lo hi : Int) (s : IStream) (old : Int) : Int × IStream :=
  match s.sentry with
  | (false, s1) => (old, s1)
  | (true, s1) =>
    let neg := s1.buf.head? = some '-'
    let body := if s1.buf.head? = some '-' ∨ s1.buf.head? = some '+' then s1.buf.tail else s1.buf
    let ds := body.takeWhile Char.isDigit
    let rest := body.dropWhile Char.isDigit
    let v : Int := if neg then -(natOfChars ds : Int) else (natOfChars ds : Int)
    let s2 : IStream := { s1 with buf := rest, eofbit := rest.isEmpty }
    if ds.isEmpty then (0, { s2 with failbit := true })
    else if v < lo then (lo, { s2 with failbit := true })
    else if hi < v then (hi, { s2 with failbit := true })
    else (v, s2)

/-- `is >> n` for a `long` (64 bits). -/
def readLong (s : IStream) (old : Int) : Int × IStream :=
  readInteger (-(2 ^ 63)) (2 ^ 63 - 1) s old

/-- `is >> n` for an `int` (32 bits). -/
def readInt (s : IStream) (old : Int) : Int × IStream :=
  readInteger (-(2 ^ 31)) (2 ^ 31 - 1) s old

end IStream

/-- The scanner of `num_get` for floating-point input, after the sign and the leading
zeros: digits, one decimal point before the exponent, one `e` or `E` after a digit with
its optional sign.  Arguments: whether a digit, a point, an exponent has been seen, the
characters accumulated (in reverse), the input.  Result: the characters accumulated and
the unread input. -/
def scanFloat : Bool → Bool → Bool → List Char → List Char → List Char × List Char
  | _, _, _, acc, [] => (acc.reverse, [])
  | mant, dec, sci, acc, c :: cs =>
    if c.isDigit then scanFloat true dec sci (c :: acc) cs
    else if c = '.' ∧ !dec ∧ !sci then scanFloat mant true sci ('.' :: acc) cs
    else if (c = 'e' ∨ c = 'E') ∧ !sci ∧ mant then
      match cs with
      | [] => (('e' :: acc).reverse, [])
      | c1 :: cs1 =>
        if c1 = '+' ∨ c1 = '-' then scanFloat mant dec true (c1 :: 'e' :: acc) cs1
        else scanFloat mant dec true ('e' :: acc) (c1 :: cs1)
    else (acc.reverse, c :: cs)

/-- The characters that `num_get` accumulates for a floating-point number, and the
unread input: an optional sign, one `0` for a run of leading zeros, then `scanFloat`. -/
def lexFloat (cs : List Char) : List Char × List Char :=
  let sign := if cs.head? = some '-' ∨ cs.head? = some '+' then cs.take 1 else []
  let body := if cs.head? = some '-' ∨ cs.head? = some '+' then cs.tail else cs
  let zeros := body.takeWhile (fun c => c == '0')
  let r := scanFloat (!zeros.isEmpty) false false [] (body.dropWhile (fun c => c == '0'))
  (sign ++ (if zeros.isEmpty then [] else ['0']) ++ r.1, r.2)

/-- The function `strtof` on the characters accumulated by `lexFloat`, which must be
used up: sign, digits with an optional point and at least one digit, optional exponent
with at least one digit.  The decimal number is rounded to nearest. -/
def strtof (cs : List Char) : Option F32 :=
  let neg := cs.head? = some '-'
  let body := if cs.head? = some '-' ∨ cs.head? = some '+' then cs.tail else cs
  let ip := body.takeWhile Char.isDigit
  let r1 := body.dropWhile Char.isDigit
  let fp := if r1.head? = some '.' then r1.tail.takeWhile Char.isDigit else []
  let r2 := if r1.head? = some '.' then r1.tail.dropWhile Char.isDigit else r1
  if ip.isEmpty ∧ fp.isEmpty then none
  else
    let m := natOfChars (ip ++ fp)
    match r2 with
    | [] => some (F32.round neg (m * 2 ^ 149) (10 ^ fp.length))
    | c :: r3 =>
      if c = 'e' then
        let eneg := r3.head? = some '-'
        let ebody := if r3.head? = some '-' ∨ r3.head? = some '+' then r3.tail else r3
        if ebody.isEmpty ∨ !ebody.all Char.isDigit then none
        else
          let x := natOfChars ebody
          if eneg then some (F32.round neg (m * 2 ^ 149) (10 ^ (fp.length + x)))
          else some (F32.round neg (m * 10 ^ x * 2 ^ 149) (10 ^ fp.length))
      else none

/-- The largest finite `float`, `(2^24 - 1) * 2^104`. -/
def FLT_MAX : Nat := (2 ^ 24 - 1) * 2 ^ 253

/-- `is >> x` for a `float`: zero and `failbit` when the characters are not a number,
the largest finite value and `failbit` on overflow. -/
def IStream.readFloat (s : IStream) (old : F32) : F32 × IStream :=
  match s.sentry with
  | (false, s1) => (old, s1)
  | (true, s1) =>
    let l := lexFloat s1.buf
    let s2 : IStream := { s1 with buf := l.2, eofbit := l.2.isEmpty }
    match strtof l.1 with
    | none => (F32.fin false 0, { s2 with failbit := true })
    | some (F32.inf neg) => (F32.fin neg FLT_MAX, { s2 with failbit := true })
    | some x => (x, s2)

/-- The conversion `static_cast<AccountType>(type)` of an `int`.  Values other than `0`
and `1` are outside the enumeration; they are mapped to `CHECKING`, like every value
that the program's test `type == SAVINGS` rejects. -/
def AccountType.ofInt (i : Int) : AccountType :=
  if i = 0 then AccountType.SAVINGS else AccountType.CHECKING

/-- The conversion `static_cast<int>(acc.type)`. -/
def AccountType.toInt : AccountType → Int
  | AccountType.SAVINGS => 0
  | AccountType.CHECKING => 1

/-- The file inserter `operator<<(ofstream&, Account&)`: six lines. -/
def Account.write (acc : Account) : List Char :=
  intToChars acc.accountNumber ++ '\n' ::
  (acc.firstName.data ++ '\n' ::
  (acc.lastName.data ++ '\n' ::
  (acc.password.data ++ '\n' ::
  (F32.format acc.balance ++ '\n' ::
  (intToChars acc.type.toInt ++ ['\n'])))))

/-- The file extractor `operator>>(ifstream&, Account&)`.  `type0` is the indeterminate
initial value of the local variable `int type`. -/
def Account.read (s : IStream) (acc : Account) (type0 : Int) : Account × IStream :=
  let r1 := s.readLong acc.accountNumber
  let r2 := r1.2.readString acc.firstName
  let r3 := r2.2.readString acc.lastName
  let r4 := r3.2.readString acc.password
  let r5 := r4.2.readFloat acc.balance
  let r6 := r5.2.readInt type0
  ({ acc with accountNumber := r1.1, firstName := r2.1, lastName := r3.1, password := r4.1,
              balance := r5.1, type := AccountType.ofInt r6.1 }, r6.2)

/-! ## The ledger: `class Bank` -/

/-- `std::map<long, Account>`: an association list kept in ascending order of keys. -/
abbrev AccountMap := List (Int × Account)

namespace AccountMap

/-- `map::find`: the account stored under the key, if any. -/
def find : AccountMap → Int → Option Account
  | [], _ => none
  | (k, a) :: rest, key => if k = key then some a else find rest key

/-- `map::insert`: a key already present keeps its account. -/
def insert : AccountMap → Int → Account → AccountMap
  | [], key, acc => [(key, acc)]
  | (k, a) :: rest, key, acc =>
    if key < k then (key, acc) :: (k, a) :: rest
    else if key = k then (k, a) :: rest
    else (k, a) :: insert rest key acc

/-- Assignment through the iterator returned by `find`: replace the account stored
under the key. -/
def set : AccountMap → Int → Account → AccountMap
  | [], _, _ => []
  | (k, a) :: rest, key, acc =>
    if k = key then (k, acc) :: rest else (k, a) :: set rest key acc

/-- `map::erase` by key. -/
def erase (m : AccountMap) (key : Int) : AccountMap := m.filter (fun p => p.1 ≠ key)

/-- The keys, in iteration order. -/
def keys (m : AccountMap) : List Int := m.map Prod.fst

/-- The output of `for (itr = begin(); itr != end(); itr++) outfile << itr->second`. -/
def write (m : AccountMap) : List Char := (m.map (fun p => p.2.write)).flatten

end AccountMap

/-- The state of a running process: the members `accounts` and `adminPassword` of the
`Bank` object, the static member `Account::nextAccountNumber`, and the content of the
file `Bank.data` (`none` when the file does not exist). -/
structure Bank where
  accounts : AccountMap
  adminPassword : String
  nextAccountNumber : Int
  store : Option (List Char)
deriving DecidableEq

namespace Bank

/-- The loop `while (!infile.eof()) { infile >> account; accounts.insert(...); }`,
run for at most `fuel` iterations; `none` when the fuel does not suffice.  Result: the
local variable `account` and the map when the loop ends. -/
def loadLoop (type0 : Int) : Nat → IStream → Account → AccountMap → Option (Account × AccountMap)
  | 0, _, _, _ => none
  | fuel + 1, s, account, m =>
    if s.eofbit then some (account, m)
    else
      let r := Account.read s account type0
      loadLoop type0 fuel r.2 r.1 (m.insert r.1.accountNumber r.1)

/-- `Bank::Bank()` at the start of a process, where `Account::nextAccountNumber` is `0`.
`account0` is the default-constructed local `Account account`, whose number, balance and
type are indeterminate, and `type0` the indeterminate `int type` of the extractor. -/
def startup (store : Option (List Char)) (account0 : Account) (type0 : Int) (fuel : Nat) :
    Option Bank :=
  match store with
  | none => some { accounts := [], adminPassword := "admin123", nextAccountNumber := 0,
                   store := none }
  | some text =>
    match loadLoop type0 fuel { buf := text, failbit := false, eofbit := false } account0 [] with
    | none => none
    | some (account, m) =>
      some { accounts := m, adminPassword := "admin123",
             nextAccountNumber := account.accountNumber, store := some text }

/-- `Bank::openAccount` -/
def openAccount (b : Bank) (fname lname pwd : String) (balance : F32) (type : AccountType)
    (now : Int) : Account × Bank :=
  let c := Account.create b.nextAccountNumber fname lname pwd balance type now
  let accounts := b.accounts.insert c.1.accountNumber c.1
  (c.1, { b with accounts := accounts, nextAccountNumber := c.2,
                 store := some (AccountMap.write accounts) })

/-- `Bank::balanceEnquiry` -/
def balanceEnquiry (b : Bank) (accountNumber : Int) (pwd : String) : Outcome Account × Bank :=
  match b.accounts.find accountNumber with
  | none => (.thrown .InvalidInput, b)
  | some acc =>
    if !acc.verifyPassword pwd then (.thrown .InvalidPassword, b)
    else (.ok acc, b)

/-- `Bank::deposit` -/
def deposit (b : Bank) (accountNumber : Int) (pwd : String) (amount : F32) (now : Int) :
    Outcome Account × Bank :=
  match b.accounts.find accountNumber with
  | none => (.thrown .InvalidInput, b)
  | some acc =>
    if !acc.verifyPassword pwd then (.thrown .InvalidPassword, b)
    else
      let r := acc.deposit amount now
      let b1 := { b with accounts := b.accounts.set accountNumber r.2 }
      match r.1 with
      | .thrown e => (.thrown e, b1)
      | .ok _ => (.ok r.2, b1)

/-- `Bank::withdraw` -/
def withdraw (b : Bank) (accountNumber : Int) (pwd : String) (amount : F32) (now : Int) :
    Outcome Account × Bank :=
  match b.accounts.find accountNumber with
  | none => (.thrown .InvalidInput, b)
  | some acc =>
    if !acc.verifyPassword pwd then (.thrown .InvalidPassword, b)
    else
      let r := acc.withdraw amount now
      let b1 := { b with accounts := b.accounts.set accountNumber r.2 }
      match r.1 with
      | .thrown e => (.thrown e, b1)
      | .ok _ => (.ok r.2, b1)

/-- `Bank::closeAccount` -/
def closeAccount (b : Bank) (accountNumber : Int) (pwd : String) : Outcome Unit × Bank :=
  match b.accounts.find accountNumber with
  | none => (.thrown .InvalidInput, b)
  | some acc =>
    if !acc.verifyPassword pwd then (.thrown .InvalidPassword, b)
    else (.ok (), { b with accounts := b.accounts.erase accountNumber })

/-- `Bank::verifyAdmin` -/
def verifyAdmin (b : Bank) (pwd : String) : Bool := pwd == b.adminPassword

/-- `Bank::calculateInterestForAll`; `now k` is the time read while the account stored
under `k` is processed. -/
def calculateInterestForAll (b : Bank) (now : Int → Int) : Bank :=
  { b with accounts := b.accounts.map (fun p => (p.1, p.2.calculateInterest (now p.1))) }

/-- `Bank::~Bank()`: the file is rewritten from the map; returns its new content. -/
def shutdown (b : Bank) : Option (List Char) := some (AccountMap.write b.accounts)

end Bank

/-! ## Sequences of calls -/

/-- A call of one of the balance-changing member functions of `Account`. -/
inductive AccountCall where
  | deposit (amount : F32) (now : Int)
  | withdraw (amount : F32) (now : Int)
  | calculateInterest (now : Int)

/-- The outcome of one call and the account after it. -/
def Account.call (a : Account) : AccountCall → Outcome Unit × Account
  | .deposit x t => a.deposit x t
  | .withdraw x t => a.withdraw x t
  | .calculateInterest t => (.ok (), a.calculateInterest t)

/-- The account after a sequence of calls, each exception being caught by the caller. -/
def Account.calls (a : Account) (cs : List AccountCall) : Account :=
  cs.foldl (fun acc c => (acc.call c).2) a

/-- The balance after a transaction record is replayed on a balance, in `float`
arithmetic: deposits and interest are added, withdrawals subtracted. -/
def Transaction.replay (b : F32) (t : Transaction) : F32 :=
  if t.type = "Withdrawal" then F32.sub b t.amount
  else if t.type = "Deposit" ∨ t.type = "Interest" then F32.add b t.amount
  else b

/-- The exact sum of the amounts of the records of one type. -/
def sumAmounts (type : String) (h : List Transaction) : ℚ :=
  ((h.filter (fun t => t.type = type)).map (fun t => t.amount.toRat)).sum

/-- The sum in `float` arithmetic, in the order of the history, of the amounts of the
records of one type. -/
def sumAmountsF32 (type : String) (h : List Transaction) : F32 :=
  (h.filter (fun t => t.type = type)).foldl (fun s t => F32.add s t.amount) (F32.ofInt 0)

/-- A call of one of the member functions of `Bank`. -/
inductive BankCall where
  | openAccount (fname lname pwd : String) (balance : F32) (type : AccountType) (now : Int)
  | balanceEnquiry (accountNumber : Int) (pwd : String)
  | deposit (accountNumber : Int) (pwd : String) (amount : F32) (now : Int)
  | withdraw (accountNumber : Int) (pwd : String) (amount : F32) (now : Int)
  | closeAccount (accountNumber : Int) (pwd : String)
  | calculateInterestForAll (now : Int → Int)

/-- The state after one call, with the number of the account returned by the call when
the call is `openAccount`. -/
def Bank.call (b : Bank) : BankCall → Option Int × Bank
  | .openAccount f l p x t now =>
    (some (b.openAccount f l p x t now).1.accountNumber, (b.openAccount f l p x t now).2)
  | .balanceEnquiry n p => (none, (b.balanceEnquiry n p).2)
  | .deposit n p x now => (none, (b.deposit n p x now).2)
  | .withdraw n p x now => (none, (b.withdraw n p x now).2)
  | .closeAccount n p => (none, (b.closeAccount n p).2)
  | .calculateInterestForAll now => (none, b.calculateInterestForAll now)

/-- The account numbers returned by the `openAccount` calls of a sequence of calls, in
order, and the state after the sequence. -/
def Bank.calls : Bank → List BankCall → List Int × Bank
  | b, [] => ([], b)
  | b, c :: cs =>
    ((b.call c).1.toList ++ (Bank.calls (b.call c).2 cs).1, (Bank.calls (b.call c).2 cs).2)

/-! ## Storable values -/

/-- The file extractor applied to the text that the file inserter produces for a
`float`: the value that a restart gives to a balance. -/
def F32.reread (x : F32) : F32 :=
  (IStream.readFloat { buf := F32.format x ++ ['\n'], failbit := false, eofbit := false } x).1

/-- A `float` survives the store when its text is read back whole, as a finite number
whose text is the same. -/
def F32.storable (x : F32) : Bool :=
  lexFloat (F32.format x ++ ['\n']) == (F32.format x, ['\n']) &&
  match strtof (F32.format x) with
  | some (F32.fin s n) => F32.format (F32.fin s n) == F32.format x
  | _ => false

/-- A non-empty string without white space: what `is >> str` reads back whole. -/
def isToken (s : String) : Bool := !s.data.isEmpty && s.data.all (fun c => !isspace c)

/-- The value of type `long` are the integers from `-2^63` to `2^63 - 1`. -/
def isLong (i : Int) : Bool := decide (-(2 ^ 63) ≤ i) && decide (i ≤ 2 ^ 63 - 1)

/-- An account as the file extractor rebuilds it from the text of `a`, in an object
whose transactions are those of `account0`. -/
def Account.reload (account0 a : Account) : Account :=
  { a with balance := a.balance.reread, transactions := account0.transactions }

/-- An account that the store keeps: its number is a `long`, its names and password are
tokens, its balance is storable. -/
def Account.storable (a : Account) : Bool :=
  isLong a.accountNumber && isToken a.firstName && isToken a.lastName && isToken a.password &&
    a.balance.storable

/-- `std::isfinite`: neither NaN nor an infinity, the magnitude at most `FLT_MAX`. -/
def F32.isFinite : F32 → Bool
  | F32.fin _ n => decide (n ≤ FLT_MAX)
  | _ => false

/-- An account that the file inserter can be given: its number is a `long`, its names and
password are non-empty tokens without white space, its balance is finite. -/
def Account.wellFormed (a : Account) : Bool :=
  isLong a.accountNumber && isToken a.firstName && isToken a.lastName && isToken a.password &&
    a.balance.isFinite

/-- What the loop of `Bank::Bank` makes of the text of a list of accounts, from the local
variable `account` and the map: each account is rebuilt in `account` and inserted; at the
end of the file one more extraction fails, which leaves `account` with the indeterminate
type, and `account` is inserted once more. -/
def Bank.loadAccounts (type0 : Int) : List Account → Account → AccountMap → Account × AccountMap
  | [], account, m =>
    ({ account with type := AccountType.ofInt type0 },
      m.insert account.accountNumber { account with type := AccountType.ofInt type0 })
  | a :: rest, account, m =>
    Bank.loadAccounts type0 rest (Account.reload account a)
      (m.insert a.accountNumber (Account.reload account a))

/-- Every account of the ledger is storable. -/
def Bank.storable (b : Bank) : Prop := ∀ p ∈ b.accounts, p.2.storable = true

/-- The keys of the map are in strictly ascending order, each account is stored under
its own number, and no key lies above the counter. -/
def Bank.wellKeyed (b : Bank) : Prop :=
  b.accounts.keys.Pairwise (fun j k => j < k) ∧ (∀ p ∈ b.accounts, p.2.accountNumber = p.1) ∧
    ∀ k ∈ b.accounts.keys, k ≤ b.nextAccountNumber

/-- The states that processes reach from an absent store.  `Reachable ok b all run` holds
when `b` is the state of a process, `all` lists the account numbers that `openAccount`
has issued since the store was absent, and `run` those issued by the current process.
A restart destroys the `Bank` object, which rewrites the store, and constructs a new
one in a new process, which reads the store; `ok` restricts the states in which the
process is shut down (`fun _ => True` for no restriction). -/
inductive Reachable (ok : Bank → Prop) : Bank → List Int → List Int → Prop where
  | start (account0 : Account) (type0 : Int) (fuel : Nat) (b : Bank) :
      Bank.startup none account0 type0 fuel = some b → Reachable ok b [] []
  | call (b : Bank) (all run : List Int) (c : BankCall) :
      Reachable ok b all run →
      Reachable ok (b.call c).2 (all ++ (b.call c).1.toList) (run ++ (b.call c).1.toList)
  | restart (b : Bank) (all run : List Int) (account0 : Account) (type0 : Int) (fuel : Nat)
      (b1 : Bank) :
      Reachable ok b all run → ok b → Bank.startup b.shutdown account0 type0 fuel = some b1 →
      Reachable ok b1 all []

/-- The history of the account is not empty and the balance of its last record is the
balance of the account. -/
def Account.consistent (a : Account) : Prop :=
  ∃ t, a.transactions.getLast? = some t ∧ a.balance = t.balance

/-! ## Error kinds of the specification -/

/-- The four error kinds that the specification names.  The program has an exception
class for three of them; it has none for `AccountNotFound`. -/
inductive ErrorKind where
  | InvalidInput
  | AccountNotFound
  | InvalidPassword
  | InsufficientFunds
deriving DecidableEq

/-- The error kind that an exception of the program stands for: the one of its name. -/
def Error.kind : Error → ErrorKind
  | Error.InvalidInput => ErrorKind.InvalidInput
  | Error.InvalidPassword => ErrorKind.InvalidPassword
  | Error.InsufficientFunds => ErrorKind.InsufficientFunds

/-! ## Sample values -/

/-- The account that `Account::Account("A", "B", "p1", 1000, SAVINGS)` builds when the
counter is `0`. -/
def sampleAccount : Account :=
  (Account.create 0 "A" "B" "p1" (F32.ofInt 1000) AccountType.SAVINGS 0).1

/-- An account opened with the balance `2^24 = 16777216`, where the spacing of the
`float` values becomes `2`. -/
def largeAccount : Account :=
  (Account.create 0 "A" "B" "p1" (F32.ofInt 16777216) AccountType.SAVINGS 0).1

/-- The state of a process started without a store. -/
def freshBank : Bank :=
  { accounts := [], adminPassword := "admin123", nextAccountNumber := 0, store := none }

/-- Two deposits of one unit of currency. -/
def twoDeposits : List AccountCall :=
  [AccountCall.deposit (F32.ofInt 1) 1, AccountCall.deposit (F32.ofInt 1) 2]


/-- The state after `openAccount("A", "B", "p1", 1000, SAVINGS)` in a process started
without a store. -/
def sampleBank : Bank :=
  (freshBank.openAccount "A" "B" "p1" (F32.ofInt 1000) AccountType.SAVINGS 0).2


/-- An object as `Account account;` leaves it: empty strings, no transaction, and
indeterminate scalars, here zero. -/
def blankAccount : Account :=
  { accountNumber := 0, firstName := "", lastName := "", password := "",
    balance := F32.fin false 0, type := AccountType.SAVINGS, transactions := [] }

/-- The state after a second account is opened in `sampleBank` and closed again. -/
def closedBank : Bank :=
  ((sampleBank.openAccount "C" "D" "p2" (F32.ofInt 2000) AccountType.CHECKING 1).2.closeAccount
    2 "p2").2

/-- The state of the process that starts on the store left by `closedBank`. -/
def restartedBank : Bank :=
  { accounts := [(1, { accountNumber := 1, firstName := "A", lastName := "B", password := "p1",
                       balance := F32.ofInt 1000, type := AccountType.SAVINGS,
                       transactions := [] })],
    adminPassword := "admin123",
    nextAccountNumber := 1,
    store := some ['1', '\n', 'A', '\n', 'B', '\n', 'p', '1', '\n', '1', '0', '0', '0', '\n',
                   '0', '\n'] }


/-- The account left by a deposit of the largest finite `float` on an account opened with
the largest finite `float`: the balance overflows to `+infinity`. -/
def overflowAccount : Account :=
  ((Account.create 0 "A" "B" "p1" (F32.fin false FLT_MAX) AccountType.SAVINGS 0).1.deposit
    (F32.fin false FLT_MAX) 1).2

/-- A second account, numbered `2`, with the balance `2000.5`. -/
def secondAccount : Account :=
  (Account.create 1 "C" "D" "p2" (F32.fin false (4001 * 2 ^ 148)) AccountType.CHECKING 1).1

/-- The state after one more account is opened in `restartedBank`. -/
def reopenedBank : Bank :=
  (restartedBank.call
    (BankCall.openAccount "E" "F" "p3" (F32.ofInt 3000) AccountType.SAVINGS 2)).2

/-- A store whose two records are not in ascending order: account 2, then account 1. -/
def unsortedStore : List Char := ([secondAccount, sampleAccount].map Account.write).flatten

/-- The state of the process that starts on `unsortedStore`: both accounts are in the
map, and the counter is the number of the record read last. -/
def unsortedBank : Bank :=
  { accounts := [(1, Account.reload blankAccount sampleAccount),
                 (2, Account.reload blankAccount secondAccount)],
    adminPassword := "admin123",
    nextAccountNumber := 1,
    store := some unsortedStore }

/-- The state after an account is opened with the largest finite `float` and the same
amount is deposited on it: the balance of account 1 is `+infinity`. -/
def overflowBank : Bank :=
  ((freshBank.openAccount "A" "B" "p1" (F32.fin false FLT_MAX) AccountType.SAVINGS 0).2.deposit
    1 "p1" (F32.fin false FLT_MAX) 1).2

/-! # Properties -/

/-! ## Facts about `float` values -/

theorem F32.ofInt_zero : F32.ofInt 0 = F32.fin false 0 := by decide

theorem F32.ofInt_min_balance : F32.ofInt MIN_BALANCE = F32.fin false (500 * 2 ^ 149) := by
  decide

/-- A number above zero is not below or equal to zero. -/
theorem F32.not_le_of_lt (x y : F32) (h : F32.lt x y = true) : F32.le y x = false := by
  cases x <;> cases y <;> simp_all [F32.lt, F32.le]

/-- Two numbers of which neither is NaN are comparable. -/
theorem F32.le_of_not_lt (x y : F32) (hx : x ≠ F32.nan) (hy : y ≠ F32.nan)
    (h : F32.lt x y = false) : F32.le y x = true := by
  rcases x with _ | a | ⟨a, n⟩ <;> rcases y with _ | b | ⟨b, m⟩ <;> simp_all [F32.lt, F32.le]
  cases a <;> cases b <;> simp_all

/-! ## C1, C2, C4: the guards of `Account::deposit` and `Account::withdraw` -/

/-- C1: for an amount above zero, `withdraw` throws `InsufficientFunds` exactly when
`balance - amount < MIN_BALANCE`, and the account is then what it was before the call. -/
theorem withdraw_insufficient_iff (a : Account) (amount : F32) (now : Int)
    (h : F32.lt (F32.ofInt 0) amount = true) :
    ((a.withdraw amount now).1 = Outcome.thrown Error.InsufficientFunds ↔
        F32.lt (F32.sub a.balance amount) (F32.ofInt MIN_BALANCE) = true) ∧
      ((a.withdraw amount now).1 = Outcome.thrown Error.InsufficientFunds →
        (a.withdraw amount now).2 = a) := by
  have h0 := F32.not_le_of_lt _ _ h
  unfold Account.withdraw
  rw [h0]
  by_cases hlt : F32.lt (F32.sub a.balance amount) (F32.ofInt MIN_BALANCE) = true
  · simp [hlt]
  · simp [hlt]

/-- C2: for an amount below or equal to zero, `deposit` and `withdraw` throw
`InvalidInput` and leave the account as it was, whatever its balance. -/
theorem nonpositive_amount_invalid (a : Account) (amount : F32) (now : Int)
    (h : F32.le amount (F32.ofInt 0) = true) :
    a.deposit amount now = (Outcome.thrown Error.InvalidInput, a) ∧
      a.withdraw amount now = (Outcome.thrown Error.InvalidInput, a) := by
  simp [Account.deposit, Account.withdraw, h]

theorem withdraw_insufficient_iff_witness :
    F32.lt (F32.ofInt 0) (F32.ofInt 600) = true ∧
      (((sampleAccount.withdraw (F32.ofInt 600) 1).1 = Outcome.thrown Error.InsufficientFunds ↔
          F32.lt (F32.sub sampleAccount.balance (F32.ofInt 600)) (F32.ofInt MIN_BALANCE) = true) ∧
        ((sampleAccount.withdraw (F32.ofInt 600) 1).1 = Outcome.thrown Error.InsufficientFunds →
          (sampleAccount.withdraw (F32.ofInt 600) 1).2 = sampleAccount)) :=
  ⟨by decide, withdraw_insufficient_iff sampleAccount (F32.ofInt 600) 1 (by decide)⟩

theorem nonpositive_amount_invalid_witness :
    F32.le (F32.ofInt (-5)) (F32.ofInt 0) = true ∧
      (sampleAccount.deposit (F32.ofInt (-5)) 1 = (Outcome.thrown Error.InvalidInput, sampleAccount) ∧
        sampleAccount.withdraw (F32.ofInt (-5)) 1 =
          (Outcome.thrown Error.InvalidInput, sampleAccount)) :=
  ⟨by decide, nonpositive_amount_invalid sampleAccount (F32.ofInt (-5)) 1 (by decide)⟩

/-- C4, as stated, fails when the amount is NaN: both guards of `withdraw` compare with
NaN and are false, the call returns, and the new balance is NaN, which is not at
least `MIN_BALANCE`. -/
theorem withdraw_nan_succeeds :
    (sampleAccount.withdraw F32.nan 1).1 = Outcome.ok () ∧
      (sampleAccount.withdraw F32.nan 1).2.balance = F32.nan ∧
      F32.le (F32.ofInt MIN_BALANCE) (sampleAccount.withdraw F32.nan 1).2.balance = false := by
  decide

/-- C4, amended: after a `withdraw` that returns, the new balance is the old balance minus
the amount in `float` arithmetic, and it is at least `MIN_BALANCE` whenever that
difference is a number (not NaN), whatever the prior balance. -/
theorem withdraw_ok_balance (a : Account) (amount : F32) (now : Int)
    (h : (a.withdraw amount now).1 = Outcome.ok ())
    (hn : F32.sub a.balance amount ≠ F32.nan) :
    (a.withdraw amount now).2.balance = F32.sub a.balance amount ∧
      F32.le (F32.ofInt MIN_BALANCE) (a.withdraw amount now).2.balance = true := by
  unfold Account.withdraw at h ⊢
  by_cases h1 : F32.le amount (F32.ofInt 0) = true
  · simp [h1] at h
  · by_cases h2 : F32.lt (F32.sub a.balance amount) (F32.ofInt MIN_BALANCE) = true
    · simp [h1, h2] at h
    · have h1f : F32.le amount (F32.ofInt 0) = false := by simpa using h1
      have h2f : F32.lt (F32.sub a.balance amount) (F32.ofInt MIN_BALANCE) = false := by
        simpa using h2
      simp only [h1f, h2f, Account.addTransaction]
      refine ⟨by simp, ?_⟩
      have hm : F32.ofInt MIN_BALANCE ≠ F32.nan := by rw [F32.ofInt_min_balance]; simp
      simpa using F32.le_of_not_lt _ _ hn hm h2f

theorem withdraw_ok_balance_witness :
    (sampleAccount.withdraw (F32.ofInt 400) 1).1 = Outcome.ok () ∧
      F32.sub sampleAccount.balance (F32.ofInt 400) ≠ F32.nan ∧
      (sampleAccount.withdraw (F32.ofInt 400) 1).2.balance =
        F32.sub sampleAccount.balance (F32.ofInt 400) ∧
      F32.le (F32.ofInt MIN_BALANCE) (sampleAccount.withdraw (F32.ofInt 400) 1).2.balance = true :=
  ⟨by decide, by decide, withdraw_ok_balance sampleAccount (F32.ofInt 400) 1 (by decide) (by decide)⟩

/-! ## C3: the balance and the history -/

/-- C3, as stated, fails: after two deposits of `1` on an account opened with `2^24`, the
balance is still `2^24`, because `2^24 + 1` rounds to `2^24` in `float` arithmetic.  The
balance differs from the exact sum `2^24 + 2`, and from the sum formed in `float`
arithmetic, which is `2^24 + 2` as well. -/
theorem balance_not_sum_of_amounts :
    (largeAccount.calls twoDeposits).balance = F32.ofInt 16777216 ∧
      (largeAccount.calls twoDeposits).balance.toRat ≠
        (F32.ofInt 16777216).toRat +
          sumAmounts "Deposit" (largeAccount.calls twoDeposits).transactions +
          sumAmounts "Interest" (largeAccount.calls twoDeposits).transactions -
          sumAmounts "Withdrawal" (largeAccount.calls twoDeposits).transactions ∧
      (largeAccount.calls twoDeposits).balance ≠
        F32.sub (F32.add (F32.add (F32.ofInt 16777216)
          (sumAmountsF32 "Deposit" (largeAccount.calls twoDeposits).transactions))
          (sumAmountsF32 "Interest" (largeAccount.calls twoDeposits).transactions))
          (sumAmountsF32 "Withdrawal" (largeAccount.calls twoDeposits).transactions) := by
  have e : F32.ofInt 16777216 = F32.fin false (16777216 * 2 ^ 149) := by decide
  have t0 : largeAccount.calls twoDeposits =
      { accountNumber := 1, firstName := "A", lastName := "B", password := "p1",
        balance := F32.fin false (16777216 * 2 ^ 149), type := AccountType.SAVINGS,
        transactions :=
          [⟨"Initial Deposit", F32.fin false (16777216 * 2 ^ 149),
              F32.fin false (16777216 * 2 ^ 149), 0⟩,
            ⟨"Deposit", F32.fin false (2 ^ 149), F32.fin false (16777216 * 2 ^ 149), 1⟩,
            ⟨"Deposit", F32.fin false (2 ^ 149), F32.fin false (16777216 * 2 ^ 149), 2⟩] } := by
    decide
  refine ⟨by decide, ?_, by decide⟩
  rw [t0, e]
  simp [sumAmounts, F32.toRat, F32.toInt]

/-- One call either leaves the account as it was or appends one record, whose replay
on the old balance is the new balance. -/
theorem Account.call_appends (a : Account) (c : AccountCall) :
    (a.call c).2 = a ∨
      ∃ t, (a.call c).2.transactions = a.transactions ++ [t] ∧
        (a.call c).2.balance = Transaction.replay a.balance t := by
  cases c with
  | deposit x now =>
    by_cases h : F32.le x (F32.ofInt 0) = true
    · left; simp [Account.call, Account.deposit, h]
    · right
      refine ⟨⟨"Deposit", x, F32.add a.balance x, now⟩, ?_⟩
      simp [Account.call, Account.deposit, h, Account.addTransaction, Transaction.replay]
  | withdraw x now =>
    by_cases h : F32.le x (F32.ofInt 0) = true
    · left; simp [Account.call, Account.withdraw, h]
    · by_cases h2 : F32.lt (F32.sub a.balance x) (F32.ofInt MIN_BALANCE) = true
      · left; simp [Account.call, Account.withdraw, h, h2]
      · right
        refine ⟨⟨"Withdrawal", x, F32.sub a.balance x, now⟩, ?_⟩
        simp [Account.call, Account.withdraw, h, h2, Account.addTransaction, Transaction.replay]
  | calculateInterest now =>
    right
    refine ⟨⟨"Interest",
      F32.mul a.balance (if a.type = AccountType.SAVINGS then F32.ofF64 SAVINGS_INTEREST_RATE
        else F32.ofF64 CHECKING_INTEREST_RATE),
      (a.calculateInterest now).balance, now⟩, ?_⟩
    simp [Account.call, Account.calculateInterest, Account.addTransaction, Transaction.replay]

/-- The history after a sequence of calls extends the history before it, and the
balance is the replay of the new records on the old balance. -/
theorem Account.calls_appends (cs : List AccountCall) (a : Account) :
    ∃ new, (a.calls cs).transactions = a.transactions ++ new ∧
      (a.calls cs).balance = new.foldl Transaction.replay a.balance := by
  induction cs generalizing a with
  | nil => exact ⟨[], by simp [Account.calls]⟩
  | cons c cs ih =>
    obtain ⟨new, h1, h2⟩ := ih (a.call c).2
    have hstep : a.calls (c :: cs) = (a.call c).2.calls cs := by simp [Account.calls]
    rw [hstep]
    rcases Account.call_appends a c with h | ⟨t, ht, hb⟩
    · exact ⟨new, by rw [h1, h], by rw [h2, h]⟩
    · exact ⟨t :: new, by rw [h1, ht]; simp, by rw [h2, hb]; simp⟩

/-- C3, amended: for an account built by the constructor with the initial balance `b0`,
after every sequence of `deposit`, `withdraw` and `calculateInterest` calls the history
starts with the `Initial Deposit` record of `b0`, and the balance is obtained from `b0`
by replaying the later records in order in `float` arithmetic: the amount of a
`Deposit` or `Interest` record is added, the amount of a `Withdrawal` record is
subtracted, each step rounded to a `float`. -/
theorem balance_is_replay_of_history (counter : Int) (fname lname pwd : String) (b0 : F32)
    (t : AccountType) (now : Int) (cs : List AccountCall) :
    ((Account.create counter fname lname pwd b0 t now).1.calls cs).transactions.head? =
        some ⟨"Initial Deposit", b0, b0, now⟩ ∧
      ((Account.create counter fname lname pwd b0 t now).1.calls cs).balance =
        (((Account.create counter fname lname pwd b0 t now).1.calls cs).transactions.drop 1).foldl
          Transaction.replay b0 := by
  obtain ⟨new, h1, h2⟩ := Account.calls_appends cs (Account.create counter fname lname pwd b0 t now).1
  rw [h1, h2]
  simp [Account.create, Account.addTransaction]

/-! ## C5: the account numbers issued within one process -/

/-- `Bank::deposit` leaves the counter alone. -/
theorem Bank.deposit_counter (b : Bank) (n : Int) (p : String) (x : F32) (now : Int) :
    (b.deposit n p x now).2.nextAccountNumber = b.nextAccountNumber := by
  unfold Bank.deposit
  cases b.accounts.find n with
  | none => rfl
  | some acc =>
    by_cases hv : (!acc.verifyPassword p) = true
    · simp [hv]
    · simp only [hv]
      cases (acc.deposit x now).1 <;> rfl

/-- `Bank::withdraw` leaves the counter alone. -/
theorem Bank.withdraw_counter (b : Bank) (n : Int) (p : String) (x : F32) (now : Int) :
    (b.withdraw n p x now).2.nextAccountNumber = b.nextAccountNumber := by
  unfold Bank.withdraw
  cases b.accounts.find n with
  | none => rfl
  | some acc =>
    by_cases hv : (!acc.verifyPassword p) = true
    · simp [hv]
    · simp only [hv]
      cases (acc.withdraw x now).1 <;> rfl

/-- `Bank::balanceEnquiry` leaves the counter alone. -/
theorem Bank.balanceEnquiry_counter (b : Bank) (n : Int) (p : String) :
    (b.balanceEnquiry n p).2.nextAccountNumber = b.nextAccountNumber := by
  unfold Bank.balanceEnquiry
  split
  · rfl
  · split <;> rfl

/-- `Bank::closeAccount` leaves the counter alone. -/
theorem Bank.closeAccount_counter (b : Bank) (n : Int) (p : String) :
    (b.closeAccount n p).2.nextAccountNumber = b.nextAccountNumber := by
  unfold Bank.closeAccount
  split
  · rfl
  · split <;> rfl

/-- A call other than `openAccount` issues no number and leaves the counter alone;
`openAccount` issues the counter plus one, which becomes the counter. -/
theorem Bank.call_counter (b : Bank) (c : BankCall) :
    ((b.call c).1 = none ∧ (b.call c).2.nextAccountNumber = b.nextAccountNumber) ∨
      ((b.call c).1 = some (b.nextAccountNumber + 1) ∧
        (b.call c).2.nextAccountNumber = b.nextAccountNumber + 1) := by
  cases c with
  | openAccount f l p x t now =>
    right
    simp [Bank.call, Bank.openAccount, Account.create, Account.addTransaction]
  | balanceEnquiry n p => left; exact ⟨rfl, Bank.balanceEnquiry_counter b n p⟩
  | deposit n p x now => left; exact ⟨rfl, Bank.deposit_counter b n p x now⟩
  | withdraw n p x now => left; exact ⟨rfl, Bank.withdraw_counter b n p x now⟩
  | closeAccount n p => left; exact ⟨rfl, Bank.closeAccount_counter b n p⟩
  | calculateInterestForAll now => left; exact ⟨rfl, rfl⟩

/-- Every number issued during a sequence of calls lies above the counter before the
sequence and not above the counter after it, and the numbers come in increasing order. -/
theorem Bank.calls_issued (cs : List BankCall) (b : Bank) :
    (∀ n ∈ (b.calls cs).1, b.nextAccountNumber < n ∧ n ≤ (b.calls cs).2.nextAccountNumber) ∧
      b.nextAccountNumber ≤ (b.calls cs).2.nextAccountNumber ∧
      List.Pairwise (fun m n => m < n) (b.calls cs).1 := by
  induction cs generalizing b with
  | nil => simp [Bank.calls]
  | cons c cs ih =>
    obtain ⟨h1, h2, h3⟩ := ih (b.call c).2
    simp only [Bank.calls]
    rcases Bank.call_counter b c with ⟨e1, e2⟩ | ⟨e1, e2⟩
    · rw [e1]
      rw [e2] at h1 h2
      simpa using ⟨h1, h2, h3⟩
    · rw [e1]
      rw [e2] at h1 h2
      refine ⟨?_, by omega, ?_⟩
      · intro n hn
        simp only [Option.toList, List.singleton_append, List.mem_cons] at hn
        rcases hn with rfl | hn
        · omega
        · have := h1 n hn
          omega
      · simp only [Option.toList, List.singleton_append, List.pairwise_cons]
        exact ⟨fun n hn => (h1 n hn).1, h3⟩

/-- The first number issued during a sequence of calls is the counter plus one. -/
theorem Bank.calls_first (cs : List BankCall) (b : Bank) :
    (b.calls cs).1 = [] ∨ (b.calls cs).1.head? = some (b.nextAccountNumber + 1) := by
  induction cs generalizing b with
  | nil => left; rfl
  | cons c cs ih =>
    simp only [Bank.calls]
    rcases Bank.call_counter b c with ⟨e1, e2⟩ | ⟨e1, e2⟩
    · rw [e1]
      have := ih (b.call c).2
      rw [e2] at this
      simpa using this
    · right
      rw [e1]
      simp

/-- C5: in every sequence of `Bank` calls, from every state, the account numbers that the
successive `openAccount` calls return are strictly increasing, so that none is issued
twice, whatever accounts are closed in between; and in a process started without a
store, the first number issued is `1`. -/
theorem openAccount_numbers_strictly_increasing (b : Bank) (cs : List BankCall)
    (account0 : Account) (type0 : Int) (fuel : Nat) :
    List.Pairwise (fun m n => m < n) (b.calls cs).1 ∧ (b.calls cs).1.Nodup ∧
      ∃ b0, Bank.startup none account0 type0 fuel = some b0 ∧
        ((b0.calls cs).1 = [] ∨ (b0.calls cs).1.head? = some 1) := by
  have hp := (Bank.calls_issued cs b).2.2
  exact ⟨hp, hp.imp (fun h => ne_of_lt h), _, rfl, by simpa using Bank.calls_first cs _⟩

/-! ## C8, C9: the lookup and the password check of the `Bank` operations -/

/-- A key that is not in the map is not found. -/
theorem AccountMap.find_eq_none (m : AccountMap) (n : Int) (h : n ∉ m.keys) :
    m.find n = none := by
  induction m with
  | nil => rfl
  | cons p m ih =>
    obtain ⟨k, a⟩ := p
    simp only [AccountMap.keys, List.map_cons, List.mem_cons, not_or] at h
    have hk : ¬ k = n := fun e => h.1 e.symm
    simp only [AccountMap.find, hk, if_false]
    exact ih h.2

/-- C8, as stated, fails: for a number that is not in the map the three operations throw
`InvalidInput`, the exception that `deposit` and `withdraw` also throw for an amount
that is not positive; no exception of the program stands for `AccountNotFound`. -/
theorem absent_account_throws_invalid_input :
    (freshBank.balanceEnquiry 7 "p1").1 = Outcome.thrown Error.InvalidInput ∧
      (freshBank.deposit 7 "p1" (F32.ofInt 100) 1).1 = Outcome.thrown Error.InvalidInput ∧
      (freshBank.withdraw 7 "p1" (F32.ofInt 100) 1).1 = Outcome.thrown Error.InvalidInput ∧
      Error.kind Error.InvalidInput ≠ ErrorKind.AccountNotFound := by
  decide

/-- C8, amended: for every state and every number that is not a key of the map,
`balanceEnquiry`, `deposit` and `withdraw` throw `InvalidInput`, whatever the password
and the amount, and the state is unchanged. -/
theorem absent_account_invalid_input (b : Bank) (n : Int) (pwd : String) (amount : F32)
    (now : Int) (h : n ∉ b.accounts.keys) :
    b.balanceEnquiry n pwd = (Outcome.thrown Error.InvalidInput, b) ∧
      b.deposit n pwd amount now = (Outcome.thrown Error.InvalidInput, b) ∧
      b.withdraw n pwd amount now = (Outcome.thrown Error.InvalidInput, b) := by
  have hf := AccountMap.find_eq_none b.accounts n h
  simp [Bank.balanceEnquiry, Bank.deposit, Bank.withdraw, hf]

theorem absent_account_invalid_input_witness :
    (2 : Int) ∉ sampleBank.accounts.keys ∧
      (sampleBank.balanceEnquiry 2 "p1" = (Outcome.thrown Error.InvalidInput, sampleBank) ∧
        sampleBank.deposit 2 "p1" (F32.ofInt 100) 1 =
          (Outcome.thrown Error.InvalidInput, sampleBank) ∧
        sampleBank.withdraw 2 "p1" (F32.ofInt 100) 1 =
          (Outcome.thrown Error.InvalidInput, sampleBank)) :=
  ⟨by decide, absent_account_invalid_input sampleBank 2 "p1" (F32.ofInt 100) 1 (by decide)⟩

/-- `Account::deposit` never throws `InvalidPassword`. -/
theorem Account.deposit_not_invalid_password (a : Account) (x : F32) (now : Int) :
    (a.deposit x now).1 ≠ Outcome.thrown Error.InvalidPassword := by
  unfold Account.deposit
  split <;> simp

/-- `Account::withdraw` never throws `InvalidPassword`. -/
theorem Account.withdraw_not_invalid_password (a : Account) (x : F32) (now : Int) :
    (a.withdraw x now).1 ≠ Outcome.thrown Error.InvalidPassword := by
  unfold Account.withdraw
  split
  · simp
  · split <;> simp

/-- C9: for an account number that is in the map, a password that differs from the stored
one makes `balanceEnquiry`, `deposit`, `withdraw` and `closeAccount` throw
`InvalidPassword`, whatever the amount, and leaves the whole state unchanged (every
account, the set of accounts, the counter, the store); with the stored password none of
the four throws `InvalidPassword`. -/
theorem wrong_password_invalid_password (b : Bank) (n : Int) (acc : Account) (pwd : String)
    (amount : F32) (now : Int) (h : b.accounts.find n = some acc) :
    (pwd ≠ acc.password →
        b.balanceEnquiry n pwd = (Outcome.thrown Error.InvalidPassword, b) ∧
        b.deposit n pwd amount now = (Outcome.thrown Error.InvalidPassword, b) ∧
        b.withdraw n pwd amount now = (Outcome.thrown Error.InvalidPassword, b) ∧
        b.closeAccount n pwd = (Outcome.thrown Error.InvalidPassword, b)) ∧
      (pwd = acc.password →
        (b.balanceEnquiry n pwd).1 ≠ Outcome.thrown Error.InvalidPassword ∧
        (b.deposit n pwd amount now).1 ≠ Outcome.thrown Error.InvalidPassword ∧
        (b.withdraw n pwd amount now).1 ≠ Outcome.thrown Error.InvalidPassword ∧
        (b.closeAccount n pwd).1 ≠ Outcome.thrown Error.InvalidPassword) := by
  constructor
  · intro hp
    have hv : acc.verifyPassword pwd = false := by
      simp [Account.verifyPassword, Ne.symm hp]
    simp [Bank.balanceEnquiry, Bank.deposit, Bank.withdraw, Bank.closeAccount, h, hv]
  · intro hp
    have hv : acc.verifyPassword pwd = true := by
      simp [Account.verifyPassword, hp]
    refine ⟨?_, ?_, ?_, ?_⟩
    · simp [Bank.balanceEnquiry, h, hv]
    · simp only [Bank.deposit, h, hv]
      have := Account.deposit_not_invalid_password acc amount now
      cases hd : (acc.deposit amount now).1 with
      | ok v => simp
      | thrown e => rw [hd] at this; simpa using this
    · simp only [Bank.withdraw, h, hv]
      have := Account.withdraw_not_invalid_password acc amount now
      cases hd : (acc.withdraw amount now).1 with
      | ok v => simp
      | thrown e => rw [hd] at this; simpa using this
    · simp [Bank.closeAccount, h, hv]

theorem wrong_password_invalid_password_witness :
    sampleBank.accounts.find 1 = some sampleAccount ∧ "p2" ≠ sampleAccount.password ∧
      (sampleBank.balanceEnquiry 1 "p2" = (Outcome.thrown Error.InvalidPassword, sampleBank) ∧
        sampleBank.deposit 1 "p2" (F32.ofInt (-3)) 1 =
          (Outcome.thrown Error.InvalidPassword, sampleBank) ∧
        sampleBank.withdraw 1 "p2" (F32.ofInt (-3)) 1 =
          (Outcome.thrown Error.InvalidPassword, sampleBank) ∧
        sampleBank.closeAccount 1 "p2" = (Outcome.thrown Error.InvalidPassword, sampleBank)) :=
  ⟨by decide, by decide,
    (wrong_password_invalid_password sampleBank 1 sampleAccount "p2" (F32.ofInt (-3)) 1
      (by decide)).1 (by decide)⟩

/-! ## C10: `Account::calculateInterest` -/

/-- C10: `calculateInterest` sets the balance to `balance + balance * rate`, where `rate`
is the `float` of `0.05` for a savings account and of `0.02` for a checking account, and
appends one `Interest` record whose amount is the interest `balance * rate` and whose
balance is the new balance.  A savings account with balance `1000` ends at `1050` with an
`Interest` record of amount `50`, a checking account with balance `1000` ends at `1020`. -/
theorem calculateInterest_spec (a : Account) (now : Int) :
    (a.calculateInterest now).balance =
        F32.add a.balance (F32.mul a.balance
          (if a.type = AccountType.SAVINGS then F32.ofF64 (F64.ofDecimal 5 100)
            else F32.ofF64 (F64.ofDecimal 2 100))) ∧
      (a.calculateInterest now).transactions =
        a.transactions ++
          [⟨"Interest",
            F32.mul a.balance
              (if a.type = AccountType.SAVINGS then F32.ofF64 (F64.ofDecimal 5 100)
                else F32.ofF64 (F64.ofDecimal 2 100)),
            (a.calculateInterest now).balance, now⟩] ∧
      ({ a with balance := F32.ofInt 1000, type := AccountType.SAVINGS }.calculateInterest
          now).balance = F32.ofInt 1050 ∧
      ({ a with balance := F32.ofInt 1000, type := AccountType.SAVINGS }.calculateInterest
          now).transactions = a.transactions ++ [⟨"Interest", F32.ofInt 50, F32.ofInt 1050, now⟩] ∧
      ({ a with balance := F32.ofInt 1000, type := AccountType.CHECKING }.calculateInterest
          now).balance = F32.ofInt 1020 := by
  have hs : F32.mul (F32.ofInt 1000) (F32.ofF64 SAVINGS_INTEREST_RATE) = F32.ofInt 50 := by
    decide
  have hs2 : F32.add (F32.ofInt 1000) (F32.ofInt 50) = F32.ofInt 1050 := by decide
  have hc : F32.add (F32.ofInt 1000) (F32.mul (F32.ofInt 1000) (F32.ofF64 CHECKING_INTEREST_RATE)) =
      F32.ofInt 1020 := by decide
  refine ⟨rfl, rfl, ?_, ?_, ?_⟩
  · simp [Account.calculateInterest, Account.addTransaction, hs, hs2]
  · simp [Account.calculateInterest, Account.addTransaction, hs, hs2]
  · simp [Account.calculateInterest, Account.addTransaction, hc]

/-! ## Decimal digits -/

theorem digitChar_isDigit (d : Nat) (h : d < 10) :
    (digitChar d).isDigit = true ∧ (digitChar d).toNat - 48 = d ∧ isspace (digitChar d) = false := by
  have : ∀ k : Fin 10, (digitChar k.1).isDigit = true ∧ (digitChar k.1).toNat - 48 = k.1 ∧
      isspace (digitChar k.1) = false := by decide
  exact this ⟨d, h⟩

theorem natOfChars_foldl (cs : List Char) (x : Nat) :
    cs.foldl (fun acc c => acc * 10 + (c.toNat - 48)) x = x * 10 ^ cs.length + natOfChars cs := by
  induction cs generalizing x with
  | nil => simp [natOfChars]
  | cons c cs ih =>
    simp only [List.foldl_cons, natOfChars, List.length_cons]
    rw [ih, ih (0 * 10 + (c.toNat - 48))]
    ring

theorem natOfChars_cons (c : Char) (cs : List Char) :
    natOfChars (c :: cs) = (c.toNat - 48) * 10 ^ cs.length + natOfChars cs := by
  simp only [natOfChars, List.foldl_cons]
  rw [natOfChars_foldl]
  simp [natOfChars]

theorem natToCharsAux_spec (fuel n : Nat) (acc : List Char) (h : n < fuel) :
    natOfChars (natToCharsAux fuel n acc) = n * 10 ^ acc.length + natOfChars acc ∧
      ((∀ c ∈ acc, c.isDigit = true) → ∀ c ∈ natToCharsAux fuel n acc, c.isDigit = true) ∧
      natToCharsAux fuel n acc ≠ [] := by
  induction fuel generalizing n acc with
  | zero => omega
  | succ fuel ih =>
    simp only [natToCharsAux]
    by_cases hn : n < 10
    · simp only [hn, if_true]
      refine ⟨?_, ?_, by simp⟩
      · rw [natOfChars_cons, (digitChar_isDigit n hn).2.1]
      · intro hacc c hc
        simp only [List.mem_cons] at hc
        rcases hc with rfl | hc
        · exact (digitChar_isDigit n hn).1
        · exact hacc c hc
    · simp only [hn, if_false]
      have hlt : n / 10 < fuel := by omega
      have hd := digitChar_isDigit (n % 10) (Nat.mod_lt _ (by decide))
      obtain ⟨h1, h2, h3⟩ := ih (n / 10) (digitChar (n % 10) :: acc) hlt
      refine ⟨?_, ?_, h3⟩
      · rw [h1, natOfChars_cons, hd.2.1]
        simp only [List.length_cons, pow_succ]
        have e : n * 10 ^ acc.length = (10 * (n / 10) + n % 10) * 10 ^ acc.length := by
          rw [Nat.div_add_mod]
        rw [e]
        ring
      · intro hacc
        apply h2
        intro c hc
        simp only [List.mem_cons] at hc
        rcases hc with rfl | hc
        · exact hd.1
        · exact hacc c hc

theorem natToChars_spec (n : Nat) :
    natOfChars (natToChars n) = n ∧ (∀ c ∈ natToChars n, c.isDigit = true) ∧ natToChars n ≠ [] := by
  obtain ⟨h1, h2, h3⟩ := natToCharsAux_spec (n + 1) n [] (by omega)
  exact ⟨by simpa [natOfChars] using h1, h2 (by simp), h3⟩

/-! ## The extractors on text written by the inserters -/

theorem isDigit_not_special (c : Char) (h : c.isDigit = true) :
    c ≠ '-' ∧ c ≠ '+' ∧ isspace c = false := by
  refine ⟨?_, ?_, ?_⟩
  · rintro rfl; revert h; decide
  · rintro rfl; revert h; decide
  · simp only [isspace, Bool.or_eq_false_iff, beq_eq_false_iff_ne, ne_eq]
    refine ⟨⟨⟨⟨⟨?_, ?_⟩, ?_⟩, ?_⟩, ?_⟩, ?_⟩ <;> (rintro rfl; revert h; decide)

theorem takeWhile_dropWhile_stop (p : Char → Bool) (tok : List Char) (stop : Char)
    (rest : List Char) (htok : ∀ c ∈ tok, p c = true) (hstop : p stop = false) :
    (tok ++ stop :: rest).takeWhile p = tok ∧ (tok ++ stop :: rest).dropWhile p = stop :: rest := by
  induction tok with
  | nil => simp [List.takeWhile, List.dropWhile, hstop]
  | cons c cs ih =>
    have hc : p c = true := htok c (by simp)
    have := ih (fun d hd => htok d (by simp [hd]))
    simp [List.takeWhile, List.dropWhile, hc, this]

theorem IStream.sentry_ok (pre : List Char) (c : Char) (cs : List Char)
    (hpre : ∀ d ∈ pre, isspace d = true) (hc : isspace c = false) :
    IStream.sentry { buf := pre ++ c :: cs, failbit := false, eofbit := false } =
      (true, { buf := c :: cs, failbit := false, eofbit := false }) := by
  have h := (takeWhile_dropWhile_stop isspace pre c cs hpre hc).2
  simp [IStream.sentry, IStream.good, h]

theorem IStream.readInteger_written (lo hi n : Int) (hlo : lo ≤ n) (hhi : n ≤ hi)
    (pre rest : List Char) (hpre : ∀ d ∈ pre, isspace d = true) (old : Int) :
    IStream.readInteger lo hi
        { buf := pre ++ (intToChars n ++ '\n' :: rest), failbit := false, eofbit := false } old =
      (n, { buf := '\n' :: rest, failbit := false, eofbit := false }) := by
  obtain ⟨hval, hdig, hne⟩ := natToChars_spec n.natAbs
  obtain ⟨d, ds, hds⟩ := List.exists_cons_of_ne_nil hne
  have hd : d.isDigit = true := hdig d (by simp [hds])
  have hnl : Char.isDigit '\n' = false := by decide
  have htd := takeWhile_dropWhile_stop Char.isDigit (natToChars n.natAbs) '\n' rest hdig hnl
  rw [hds] at htd
  simp only [List.cons_append] at htd
  by_cases hneg : n < 0
  · have hs : isspace '-' = false := by decide
    have hw : intToChars n ++ '\n' :: rest = '-' :: (d :: (ds ++ '\n' :: rest)) := by
      simp [intToChars, hneg, hds]
    have hv : -(natOfChars (d :: ds) : Int) = n := by rw [← hds, hval]; omega
    simp only [IStream.readInteger, hw, IStream.sentry_ok pre '-' _ hpre hs, List.head?_cons,
      true_or, if_true, List.tail_cons, htd.1, htd.2, hv, List.isEmpty_cons]
    simp [not_lt.mpr hlo, not_lt.mpr hhi]
  · have hs := (isDigit_not_special d hd)
    have hw : intToChars n ++ '\n' :: rest = d :: (ds ++ '\n' :: rest) := by
      simp [intToChars, hneg, hds]
    have hv : (natOfChars (d :: ds) : Int) = n := by rw [← hds, hval]; omega
    have h1 : ¬ (some d = some '-') := by simpa using hs.1
    have h2 : ¬ (some d = some '+') := by simpa using hs.2.1
    simp only [IStream.readInteger, hw, IStream.sentry_ok pre d _ hpre hs.2.2, List.head?_cons,
      h1, h2, or_self, if_false, htd.1, htd.2, hv, List.isEmpty_cons]
    simp [not_lt.mpr hlo, not_lt.mpr hhi]

theorem IStream.readString_written (name : String) (hname : isToken name = true)
    (pre rest : List Char) (hpre : ∀ d ∈ pre, isspace d = true) (old : String) :
    IStream.readString
        { buf := pre ++ (name.data ++ '\n' :: rest), failbit := false, eofbit := false } old =
      (name, { buf := '\n' :: rest, failbit := false, eofbit := false }) := by
  simp only [isToken, Bool.and_eq_true, Bool.not_eq_true', List.all_eq_true] at hname
  obtain ⟨hne, hall⟩ := hname
  obtain ⟨c, cs, hcs⟩ : ∃ c cs, name.data = c :: cs := by
    cases h : name.data with
    | nil => simp [h] at hne
    | cons c cs => exact ⟨c, cs, rfl⟩
  have hc : isspace c = false := by simpa using hall c (by simp [hcs])
  have hnl : (fun c => !isspace c) '\n' = false := by decide
  have htd := takeWhile_dropWhile_stop (fun c => !isspace c) name.data '\n' rest
    (fun d hd => by simp [hall d hd]) hnl
  rw [hcs] at htd
  simp only [List.cons_append] at htd
  simp only [IStream.readString, hcs, List.cons_append, IStream.sentry_ok pre c _ hpre hc, htd.1,
    htd.2, List.isEmpty_cons]
  congr 1
  rw [← hcs]

theorem scanFloat_nil (mant dec sci : Bool) (acc : List Char) :
    scanFloat mant dec sci acc [] = (acc.reverse, []) := by
  rw [scanFloat]

theorem scanFloat_cons (mant dec sci : Bool) (acc : List Char) (c : Char) (cs : List Char) :
    scanFloat mant dec sci acc (c :: cs) =
      if c.isDigit then scanFloat true dec sci (c :: acc) cs
      else if c = '.' ∧ !dec ∧ !sci then scanFloat mant true sci ('.' :: acc) cs
      else if (c = 'e' ∨ c = 'E') ∧ !sci ∧ mant then
        match cs with
        | [] => (('e' :: acc).reverse, [])
        | c1 :: cs1 =>
          if c1 = '+' ∨ c1 = '-' then scanFloat mant dec true (c1 :: 'e' :: acc) cs1
          else scanFloat mant dec true ('e' :: acc) (c1 :: cs1)
      else (acc.reverse, c :: cs) := by
  cases cs <;> simp [scanFloat]

theorem scanFloat_stop (mant dec sci : Bool) (acc r : List Char) :
    scanFloat mant dec sci acc ('\n' :: r) = (acc.reverse, '\n' :: r) := by
  rw [scanFloat_cons]
  simp

theorem scanFloat_local (n : Nat) : ∀ u : List Char, u.length ≤ n →
    ∀ (mant dec sci : Bool) (acc : List Char),
      ∃ t u1, ∀ r, scanFloat mant dec sci acc (u ++ '\n' :: r) = (t, u1 ++ '\n' :: r) := by
  induction n with
  | zero =>
    intro u hu mant dec sci acc
    have : u = [] := List.length_eq_zero.mp (by omega)
    subst this
    exact ⟨acc.reverse, [], fun r => scanFloat_stop mant dec sci acc r⟩
  | succ n ih =>
    intro u hu mant dec sci acc
    cases u with
    | nil => exact ⟨acc.reverse, [], fun r => scanFloat_stop mant dec sci acc r⟩
    | cons c cs =>
      have hcs : cs.length ≤ n := by simpa using hu
      by_cases h1 : c.isDigit = true
      · obtain ⟨t, u1, h⟩ := ih cs hcs true dec sci (c :: acc)
        exact ⟨t, u1, fun r => by rw [List.cons_append, scanFloat_cons, if_pos h1]; exact h r⟩
      · by_cases h2 : c = '.' ∧ (!dec) = true ∧ (!sci) = true
        · obtain ⟨t, u1, h⟩ := ih cs hcs mant true sci ('.' :: acc)
          exact ⟨t, u1, fun r => by
            rw [List.cons_append, scanFloat_cons, if_neg h1, if_pos h2]; exact h r⟩
        · by_cases h3 : (c = 'e' ∨ c = 'E') ∧ (!sci) = true ∧ mant = true
          · cases cs with
            | nil =>
              exact ⟨('e' :: acc).reverse, [], fun r => by
                rw [List.cons_append, scanFloat_cons, if_neg h1, if_neg h2, if_pos h3]
                have hnl : ¬ ('\n' = '+' ∨ '\n' = '-') := by decide
                simp only [List.nil_append, if_neg hnl]
                exact scanFloat_stop mant dec true ('e' :: acc) r⟩
            | cons c1 cs1 =>
              by_cases h4 : c1 = '+' ∨ c1 = '-'
              · obtain ⟨t, u1, h⟩ := ih cs1 (by simp at hcs; omega) mant dec true (c1 :: 'e' :: acc)
                exact ⟨t, u1, fun r => by
                  rw [List.cons_append, scanFloat_cons, if_neg h1, if_neg h2, if_pos h3]
                  simp only [List.cons_append, if_pos h4]
                  exact h r⟩
              · obtain ⟨t, u1, h⟩ := ih (c1 :: cs1) hcs mant dec true ('e' :: acc)
                exact ⟨t, u1, fun r => by
                  rw [List.cons_append, scanFloat_cons, if_neg h1, if_neg h2, if_pos h3]
                  simp only [List.cons_append, if_neg h4]
                  exact h r⟩
          · exact ⟨acc.reverse, c :: cs, fun r => by
              rw [List.cons_append, scanFloat_cons, if_neg h1, if_neg h2, if_neg h3]⟩

theorem takeWhile_dropWhile_local (p : Char → Bool) (hp : p '\n' = false) (u : List Char) :
    ∃ z u1, ∀ r, (u ++ '\n' :: r).takeWhile p = z ∧ (u ++ '\n' :: r).dropWhile p = u1 ++ '\n' :: r := by
  induction u with
  | nil => exact ⟨[], [], fun r => by simp [List.takeWhile, List.dropWhile, hp]⟩
  | cons c cs ih =>
    obtain ⟨z, u1, h⟩ := ih
    by_cases hc : p c = true
    · exact ⟨c :: z, u1, fun r => by simp [List.takeWhile, List.dropWhile, hc, h r]⟩
    · exact ⟨[], c :: cs, fun r => by simp [List.takeWhile, List.dropWhile, hc]⟩

theorem lexFloat_body_local (u : List Char) :
    ∃ t u1, ∀ r,
      ((if ((u ++ '\n' :: r).takeWhile (fun c => c == '0')).isEmpty then [] else ['0']) ++
        (scanFloat (!((u ++ '\n' :: r).takeWhile (fun c => c == '0')).isEmpty) false false []
          ((u ++ '\n' :: r).dropWhile (fun c => c == '0'))).1,
        (scanFloat (!((u ++ '\n' :: r).takeWhile (fun c => c == '0')).isEmpty) false false []
          ((u ++ '\n' :: r).dropWhile (fun c => c == '0'))).2) = (t, u1 ++ '\n' :: r) := by
  obtain ⟨z, u1, h⟩ := takeWhile_dropWhile_local (fun c => c == '0') (by decide) u
  obtain ⟨t, u2, h2⟩ := scanFloat_local u1.length u1 (le_refl _) (!z.isEmpty) false false []
  exact ⟨(if z.isEmpty then [] else ['0']) ++ t, u2, fun r => by rw [(h r).1, (h r).2, h2 r]⟩

theorem lexFloat_local (u : List Char) :
    ∃ t u1, ∀ r, lexFloat (u ++ '\n' :: r) = (t, u1 ++ '\n' :: r) := by
  cases u with
  | nil =>
    obtain ⟨t, u1, h⟩ := lexFloat_body_local []
    refine ⟨t, u1, fun r => ?_⟩
    have hnl : ¬ (some '\n' = some '-' ∨ some '\n' = some '+') := by decide
    simp only [lexFloat, List.nil_append, List.head?_cons, if_neg hnl]
    simpa using h r
  | cons c cs =>
    by_cases hc : some c = some '-' ∨ some c = some '+'
    · obtain ⟨t, u1, h⟩ := lexFloat_body_local cs
      refine ⟨[c] ++ t, u1, fun r => ?_⟩
      have ht : List.take 1 (c :: (cs ++ '\n' :: r)) = [c] := rfl
      have := h r
      rw [Prod.mk.injEq] at this
      simp only [lexFloat, List.cons_append, List.head?_cons, if_pos hc, List.tail_cons, ht,
        List.append_assoc, this.1, this.2]
    · obtain ⟨t, u1, h⟩ := lexFloat_body_local (c :: cs)
      refine ⟨t, u1, fun r => ?_⟩
      simp only [lexFloat, List.cons_append, List.head?_cons, if_neg hc]
      simpa using h r

theorem lexFloat_written (tok : List Char) (h : lexFloat (tok ++ ['\n']) = (tok, ['\n']))
    (r : List Char) : lexFloat (tok ++ '\n' :: r) = (tok, '\n' :: r) := by
  obtain ⟨t, u1, hl⟩ := lexFloat_local tok
  have h0 := hl []
  rw [h] at h0
  simp only [Prod.mk.injEq] at h0
  have hu : u1 = [] :=
    List.append_cancel_right (show u1 ++ ['\n'] = [] ++ ['\n'] from h0.2.symm)
  rw [hl r, ← h0.1, hu]
  rfl

theorem mem_stripZeros (c : Char) (l : List Char) (h : c ∈ stripZeros l) : c ∈ l := by
  unfold stripZeros at h
  rw [List.mem_reverse] at h
  have := (List.dropWhile_suffix (fun c => c == '0') (l := l.reverse)).subset h
  simpa using this

theorem F32.layout_chars (ds : List Char) (e : Nat) (hne : ds ≠ [])
    (hds : ∀ c ∈ ds, isspace c = false) :
    F32.layout ds e ≠ [] ∧ ∀ c ∈ F32.layout ds e, isspace c = false := by
  have hdig : ∀ m : Nat, ∀ c ∈ natToChars m, isspace c = false := fun m c hc =>
    (isDigit_not_special c ((natToChars_spec m).2.1 c hc)).2.2
  obtain ⟨d, ds1, rfl⟩ := List.exists_cons_of_ne_nil hne
  simp only [F32.layout]
  split_ifs with h1 h2 h3 h4 h5 h6 h7
  all_goals constructor
  all_goals try simp only [List.forall_mem_append, List.forall_mem_cons]
  all_goals repeat' apply And.intro
  all_goals first
    | exact fun x hx => hds x (List.mem_of_mem_take hx)
    | exact fun x hx => hds x (List.mem_of_mem_drop (mem_stripZeros _ _ hx))
    | exact fun x hx => hds x (mem_stripZeros _ _ hx)
    | exact hdig _
    | exact fun x hx => by rw [(List.mem_replicate.mp hx).2]; decide
    | decide
    | (simp; done)
    | (simp; omega)

theorem F32.formatMag_chars (n : Nat) :
    F32.formatMag n ≠ [] ∧ ∀ c ∈ F32.formatMag n, isspace c = false := by
  have hdig : ∀ m : Nat, ∀ c ∈ natToChars m, isspace c = false := fun m c hc =>
    (isDigit_not_special c ((natToChars_spec m).2.1 c hc)).2.2
  exact F32.layout_chars _ _ (natToChars_spec _).2.2 (hdig _)

theorem F32.format_chars (x : F32) :
    F32.format x ≠ [] ∧ ∀ c ∈ F32.format x, isspace c = false := by
  cases x with
  | nan => decide
  | inf s => cases s <;> decide
  | fin s n =>
    have hm := F32.formatMag_chars n
    have hbody : (if n = 0 then ['0'] else F32.formatMag n) ≠ [] ∧
        ∀ c ∈ (if n = 0 then ['0'] else F32.formatMag n), isspace c = false := by
      split_ifs
      · decide
      · exact hm
    constructor
    · simp [F32.format, hbody.1]
    · intro c hc
      simp only [F32.format, List.mem_append] at hc
      rcases hc with hc | hc
      · cases s
        · simp at hc
        · simp at hc; subst hc; decide
      · exact hbody.2 c hc

theorem F32.storable_spec (x : F32) (hx : x.storable = true) :
    lexFloat (F32.format x ++ ['\n']) = (F32.format x, ['\n']) ∧
      ∃ s n, strtof (F32.format x) = some (F32.fin s n) ∧
        F32.format (F32.fin s n) = F32.format x := by
  simp only [F32.storable, Bool.and_eq_true, beq_iff_eq] at hx
  refine ⟨hx.1, ?_⟩
  have h2 := hx.2
  split at h2
  · rename_i s n hs
    exact ⟨s, n, hs, by simpa using h2⟩
  · simp at h2

theorem IStream.readFloat_written (x : F32) (hx : x.storable = true)
    (pre rest : List Char) (hpre : ∀ d ∈ pre, isspace d = true) (old : F32) :
    IStream.readFloat
        { buf := pre ++ (F32.format x ++ '\n' :: rest), failbit := false, eofbit := false } old =
      (x.reread, { buf := '\n' :: rest, failbit := false, eofbit := false }) ∧
      F32.format x.reread = F32.format x := by
  obtain ⟨hlex, s, n, hst, hfmt⟩ := F32.storable_spec x hx
  obtain ⟨hne, hsp⟩ := F32.format_chars x
  obtain ⟨c, cs, hcs⟩ := List.exists_cons_of_ne_nil hne
  have hc : isspace c = false := hsp c (by simp [hcs])
  have key : ∀ (pre rest : List Char), (∀ d ∈ pre, isspace d = true) → ∀ old,
      IStream.readFloat
        { buf := pre ++ (F32.format x ++ '\n' :: rest), failbit := false, eofbit := false } old =
      (F32.fin s n, { buf := '\n' :: rest, failbit := false, eofbit := false }) := by
    intro pre rest hpre old
    have hl := lexFloat_written (F32.format x) hlex rest
    have hsen := IStream.sentry_ok pre c (cs ++ '\n' :: rest) hpre hc
    rw [hcs] at hl
    simp only [List.cons_append] at hl
    simp only [IStream.readFloat, hcs, List.cons_append, hsen, hl]
    rw [← hcs, hst]
    simp
  have hr : x.reread = F32.fin s n := by
    have := key [] [] (by simp) x
    simp only [List.nil_append] at this
    simp [F32.reread, this]
  rw [hr]
  exact ⟨key pre rest hpre old, hfmt⟩

theorem Account.read_written (a : Account) (ha : a.storable = true) (pre rest : List Char)
    (hpre : ∀ d ∈ pre, isspace d = true) (acc : Account) (type0 : Int) :
    Account.read { buf := pre ++ (a.write ++ rest), failbit := false, eofbit := false } acc type0 =
      (Account.reload acc a, { buf := '\n' :: rest, failbit := false, eofbit := false }) := by
  simp only [Account.storable, isLong, Bool.and_eq_true, decide_eq_true_eq] at ha
  obtain ⟨⟨⟨⟨⟨hlo, hhi⟩, hf⟩, hl⟩, hp⟩, hb⟩ := ha
  have hnl : ∀ d ∈ ['\n'], isspace d = true := by decide
  have ht : (-(2 ^ 31) : Int) ≤ a.type.toInt ∧ a.type.toInt ≤ 2 ^ 31 - 1 := by
    cases a.type <;> simp [AccountType.toInt]
  have hty : AccountType.ofInt a.type.toInt = a.type := by
    cases a.type <;> rfl
  have e1 := IStream.readInteger_written (-(2 ^ 63)) (2 ^ 63 - 1) a.accountNumber hlo hhi pre
    (a.firstName.data ++ '\n' :: (a.lastName.data ++ '\n' :: (a.password.data ++ '\n' ::
      (F32.format a.balance ++ '\n' :: (intToChars a.type.toInt ++ '\n' :: rest))))) hpre
    acc.accountNumber
  have e2 := IStream.readString_written a.firstName hf ['\n']
    (a.lastName.data ++ '\n' :: (a.password.data ++ '\n' ::
      (F32.format a.balance ++ '\n' :: (intToChars a.type.toInt ++ '\n' :: rest)))) hnl
    acc.firstName
  have e3 := IStream.readString_written a.lastName hl ['\n']
    (a.password.data ++ '\n' ::
      (F32.format a.balance ++ '\n' :: (intToChars a.type.toInt ++ '\n' :: rest))) hnl
    acc.lastName
  have e4 := IStream.readString_written a.password hp ['\n']
    (F32.format a.balance ++ '\n' :: (intToChars a.type.toInt ++ '\n' :: rest)) hnl
    acc.password
  have e5 := (IStream.readFloat_written a.balance hb ['\n']
    (intToChars a.type.toInt ++ '\n' :: rest) hnl acc.balance).1
  have e6 := IStream.readInteger_written (-(2 ^ 31)) (2 ^ 31 - 1) a.type.toInt ht.1 ht.2 ['\n']
    rest hnl type0
  simp only [List.singleton_append] at e2 e3 e4 e5 e6
  simp only [Account.read, Account.write, IStream.readLong, IStream.readInt, List.append_assoc,
    List.cons_append, List.nil_append, e1, e2, e3, e4, e5, e6, hty, Account.reload]

theorem Account.read_eof (pre : List Char) (hpre : ∀ d ∈ pre, isspace d = true) (acc : Account)
    (type0 : Int) :
    Account.read { buf := pre, failbit := false, eofbit := false } acc type0 =
      ({ acc with type := AccountType.ofInt type0 },
        { buf := [], failbit := true, eofbit := true }) := by
  have hd : pre.dropWhile isspace = [] := by
    rw [List.dropWhile_eq_nil_iff]
    exact hpre
  simp [Account.read, IStream.readLong, IStream.readInt, IStream.readInteger, IStream.readString,
    IStream.readFloat, IStream.sentry, IStream.good, hd]

theorem Bank.loadLoop_written (type0 : Int) (accs : List Account)
    (hst : ∀ a ∈ accs, a.storable = true) :
    ∀ (pre : List Char), (∀ d ∈ pre, isspace d = true) → ∀ (account : Account) (m : AccountMap)
      (k : Nat),
      Bank.loadLoop type0 (accs.length + 2 + k)
          { buf := pre ++ (accs.map Account.write).flatten, failbit := false, eofbit := false }
          account m =
        some (Bank.loadAccounts type0 accs account m) := by
  induction accs with
  | nil =>
    intro pre hpre account m k
    have e : ([] : List Account).length + 2 + k = (k + 1) + 1 := by simp; omega
    rw [e]
    simp only [List.map_nil, List.flatten_nil, List.append_nil, Bank.loadLoop,
      Account.read_eof pre hpre account type0, Bank.loadAccounts]
    simp
  | cons a rest ih =>
    intro pre hpre account m k
    have ha : a.storable = true := hst a (by simp)
    have hrest : ∀ b ∈ rest, b.storable = true := fun b hb => hst b (by simp [hb])
    have e : (a :: rest).length + 2 + k = (rest.length + 2 + k) + 1 := by simp; omega
    rw [e]
    have hnl : ∀ d ∈ ['\n'], isspace d = true := by decide
    have := ih hrest ['\n'] hnl (Account.reload account a)
      (m.insert a.accountNumber (Account.reload account a)) k
    simp only [List.singleton_append] at this
    simp only [List.map_cons, List.flatten_cons, Bank.loadLoop,
      Account.read_written a ha pre _ hpre account type0, Bank.loadAccounts]
    simpa [Account.reload] using this

theorem AccountMap.insert_above (m : AccountMap) (k : Int) (a : Account)
    (h : ∀ p ∈ m, p.1 < k) : m.insert k a = m ++ [(k, a)] := by
  induction m with
  | nil => rfl
  | cons p m ih =>
    obtain ⟨k1, a1⟩ := p
    have h1 : k1 < k := h (k1, a1) (by simp)
    have h2 : ¬ k < k1 := by omega
    have h3 : ¬ k = k1 := by omega
    simp only [AccountMap.insert, h2, h3, if_false, List.cons_append]
    rw [ih (fun p hp => h p (by simp [hp]))]

theorem AccountMap.insert_present_last (m : AccountMap) (k : Int) (a b : Account)
    (h : ∀ p ∈ m, p.1 < k) : AccountMap.insert (m ++ [(k, a)]) k b = m ++ [(k, a)] := by
  induction m with
  | nil => simp [AccountMap.insert]
  | cons p m ih =>
    obtain ⟨k1, a1⟩ := p
    have h1 : k1 < k := h (k1, a1) (by simp)
    have h2 : ¬ k < k1 := by omega
    have h3 : ¬ k = k1 := by omega
    have := ih (fun p hp => h p (by simp [hp]))
    simp only [List.cons_append, AccountMap.insert, h2, h3, if_false]
    exact congrArg (fun l => (k1, a1) :: l) this

theorem Account.reload_congr (acc account0 a : Account)
    (h : acc.transactions = account0.transactions) :
    Account.reload acc a = Account.reload account0 a := by
  simp [Account.reload, h]

theorem Bank.loadAccounts_sorted (type0 : Int) (account0 : Account) (rest : List Account) :
    ∀ (a : Account) (account : Account) (m : AccountMap),
      (a :: rest).Pairwise (fun x y => x.accountNumber < y.accountNumber) →
      (∀ p ∈ m, ∀ x ∈ a :: rest, p.1 < x.accountNumber) →
      account.transactions = account0.transactions →
      Bank.loadAccounts type0 (a :: rest) account m =
        ({ Account.reload account0 ((a :: rest).getLast (List.cons_ne_nil a rest)) with
            type := AccountType.ofInt type0 },
          m ++ (a :: rest).map (fun x => (x.accountNumber, Account.reload account0 x))) := by
  induction rest with
  | nil =>
    intro a account m _ hm hacc
    have hlt : ∀ p ∈ m, p.1 < a.accountNumber := fun p hp => hm p hp a (by simp)
    simp only [Bank.loadAccounts, Account.reload_congr account account0 a hacc,
      AccountMap.insert_above m _ _ hlt, List.getLast_singleton, List.map_cons, List.map_nil]
    have : (Account.reload account0 a).accountNumber = a.accountNumber := rfl
    rw [this, AccountMap.insert_present_last m _ _ _ hlt]
  | cons b rest ih =>
    intro a account m hs hm hacc
    have hlt : ∀ p ∈ m, p.1 < a.accountNumber := fun p hp => hm p hp a (by simp)
    have hs1 := List.pairwise_cons.mp hs
    have hm1 : ∀ p ∈ m ++ [(a.accountNumber, Account.reload account0 a)],
        ∀ x ∈ b :: rest, p.1 < x.accountNumber := by
      intro p hp x hx
      rcases List.mem_append.mp hp with hp | hp
      · exact hm p hp x (by simp [List.mem_cons.mp hx])
      · simp only [List.mem_singleton] at hp
        subst hp
        exact hs1.1 x hx
    have := ih b (Account.reload account0 a)
      (m ++ [(a.accountNumber, Account.reload account0 a)]) hs1.2 hm1 rfl
    rw [Bank.loadAccounts, Account.reload_congr account account0 a hacc,
      AccountMap.insert_above m _ _ hlt, this]
    simp

theorem Account.write_reload (account0 a : Account) (ha : a.storable = true) :
    (Account.reload account0 a).write = a.write := by
  simp only [Account.storable, Bool.and_eq_true] at ha
  have := (IStream.readFloat_written a.balance ha.2 [] [] (by simp) a.balance).2
  simp [Account.reload, Account.write, this]

/-! ## Rounding: the leading bit, the nearest integer, the nearest `float` -/

theorem F32.log2Aux_spec (fuel : Nat) : ∀ n : Nat, n ≤ fuel → 0 < n →
    2 ^ F32.log2Aux fuel n ≤ n ∧ n < 2 ^ (F32.log2Aux fuel n + 1) := by
  induction fuel with
  | zero => intro n h hn; omega
  | succ f ih =>
    intro n h hn
    simp only [F32.log2Aux]
    by_cases h2 : 2 ≤ n
    · simp only [h2, if_true]
      obtain ⟨h3, h4⟩ := ih (n / 2) (by omega) (by omega)
      generalize F32.log2Aux f (n / 2) = a at h3 h4
      constructor
      · rw [pow_succ]; omega
      · rw [pow_succ]; omega
    · simp only [h2, if_false]
      constructor
      · simpa using hn
      · simp; omega

theorem F32.log2_spec (n : Nat) (hn : 0 < n) :
    2 ^ F32.log2 n ≤ n ∧ n < 2 ^ (F32.log2 n + 1) :=
  F32.log2Aux_spec n n (le_refl n) hn

theorem F32.log2_lt (n p : Nat) (h : n < 2 ^ p) : F32.log2 n ≤ p - 1 := by
  rcases Nat.eq_zero_or_pos n with h0 | h0
  · subst h0
    have : F32.log2 0 = 0 := rfl
    omega
  · have h1 := (F32.log2_spec n h0).1
    have h2 : 2 ^ F32.log2 n < 2 ^ p := lt_of_le_of_lt h1 h
    have := (Nat.pow_lt_pow_iff_right (by decide : 1 < 2)).mp h2
    omega

theorem divRoundEven_bound (N D : Nat) (hD : 0 < D) :
    2 * (divRoundEven N D * D) ≤ 2 * N + D ∧ 2 * N ≤ 2 * (divRoundEven N D * D) + D := by
  have hdm : D * (N / D) + N % D = N := Nat.div_add_mod N D
  have hr : N % D < D := Nat.mod_lt N hD
  have hc : N / D * D = D * (N / D) := Nat.mul_comm _ _
  simp only [divRoundEven]
  split_ifs with h1 h2 h3
  · omega
  · rw [Nat.add_mul]; omega
  · omega
  · rw [Nat.add_mul]; omega

theorem divRoundEven_exact (N D n : Nat) (hD : 0 < D) (h1 : 2 * (n * D) < 2 * N + D)
    (h2 : 2 * N < 2 * (n * D) + D) : divRoundEven N D = n := by
  obtain ⟨b1, b2⟩ := divRoundEven_bound N D hD
  generalize divRoundEven N D = m at b1 b2
  rcases Nat.lt_trichotomy m n with h | h | h
  · have := Nat.mul_le_mul_right D (show m + 1 ≤ n from h)
    rw [Nat.add_mul] at this
    omega
  · exact h
  · have := Nat.mul_le_mul_right D (show n + 1 ≤ m from h)
    rw [Nat.add_mul] at this
    omega

theorem F32.rne_eq (p N D : Nat) :
    F32.rne p N D = divRoundEven N (D * 2 ^ (F32.log2 (N / D) - (p - 1))) *
      2 ^ (F32.log2 (N / D) - (p - 1)) := rfl

theorem F32.rne_exact (p N D n : Nat) (hD : 0 < D) (hk : N < 2 ^ p * D)
    (h1 : 2 * (n * D) < 2 * N + D) (h2 : 2 * N < 2 * (n * D) + D) : F32.rne p N D = n := by
  have hq : N / D < 2 ^ p := (Nat.div_lt_iff_lt_mul hD).mpr hk
  have hl := F32.log2_lt (N / D) p hq
  have hz : F32.log2 (N / D) - (p - 1) = 0 := by omega
  rw [F32.rne_eq, hz, pow_zero, Nat.mul_one, Nat.mul_one]
  exact divRoundEven_exact N D n hD h1 h2

theorem F32.rne_bound (p N D : Nat) (hD : 0 < D) :
    ∃ E, (E = D ∨ E * 2 ^ (p - 1) ≤ N) ∧ 2 * (F32.rne p N D * D) ≤ 2 * N + E ∧
      2 * N ≤ 2 * (F32.rne p N D * D) + E := by
  rw [F32.rne_eq]
  generalize hk : F32.log2 (N / D) - (p - 1) = k
  have hpos : 0 < D * 2 ^ k := Nat.mul_pos hD (by positivity)
  obtain ⟨b1, b2⟩ := divRoundEven_bound N (D * 2 ^ k) hpos
  refine ⟨D * 2 ^ k, ?_, ?_, ?_⟩
  · rcases Nat.eq_zero_or_pos k with h0 | h0
    · left; rw [h0]; simp
    · right
      have hq : 0 < N / D := by
        rcases Nat.eq_zero_or_pos (N / D) with h | h
        · rw [h] at hk
          have : F32.log2 0 = 0 := rfl
          omega
        · exact h
      have h2 := (F32.log2_spec (N / D) hq).1
      have he : k + (p - 1) = F32.log2 (N / D) := by omega
      have : D * 2 ^ k * 2 ^ (p - 1) = D * 2 ^ F32.log2 (N / D) := by
        rw [Nat.mul_assoc, ← pow_add, he]
      rw [this]
      calc D * 2 ^ F32.log2 (N / D) ≤ D * (N / D) := Nat.mul_le_mul_left D h2
        _ ≤ N := Nat.mul_div_le N D
  · have e : divRoundEven N (D * 2 ^ k) * 2 ^ k * D = divRoundEven N (D * 2 ^ k) * (D * 2 ^ k) := by
      ring
    rw [e]; exact b1
  · have e : divRoundEven N (D * 2 ^ k) * 2 ^ k * D = divRoundEven N (D * 2 ^ k) * (D * 2 ^ k) := by
      ring
    rw [e]; exact b2

/-! ## The six significant digits of `%g` -/

theorem natToCharsAux_length (fuel : Nat) : ∀ (n : Nat) (acc : List Char) (e : Nat), n < fuel →
    (e = 0 ∨ 10 ^ e ≤ n) → n < 10 ^ (e + 1) →
    (natToCharsAux fuel n acc).length = acc.length + e + 1 := by
  induction fuel with
  | zero => intro n acc e h; omega
  | succ f ih =>
    intro n acc e h h1 h2
    simp only [natToCharsAux]
    by_cases hn : n < 10
    · have he : e = 0 := by
        rcases h1 with h1 | h1
        · exact h1
        · by_contra hne
          have : 10 ^ 1 ≤ 10 ^ e := Nat.pow_le_pow_right (by decide) (by omega)
          omega
      simp [hn, he]
    · simp only [hn, if_false]
      have he : 1 ≤ e := by
        by_contra hne
        have : e = 0 := by omega
        rw [this] at h2
        omega
      obtain ⟨e1, rfl⟩ : ∃ e1, e = e1 + 1 := ⟨e - 1, by omega⟩
      have h3 : n / 10 < 10 ^ (e1 + 1) := by
        rw [Nat.div_lt_iff_lt_mul (by decide)]
        rw [pow_succ] at h2
        exact h2
      have h4 : e1 = 0 ∨ 10 ^ e1 ≤ n / 10 := by
        rcases h1 with h1 | h1
        · omega
        · right
          rw [Nat.le_div_iff_mul_le (by decide)]
          rw [pow_succ] at h1
          exact h1
      rw [ih (n / 10) _ e1 (by omega) h4 h3]
      simp
      omega

theorem natToChars_length (m e : Nat) (h1 : 10 ^ e ≤ m) (h2 : m < 10 ^ (e + 1)) :
    (natToChars m).length = e + 1 := by
  have := natToCharsAux_length (m + 1) m [] e (by omega) (Or.inr h1) h2
  simpa [natToChars] using this

theorem F32.decExp_eq (n e : Nat) (h1 : 10 ^ e * 2 ^ 149 ≤ n * 10 ^ 45)
    (h2 : n * 10 ^ 45 < 10 ^ (e + 1) * 2 ^ 149) : F32.decExp n = e := by
  have h3 : 10 ^ e ≤ n * 10 ^ 45 / 2 ^ 149 := (Nat.le_div_iff_mul_le (by positivity)).mpr h1
  have h4 : n * 10 ^ 45 / 2 ^ 149 < 10 ^ (e + 1) := (Nat.div_lt_iff_lt_mul (by positivity)).mpr h2
  show (natToChars (n * 10 ^ 45 / 2 ^ 149)).length - 1 = e
  rw [natToChars_length _ e h3 h4]
  rfl

theorem F32.decExp_spec (n : Nat) (hn : 1 ≤ n) :
    10 ^ F32.decExp n * 2 ^ 149 ≤ n * 10 ^ 45 ∧ n * 10 ^ 45 < 10 ^ (F32.decExp n + 1) * 2 ^ 149 := by
  have hm : n * 10 ^ 45 / 2 ^ 149 ≠ 0 := by
    have : 1 ≤ n * 10 ^ 45 / 2 ^ 149 := by
      rw [Nat.le_div_iff_mul_le (by positivity)]
      calc 1 * 2 ^ 149 ≤ 1 * 10 ^ 45 := by norm_num
        _ ≤ n * 10 ^ 45 := Nat.mul_le_mul_right _ hn
    omega
  have h1 := Nat.pow_log_le_self 10 hm
  have h2 := Nat.lt_pow_succ_log_self (by decide : 1 < 10) (n * 10 ^ 45 / 2 ^ 149)
  have h3 := (Nat.le_div_iff_mul_le (by positivity)).mp h1
  have h4 := (Nat.div_lt_iff_lt_mul (by positivity)).mp h2
  rw [F32.decExp_eq n _ h3 h4]
  exact ⟨h3, h4⟩

theorem F32.formatMag_unfold (n : Nat) :
    F32.formatMag n =
      F32.layout
        (natToChars
          (if divRoundEven (n * 10 ^ (45 + (5 - F32.decExp n))) (2 ^ 149 * 10 ^ (F32.decExp n - 5)) =
              1000000 then 100000
            else divRoundEven (n * 10 ^ (45 + (5 - F32.decExp n)))
              (2 ^ 149 * 10 ^ (F32.decExp n - 5))))
        (if divRoundEven (n * 10 ^ (45 + (5 - F32.decExp n))) (2 ^ 149 * 10 ^ (F32.decExp n - 5)) =
            1000000 then F32.decExp n + 1
          else F32.decExp n) := rfl

theorem F32.scale_num (n e : Nat) :
    n * 10 ^ (45 + (5 - e)) * 10 ^ e = n * 10 ^ 50 * 10 ^ (e - 5) := by
  rw [Nat.mul_assoc, Nat.mul_assoc, ← pow_add, ← pow_add]
  congr 2
  omega

theorem F32.scale_den (e : Nat) :
    2 ^ 149 * 10 ^ (e - 5) * 10 ^ e = 10 ^ e * 2 ^ 149 * 10 ^ (e - 5) := by
  ring

theorem F32.digits_range (d0 W M : Nat) (s1 : W ≤ M) (s2 : M < 10 * W)
    (c1 : 2 * (d0 * W) ≤ 2 * (M * 100000) + W) (c2 : 2 * (M * 100000) ≤ 2 * (d0 * W) + W) :
    100000 ≤ d0 ∧ d0 ≤ 1000000 := by
  constructor
  · by_contra h
    have := Nat.mul_le_mul_right W (show d0 + 1 ≤ 100000 by omega)
    rw [Nat.add_mul] at this
    omega
  · by_contra h
    have := Nat.mul_le_mul_right W (show 1000001 ≤ d0 by omega)
    omega

theorem F32.formatMag_digits (n : Nat) (hn : 1 ≤ n) :
    ∃ d e, 10 ^ 5 ≤ d ∧ d < 10 ^ 6 ∧ F32.formatMag n = F32.layout (natToChars d) e ∧
      2 * (d * (10 ^ e * 2 ^ 149)) ≤ 2 * (n * 10 ^ 50) + 10 ^ e * 2 ^ 149 ∧
      2 * (n * 10 ^ 50) ≤ 2 * (d * (10 ^ e * 2 ^ 149)) + 10 ^ e * 2 ^ 149 := by
  obtain ⟨s1, s2⟩ := F32.decExp_spec n hn
  have hu := F32.formatMag_unfold n
  have hD1 : 0 < 2 ^ 149 * 10 ^ (F32.decExp n - 5) := by positivity
  obtain ⟨b1, b2⟩ := divRoundEven_bound (n * 10 ^ (45 + (5 - F32.decExp n)))
    (2 ^ 149 * 10 ^ (F32.decExp n - 5)) hD1
  have e1 := F32.scale_num n (F32.decExp n)
  have e2 := F32.scale_den (F32.decExp n)
  generalize divRoundEven (n * 10 ^ (45 + (5 - F32.decExp n)))
    (2 ^ 149 * 10 ^ (F32.decExp n - 5)) = d0 at hu b1 b2
  generalize F32.decExp n = e0 at s1 s2 hu b1 b2 e1 e2
  have hc : 0 < 10 ^ (e0 - 5) := by positivity
  have hB : n * 10 ^ 50 = n * 10 ^ 45 * 100000 := by ring
  have hW1 : 10 ^ (e0 + 1) * 2 ^ 149 = 10 * (10 ^ e0 * 2 ^ 149) := by ring
  have c1 : 2 * (d0 * (10 ^ e0 * 2 ^ 149)) ≤ 2 * (n * 10 ^ 50) + 10 ^ e0 * 2 ^ 149 := by
    apply Nat.le_of_mul_le_mul_right _ hc
    have := Nat.mul_le_mul_right (10 ^ e0) b1
    calc 2 * (d0 * (10 ^ e0 * 2 ^ 149)) * 10 ^ (e0 - 5)
        = 2 * (d0 * (2 ^ 149 * 10 ^ (e0 - 5))) * 10 ^ e0 := by ring
      _ ≤ (2 * (n * 10 ^ (45 + (5 - e0))) + 2 ^ 149 * 10 ^ (e0 - 5)) * 10 ^ e0 := this
      _ = 2 * (n * 10 ^ (45 + (5 - e0)) * 10 ^ e0) + 2 ^ 149 * 10 ^ (e0 - 5) * 10 ^ e0 := by ring
      _ = (2 * (n * 10 ^ 50) + 10 ^ e0 * 2 ^ 149) * 10 ^ (e0 - 5) := by rw [e1, e2]; ring
  have c2 : 2 * (n * 10 ^ 50) ≤ 2 * (d0 * (10 ^ e0 * 2 ^ 149)) + 10 ^ e0 * 2 ^ 149 := by
    apply Nat.le_of_mul_le_mul_right _ hc
    have := Nat.mul_le_mul_right (10 ^ e0) b2
    calc 2 * (n * 10 ^ 50) * 10 ^ (e0 - 5)
        = 2 * (n * 10 ^ 50 * 10 ^ (e0 - 5)) := by ring
      _ = 2 * (n * 10 ^ (45 + (5 - e0))) * 10 ^ e0 := by rw [← e1]; ring
      _ ≤ (2 * (d0 * (2 ^ 149 * 10 ^ (e0 - 5))) + 2 ^ 149 * 10 ^ (e0 - 5)) * 10 ^ e0 := this
      _ = 2 * d0 * (2 ^ 149 * 10 ^ (e0 - 5) * 10 ^ e0) + 2 ^ 149 * 10 ^ (e0 - 5) * 10 ^ e0 := by
        ring
      _ = (2 * (d0 * (10 ^ e0 * 2 ^ 149)) + 10 ^ e0 * 2 ^ 149) * 10 ^ (e0 - 5) := by
        rw [e2]; ring
  rw [hW1] at s2
  obtain ⟨hlo, hhi⟩ := F32.digits_range d0 (10 ^ e0 * 2 ^ 149) (n * 10 ^ 45) s1 s2
    (by rw [← hB]; exact c1) (by rw [← hB]; exact c2)
  by_cases h6 : d0 = 1000000
  · refine ⟨100000, e0 + 1, by norm_num, by norm_num, ?_, ?_, ?_⟩
    · rw [hu]; simp [h6]
    · subst h6
      rw [hW1]
      omega
    · subst h6
      rw [hW1]
      omega
  · refine ⟨d0, e0, by norm_num; exact hlo, by norm_num; omega, ?_, c1, c2⟩
    rw [hu]; simp [h6]

theorem F32.formatMag_eq (n d e : Nat) (hd1 : 10 ^ 5 ≤ d) (hd2 : d < 10 ^ 6)
    (hlow : 10 ^ e * 2 ^ 149 ≤ n * 10 ^ 45)
    (h1 : 2 * (d * (10 ^ e * 2 ^ 149)) < 2 * (n * 10 ^ 50) + 10 ^ e * 2 ^ 149)
    (h2 : 2 * (n * 10 ^ 50) < 2 * (d * (10 ^ e * 2 ^ 149)) + 10 ^ e * 2 ^ 149) :
    F32.formatMag n = F32.layout (natToChars d) e := by
  have hB : n * 10 ^ 50 = n * 10 ^ 45 * 100000 := by ring
  have hW1 : 10 ^ (e + 1) * 2 ^ 149 = 10 * (10 ^ e * 2 ^ 149) := by ring
  have hup : n * 10 ^ 45 < 10 ^ (e + 1) * 2 ^ 149 := by
    rw [hW1]
    have := Nat.mul_le_mul_right (10 ^ e * 2 ^ 149) (show d + 1 ≤ 1000000 by norm_num at hd2; omega)
    rw [Nat.add_mul] at this
    rw [hB] at h2
    omega
  have he := F32.decExp_eq n e hlow hup
  have hu := F32.formatMag_unfold n
  rw [he] at hu
  have hc : 0 < 10 ^ e := by positivity
  have e1 := F32.scale_num n e
  have e2 := F32.scale_den e
  have hd0 : divRoundEven (n * 10 ^ (45 + (5 - e))) (2 ^ 149 * 10 ^ (e - 5)) = d := by
    apply divRoundEven_exact _ _ _ (by positivity)
    · apply Nat.lt_of_mul_lt_mul_right (a := 10 ^ e)
      calc 2 * (d * (2 ^ 149 * 10 ^ (e - 5))) * 10 ^ e
          = 2 * (d * (10 ^ e * 2 ^ 149)) * 10 ^ (e - 5) := by ring
        _ < (2 * (n * 10 ^ 50) + 10 ^ e * 2 ^ 149) * 10 ^ (e - 5) :=
          Nat.mul_lt_mul_of_pos_right h1 (by positivity)
        _ = 2 * (n * 10 ^ 50 * 10 ^ (e - 5)) + 10 ^ e * 2 ^ 149 * 10 ^ (e - 5) := by ring
        _ = (2 * (n * 10 ^ (45 + (5 - e))) + 2 ^ 149 * 10 ^ (e - 5)) * 10 ^ e := by
          rw [← e1, ← e2]; ring
    · apply Nat.lt_of_mul_lt_mul_right (a := 10 ^ e)
      calc 2 * (n * 10 ^ (45 + (5 - e))) * 10 ^ e
          = 2 * (n * 10 ^ (45 + (5 - e)) * 10 ^ e) := by ring
        _ = 2 * (n * 10 ^ 50) * 10 ^ (e - 5) := by rw [e1]; ring
        _ < (2 * (d * (10 ^ e * 2 ^ 149)) + 10 ^ e * 2 ^ 149) * 10 ^ (e - 5) :=
          Nat.mul_lt_mul_of_pos_right h2 (by positivity)
        _ = 2 * d * (10 ^ e * 2 ^ 149 * 10 ^ (e - 5)) + 10 ^ e * 2 ^ 149 * 10 ^ (e - 5) := by
          ring
        _ = (2 * (d * (2 ^ 149 * 10 ^ (e - 5))) + 2 ^ 149 * 10 ^ (e - 5)) * 10 ^ e := by
          rw [← e2]; ring
  rw [hd0] at hu
  have h6 : d ≠ 1000000 := by norm_num at hd2; omega
  rw [hu]; simp [h6]

/-! ## The extractor on the text of a `float` -/

theorem takeWhile_dropWhile_head (p : Char → Bool) (tok rest : List Char)
    (htok : ∀ c ∈ tok, p c = true) (hstop : ∀ c, rest.head? = some c → p c = false) :
    (tok ++ rest).takeWhile p = tok ∧ (tok ++ rest).dropWhile p = rest := by
  induction tok with
  | nil =>
    cases rest with
    | nil => simp
    | cons c r =>
      have := hstop c rfl
      simp [List.takeWhile, List.dropWhile, this]
  | cons c cs ih =>
    have hc : p c = true := htok c (by simp)
    have := ih (fun d hd => htok d (by simp [hd]))
    simp [List.takeWhile, List.dropWhile, hc, this]

theorem scanFloat_digits (ds : List Char) (h : ∀ c ∈ ds, c.isDigit = true) :
    ∀ (mant dec sci : Bool) (acc rest : List Char),
      scanFloat mant dec sci acc (ds ++ rest) =
        scanFloat (mant || !ds.isEmpty) dec sci (ds.reverse ++ acc) rest := by
  induction ds with
  | nil => intro mant dec sci acc rest; simp
  | cons c cs ih =>
    intro mant dec sci acc rest
    have hc := h c (by simp)
    rw [List.cons_append, scanFloat_cons, if_pos hc, ih (fun d hd => h d (by simp [hd]))]
    simp

theorem scanFloat_point (fp : List Char) (hfp : ∀ c ∈ fp, c.isDigit = true)
    (acc rest : List Char) :
    scanFloat true false false acc ((if fp = [] then [] else '.' :: fp) ++ rest) =
      scanFloat true (!fp.isEmpty) false ((if fp = [] then [] else '.' :: fp).reverse ++ acc)
        rest := by
  by_cases h : fp = []
  · simp [h]
  · have hd : Char.isDigit '.' = false := by decide
    have he : fp.isEmpty = false := by cases fp <;> simp at h ⊢
    simp only [h, if_false, List.cons_append]
    rw [scanFloat_cons]
    simp only [hd, Bool.false_eq_true, if_false, Bool.not_false, and_self, if_true]
    rw [scanFloat_digits fp hfp]
    simp [he]

theorem scanFloat_exp (dec : Bool) (sg : Char) (hsg : sg = '+' ∨ sg = '-') (xd : List Char)
    (hxd : ∀ c ∈ xd, c.isDigit = true) (acc r : List Char) :
    scanFloat true dec false acc ('e' :: sg :: (xd ++ '\n' :: r)) =
      ((xd.reverse ++ sg :: 'e' :: acc).reverse, '\n' :: r) := by
  have hd : Char.isDigit 'e' = false := by decide
  have hp : ¬ ('e' = '.') := by decide
  rw [scanFloat_cons]
  simp only [hd, Bool.false_eq_true, if_false, hp, false_and, true_or, Bool.not_false, and_self,
    if_true, hsg]
  rw [scanFloat_digits xd hxd, scanFloat_stop]

theorem scanFloat_tail (dec : Bool) (tl : List Char)
    (htl : tl = [] ∨ ∃ sg xd, (sg = '+' ∨ sg = '-') ∧ (∀ d ∈ xd, d.isDigit = true) ∧
      tl = 'e' :: sg :: xd) (acc r : List Char) :
    scanFloat true dec false acc (tl ++ '\n' :: r) = ((tl.reverse ++ acc).reverse, '\n' :: r) := by
  rcases htl with rfl | ⟨sg, xd, hsg, hxd, rfl⟩
  · simp [scanFloat_stop]
  · simp only [List.cons_append]
    rw [scanFloat_exp dec sg hsg xd hxd]
    simp

theorem lexFloat_body (c : Char) (cs fp tl : List Char) (hc : c.isDigit = true)
    (hcs : ∀ d ∈ cs, d.isDigit = true) (hz : c ≠ '0' ∨ cs = [])
    (hfp : ∀ d ∈ fp, d.isDigit = true)
    (htl : tl = [] ∨ ∃ sg xd, (sg = '+' ∨ sg = '-') ∧ (∀ d ∈ xd, d.isDigit = true) ∧
      tl = 'e' :: sg :: xd) (r : List Char) :
    ((if ((c :: (cs ++ ((if fp = [] then [] else '.' :: fp) ++ (tl ++ '\n' :: r)))).takeWhile
          (fun c => c == '0')).isEmpty then [] else ['0']) ++
      (scanFloat (!((c :: (cs ++ ((if fp = [] then [] else '.' :: fp) ++ (tl ++ '\n' :: r)))).takeWhile
          (fun c => c == '0')).isEmpty) false false []
        ((c :: (cs ++ ((if fp = [] then [] else '.' :: fp) ++ (tl ++ '\n' :: r)))).dropWhile
          (fun c => c == '0'))).1,
      (scanFloat (!((c :: (cs ++ ((if fp = [] then [] else '.' :: fp) ++ (tl ++ '\n' :: r)))).takeWhile
          (fun c => c == '0')).isEmpty) false false []
        ((c :: (cs ++ ((if fp = [] then [] else '.' :: fp) ++ (tl ++ '\n' :: r)))).dropWhile
          (fun c => c == '0'))).2) =
      (c :: (cs ++ ((if fp = [] then [] else '.' :: fp) ++ tl)), '\n' :: r) := by
  by_cases h0 : c = '0'
  · have hcs0 : cs = [] := by
      rcases hz with hz | hz
      · exact absurd h0 hz
      · exact hz
    subst h0 hcs0
    have hstop : ∀ d, ((if fp = [] then [] else '.' :: fp) ++ (tl ++ '\n' :: r)).head? = some d →
        (d == '0') = false := by
      intro d hd
      by_cases hf : fp = []
      · rcases htl with rfl | ⟨sg, xd, hsg, hxd, rfl⟩
        · simp [hf] at hd; subst hd; decide
        · simp [hf] at hd; subst hd; decide
      · simp [hf] at hd; subst hd; decide
    have htd := takeWhile_dropWhile_head (fun c => c == '0') ['0']
      ((if fp = [] then [] else '.' :: fp) ++ (tl ++ '\n' :: r)) (by decide) hstop
    simp only [List.singleton_append] at htd
    simp only [List.nil_append, htd.1, htd.2, List.isEmpty_cons, Bool.not_false,
      Bool.false_eq_true, if_false]
    rw [scanFloat_point fp hfp, scanFloat_tail _ tl htl]
    simp
  · have hb0 : (c == '0') = false := by simpa using h0
    have ht : (c :: (cs ++ ((if fp = [] then [] else '.' :: fp) ++ (tl ++ '\n' :: r)))).takeWhile
        (fun c => c == '0') = [] := by
      simp [List.takeWhile, hb0]
    have hd : (c :: (cs ++ ((if fp = [] then [] else '.' :: fp) ++ (tl ++ '\n' :: r)))).dropWhile
        (fun c => c == '0') =
        (c :: cs) ++ ((if fp = [] then [] else '.' :: fp) ++ (tl ++ '\n' :: r)) := by
      simp [List.dropWhile, hb0]
    have hall : ∀ d ∈ c :: cs, d.isDigit = true := by
      intro d hd
      rcases List.mem_cons.mp hd with rfl | hd
      · exact hc
      · exact hcs d hd
    rw [ht, hd, scanFloat_digits (c :: cs) hall]
    simp only [List.isEmpty_cons, Bool.not_false, Bool.or_true, List.isEmpty_nil, Bool.not_true]
    rw [scanFloat_point fp hfp, scanFloat_tail _ tl htl]
    simp

theorem lexFloat_text (neg : Bool) (c : Char) (cs fp tl : List Char) (hc : c.isDigit = true)
    (hcs : ∀ d ∈ cs, d.isDigit = true) (hz : c ≠ '0' ∨ cs = [])
    (hfp : ∀ d ∈ fp, d.isDigit = true)
    (htl : tl = [] ∨ ∃ sg xd, (sg = '+' ∨ sg = '-') ∧ (∀ d ∈ xd, d.isDigit = true) ∧
      tl = 'e' :: sg :: xd) :
    lexFloat (((if neg then ['-'] else []) ++
        (c :: (cs ++ ((if fp = [] then [] else '.' :: fp) ++ tl)))) ++ ['\n']) =
      ((if neg then ['-'] else []) ++ (c :: (cs ++ ((if fp = [] then [] else '.' :: fp) ++ tl))),
        ['\n']) := by
  have hb := lexFloat_body c cs fp tl hc hcs hz hfp htl []
  rw [Prod.mk.injEq] at hb
  cases neg with
  | true =>
    have heq : ((if true = true then ['-'] else []) ++
        (c :: (cs ++ ((if fp = [] then [] else '.' :: fp) ++ tl)))) ++ ['\n'] =
        '-' :: c :: (cs ++ ((if fp = [] then [] else '.' :: fp) ++ (tl ++ ['\n']))) := by simp
    rw [heq]
    simp only [lexFloat, List.head?_cons, true_or, if_true, List.tail_cons, List.take_succ_cons,
      List.take_zero]
    rw [List.append_assoc, hb.1, hb.2]
  | false =>
    have heq : ((if false = true then ['-'] else []) ++
        (c :: (cs ++ ((if fp = [] then [] else '.' :: fp) ++ tl)))) ++ ['\n'] =
        c :: (cs ++ ((if fp = [] then [] else '.' :: fp) ++ (tl ++ ['\n']))) := by simp
    have hs := isDigit_not_special c hc
    have hh : ¬ (some c = some '-' ∨ some c = some '+') := by
      simp only [Option.some.injEq]
      exact fun h => h.elim hs.1 hs.2.1
    rw [heq]
    simp only [lexFloat, List.head?_cons, hh, if_false, List.nil_append]
    rw [hb.1, hb.2]
    simp

theorem strtof_parts (neg : Bool) (c : Char) (cs fp tl : List Char) (hc : c.isDigit = true)
    (hcs : ∀ d ∈ cs, d.isDigit = true) (hfp : ∀ d ∈ fp, d.isDigit = true)
    (htl : ∀ d, tl.head? = some d → d = 'e') :
    strtof ((if neg then ['-'] else []) ++
        (c :: (cs ++ ((if fp = [] then [] else '.' :: fp) ++ tl)))) =
      match tl with
      | [] => some (F32.round neg (natOfChars (c :: cs ++ fp) * 2 ^ 149) (10 ^ fp.length))
      | c1 :: r3 =>
        if c1 = 'e' then
          if (if r3.head? = some '-' ∨ r3.head? = some '+' then r3.tail else r3).isEmpty ∨
              !(if r3.head? = some '-' ∨ r3.head? = some '+' then r3.tail else r3).all
                Char.isDigit then none
          else
            if r3.head? = some '-' then
              some (F32.round neg (natOfChars (c :: cs ++ fp) * 2 ^ 149)
                (10 ^ (fp.length +
                  natOfChars (if r3.head? = some '-' ∨ r3.head? = some '+' then r3.tail else r3))))
            else
              some (F32.round neg (natOfChars (c :: cs ++ fp) *
                10 ^ natOfChars (if r3.head? = some '-' ∨ r3.head? = some '+' then r3.tail else r3) *
                2 ^ 149) (10 ^ fp.length))
        else none := by
  have hall : ∀ d ∈ c :: cs, d.isDigit = true := by
    intro d hd
    rcases List.mem_cons.mp hd with rfl | hd
    · exact hc
    · exact hcs d hd
  have he : Char.isDigit 'e' = false := by decide
  have hp : Char.isDigit '.' = false := by decide
  have hstop2 : ∀ d, tl.head? = some d → d.isDigit = false := by
    intro d hd
    rw [htl d hd]
    exact he
  have hstop1 : ∀ d, ((if fp = [] then [] else '.' :: fp) ++ tl).head? = some d →
      d.isDigit = false := by
    intro d hd
    by_cases hf : fp = []
    · simp only [hf, if_true, List.nil_append] at hd
      exact hstop2 d hd
    · simp [hf] at hd; subst hd; exact hp
  have h1 := takeWhile_dropWhile_head Char.isDigit (c :: cs)
    ((if fp = [] then [] else '.' :: fp) ++ tl) hall hstop1
  simp only [List.cons_append] at h1
  have h2 := takeWhile_dropWhile_head Char.isDigit fp tl hfp hstop2
  have hs := isDigit_not_special c hc
  have hneg : ((if neg then ['-'] else []) ++
      (c :: (cs ++ ((if fp = [] then [] else '.' :: fp) ++ tl)))).head? = some '-' ↔ neg = true := by
    cases neg
    · simp [hs.1]
    · simp
  have hbody : (if ((if neg then ['-'] else []) ++
        (c :: (cs ++ ((if fp = [] then [] else '.' :: fp) ++ tl)))).head? = some '-' ∨
      ((if neg then ['-'] else []) ++
        (c :: (cs ++ ((if fp = [] then [] else '.' :: fp) ++ tl)))).head? = some '+' then
      ((if neg then ['-'] else []) ++
        (c :: (cs ++ ((if fp = [] then [] else '.' :: fp) ++ tl)))).tail
      else (if neg then ['-'] else []) ++
        (c :: (cs ++ ((if fp = [] then [] else '.' :: fp) ++ tl)))) =
      c :: (cs ++ ((if fp = [] then [] else '.' :: fp) ++ tl)) := by
    cases neg
    · simp [hs.1, hs.2.1]
    · simp
  have hdneg : decide (((if neg then ['-'] else []) ++
      (c :: (cs ++ ((if fp = [] then [] else '.' :: fp) ++ tl)))).head? = some '-') = neg := by
    cases neg
    · simp [hs.1]
    · simp
  unfold strtof
  simp only [hbody, h1.1, h1.2, hdneg]
  by_cases hf : fp = []
  · subst hf
    have hnp : ¬ (tl.head? = some '.') := by
      intro h
      have := htl _ h
      revert this
      decide
    simp only [if_true, List.nil_append, hnp, if_false, List.isEmpty_cons, List.isEmpty_nil,
      Bool.false_eq_true, false_and, List.append_nil, List.length_nil, pow_zero, Nat.add_zero,
      Nat.zero_add]
    cases tl with
    | nil => rfl
    | cons c1 r3 => rfl
  · have hfe : fp.isEmpty = false := by cases fp <;> simp at hf ⊢
    simp only [hf, if_false, List.cons_append, List.head?_cons, if_true, List.tail_cons, h2.1,
      h2.2, List.isEmpty_cons, Bool.false_eq_true, false_and]
    cases tl with
    | nil => rfl
    | cons c1 r3 => rfl

theorem natOfChars_append (a b : List Char) :
    natOfChars (a ++ b) = natOfChars a * 10 ^ b.length + natOfChars b := by
  have := natOfChars_foldl b (natOfChars a)
  simpa [natOfChars, List.foldl_append] using this

theorem natOfChars_zeros (k : Nat) : natOfChars (List.replicate k '0') = 0 := by
  induction k with
  | zero => rfl
  | succ k ih =>
    rw [List.replicate_succ, natOfChars_cons, ih]
    have : '0'.toNat - 48 = 0 := by decide
    rw [this]
    simp

theorem isDigit_le (c : Char) (h : c.isDigit = true) : c.toNat - 48 ≤ 9 := by
  simp only [Char.isDigit, Bool.and_eq_true, decide_eq_true_eq] at h
  have h2 : c.val.toNat ≤ 57 := h.2
  show c.val.toNat - 48 ≤ 9
  omega

theorem natOfChars_lt (l : List Char) (h : ∀ c ∈ l, c.isDigit = true) :
    natOfChars l < 10 ^ l.length := by
  induction l with
  | nil => simp [natOfChars]
  | cons c cs ih =>
    have h1 := isDigit_le c (h c (by simp))
    have h2 := ih (fun d hd => h d (by simp [hd]))
    rw [natOfChars_cons, List.length_cons, pow_succ]
    have := Nat.mul_le_mul_right (10 ^ cs.length) h1
    omega

theorem stripZeros_spec (l : List Char) :
    ∃ k, l = stripZeros l ++ List.replicate k '0' := by
  have h := List.takeWhile_append_dropWhile (fun c => c == '0') l.reverse
  have h1 : ∀ c ∈ l.reverse.takeWhile (fun c => c == '0'), c = '0' := by
    intro c hc
    have := List.mem_takeWhile_imp hc
    simpa using this
  have h2 : l.reverse.takeWhile (fun c => c == '0') =
      List.replicate (l.reverse.takeWhile (fun c => c == '0')).length '0' :=
    List.eq_replicate_iff.mpr ⟨rfl, h1⟩
  refine ⟨(l.reverse.takeWhile (fun c => c == '0')).length, ?_⟩
  have h3 := congrArg List.reverse h
  rw [List.reverse_append, List.reverse_reverse] at h3
  have h4 : (l.reverse.takeWhile (fun c => c == '0')).reverse =
      List.replicate (l.reverse.takeWhile (fun c => c == '0')).length '0' := by
    conv_lhs => rw [h2]
    rw [List.reverse_replicate]
  rw [h4] at h3
  exact h3.symm

theorem natToChars_six (d : Nat) (hd1 : 10 ^ 5 ≤ d) (hd2 : d < 10 ^ 6) :
    ∃ c rest, natToChars d = c :: rest ∧ rest.length = 5 ∧ c.isDigit = true ∧ c ≠ '0' ∧
      (∀ x ∈ rest, x.isDigit = true) ∧ natOfChars (c :: rest) = d := by
  have hlen := natToChars_length d 5 hd1 hd2
  obtain ⟨hval, hdig, hne⟩ := natToChars_spec d
  obtain ⟨c, rest, hcr⟩ := List.exists_cons_of_ne_nil hne
  rw [hcr] at hlen hval hdig
  have hr : rest.length = 5 := by simpa using hlen
  have hrd : ∀ x ∈ rest, x.isDigit = true := fun x hx => hdig x (by simp [hx])
  refine ⟨c, rest, hcr, hr, hdig c (by simp), ?_, hrd, hval⟩
  rintro rfl
  have h1 := natOfChars_lt rest hrd
  have h0 : '0'.toNat - 48 = 0 := by decide
  rw [natOfChars_cons, hr, h0] at hval
  rw [hr] at h1
  omega

theorem natOfChars_strip (x l : List Char) :
    ∃ k, (stripZeros l).length + k = l.length ∧
      natOfChars (x ++ l) = natOfChars (x ++ stripZeros l) * 10 ^ k := by
  obtain ⟨k, hk⟩ := stripZeros_spec l
  refine ⟨k, ?_, ?_⟩
  · conv_rhs => rw [hk]
    simp
  · conv_lhs => rw [hk]
    rw [← List.append_assoc, natOfChars_append, natOfChars_zeros, List.length_replicate]
    simp

theorem pow10_split (a b c : Nat) (h : a + b + c = 50) :
    (10 : Nat) ^ 50 = 10 ^ a * 10 ^ b * 10 ^ c := by
  rw [← pow_add, ← pow_add, h]

theorem F32.layout_fixed (d e : Nat) (hd1 : 10 ^ 5 ≤ d) (hd2 : d < 10 ^ 6) (h45 : 45 ≤ e)
    (h51 : e < 51) :
    ∃ N Dn, 0 < Dn ∧ N * 10 ^ 50 = d * (10 ^ e * 2 ^ 149) * Dn ∧
      ∀ neg : Bool,
        lexFloat (((if neg then ['-'] else []) ++ F32.layout (natToChars d) e) ++ ['\n']) =
          ((if neg then ['-'] else []) ++ F32.layout (natToChars d) e, ['\n']) ∧
        strtof ((if neg then ['-'] else []) ++ F32.layout (natToChars d) e) =
          some (F32.round neg N Dn) := by
  obtain ⟨c, rest, hds, hr, hc, hc0, hrd, hval⟩ := natToChars_six d hd1 hd2
  obtain ⟨j, rfl⟩ : ∃ j, e = j + 45 := ⟨e - 45, by omega⟩
  have hcs : ∀ x ∈ rest.take j, x.isDigit = true := fun x hx => hrd x (List.mem_of_mem_take hx)
  have hfp : ∀ x ∈ stripZeros (rest.drop j), x.isDigit = true :=
    fun x hx => hrd x (List.mem_of_mem_drop (mem_stripZeros _ _ hx))
  have hlay : F32.layout (c :: rest) (j + 45) =
      c :: (rest.take j ++ ((if stripZeros (rest.drop j) = [] then []
        else '.' :: stripZeros (rest.drop j)) ++ [])) := by
    have h1 : 41 ≤ j + 45 ∧ j + 45 < 51 := ⟨by omega, h51⟩
    have h2 : j + 45 - 44 = j + 1 := by omega
    simp only [F32.layout, h1, h45, if_true, and_self, h2, List.take_succ_cons,
      List.drop_succ_cons, List.cons_append, List.append_nil]
  obtain ⟨k, hk1, hk2⟩ := natOfChars_strip (c :: rest.take j) (rest.drop j)
  rw [List.cons_append, List.take_append_drop, hval] at hk2
  have hlen : (rest.drop j).length = 5 - j := by simp [hr]
  refine ⟨natOfChars (c :: rest.take j ++ stripZeros (rest.drop j)) * 2 ^ 149,
    10 ^ (stripZeros (rest.drop j)).length, by positivity, ?_, ?_⟩
  · rw [hk2, pow10_split k (j + 45) (stripZeros (rest.drop j)).length (by omega)]
    ring
  · intro neg
    rw [hds, hlay]
    refine ⟨lexFloat_text neg c _ _ [] hc hcs (Or.inl hc0) hfp (Or.inl rfl), ?_⟩
    rw [strtof_parts neg c _ _ [] hc hcs hfp (by simp)]

theorem F32.layout_small (d e : Nat) (hd1 : 10 ^ 5 ≤ d) (hd2 : d < 10 ^ 6) (h41 : 41 ≤ e)
    (h45 : e < 45) :
    ∃ N Dn, 0 < Dn ∧ N * 10 ^ 50 = d * (10 ^ e * 2 ^ 149) * Dn ∧
      ∀ neg : Bool,
        lexFloat (((if neg then ['-'] else []) ++ F32.layout (natToChars d) e) ++ ['\n']) =
          ((if neg then ['-'] else []) ++ F32.layout (natToChars d) e, ['\n']) ∧
        strtof ((if neg then ['-'] else []) ++ F32.layout (natToChars d) e) =
          some (F32.round neg N Dn) := by
  obtain ⟨c, rest, hds, hr, hc, hc0, hrd, hval⟩ := natToChars_six d hd1 hd2
  have hall : ∀ x ∈ c :: rest, x.isDigit = true := by
    intro x hx
    rcases List.mem_cons.mp hx with rfl | hx
    · exact hc
    · exact hrd x hx
  obtain ⟨k, hk1, hk2⟩ := natOfChars_strip [] (c :: rest)
  simp only [List.nil_append] at hk2
  rw [hval] at hk2
  have hsz : stripZeros (c :: rest) ≠ [] := by
    intro h
    obtain ⟨k1, hk⟩ := stripZeros_spec (c :: rest)
    rw [h, List.nil_append] at hk
    have : c ∈ List.replicate k1 '0' := by rw [← hk]; simp
    exact hc0 (List.eq_of_mem_replicate this)
  have hz : Char.isDigit '0' = true := by decide
  have hfp : ∀ x ∈ List.replicate (44 - e) '0' ++ stripZeros (c :: rest), x.isDigit = true := by
    intro x hx
    rcases List.mem_append.mp hx with hx | hx
    · rw [List.eq_of_mem_replicate hx]; exact hz
    · exact hall x (mem_stripZeros _ _ hx)
  have hne : List.replicate (44 - e) '0' ++ stripZeros (c :: rest) ≠ [] := by
    simp [hsz]
  have hlay : F32.layout (c :: rest) e =
      '0' :: ([] ++ ((if List.replicate (44 - e) '0' ++ stripZeros (c :: rest) = [] then []
        else '.' :: (List.replicate (44 - e) '0' ++ stripZeros (c :: rest))) ++ [])) := by
    have h1 : 41 ≤ e ∧ e < 51 := ⟨h41, by omega⟩
    have h2 : ¬ 45 ≤ e := by omega
    simp only [F32.layout, h1, h2, if_true, if_false, and_self, hne, List.nil_append,
      List.append_nil]
  have hlen : (c :: rest).length = 6 := by simp [hr]
  have hm : natOfChars ('0' :: [] ++ (List.replicate (44 - e) '0' ++ stripZeros (c :: rest))) =
      natOfChars (stripZeros (c :: rest)) := by
    have h0 : '0'.toNat - 48 = 0 := by decide
    rw [List.cons_append, List.nil_append, natOfChars_cons, h0, natOfChars_append,
      natOfChars_zeros]
    simp
  refine ⟨natOfChars ('0' :: [] ++ (List.replicate (44 - e) '0' ++ stripZeros (c :: rest))) *
      2 ^ 149,
    10 ^ (List.replicate (44 - e) '0' ++ stripZeros (c :: rest)).length, by positivity, ?_, ?_⟩
  · rw [hm, hk2, List.length_append, List.length_replicate,
      pow10_split k e (44 - e + (stripZeros (c :: rest)).length) (by omega)]
    ring
  · intro neg
    rw [hds, hlay]
    refine ⟨lexFloat_text neg '0' [] _ [] hz (by simp) (Or.inr rfl) hfp (Or.inl rfl), ?_⟩
    rw [strtof_parts neg '0' [] _ [] hz (by simp) hfp (by simp)]

theorem strtof_sci (neg eneg : Bool) (c : Char) (cs fp xd : List Char) (hc : c.isDigit = true)
    (hcs : ∀ d ∈ cs, d.isDigit = true) (hfp : ∀ d ∈ fp, d.isDigit = true)
    (hxd : ∀ d ∈ xd, d.isDigit = true) (hne : xd ≠ []) :
    strtof ((if neg then ['-'] else []) ++
        (c :: (cs ++ ((if fp = [] then [] else '.' :: fp) ++
          ('e' :: (if eneg then '-' else '+') :: xd))))) =
      some (if eneg then
          F32.round neg (natOfChars (c :: cs ++ fp) * 2 ^ 149) (10 ^ (fp.length + natOfChars xd))
        else
          F32.round neg (natOfChars (c :: cs ++ fp) * 10 ^ natOfChars xd * 2 ^ 149)
            (10 ^ fp.length)) := by
  rw [strtof_parts neg c cs fp _ hc hcs hfp (by simp)]
  have he : xd.isEmpty = false := by cases xd <;> simp at hne ⊢
  have ha : xd.all Char.isDigit = true := List.all_eq_true.mpr hxd
  cases eneg
  · have h1 : ¬ ('+' = '-') := by decide
    simp [he, ha, h1]
  · simp [he, ha]

theorem F32.layout_sci (d e : Nat) (hd1 : 10 ^ 5 ≤ d) (hd2 : d < 10 ^ 6)
    (he : ¬ (41 ≤ e ∧ e < 51)) :
    ∃ N Dn, 0 < Dn ∧ N * 10 ^ 50 = d * (10 ^ e * 2 ^ 149) * Dn ∧
      ∀ neg : Bool,
        lexFloat (((if neg then ['-'] else []) ++ F32.layout (natToChars d) e) ++ ['\n']) =
          ((if neg then ['-'] else []) ++ F32.layout (natToChars d) e, ['\n']) ∧
        strtof ((if neg then ['-'] else []) ++ F32.layout (natToChars d) e) =
          some (F32.round neg N Dn) := by
  obtain ⟨c, rest, hds, hr, hc, hc0, hrd, hval⟩ := natToChars_six d hd1 hd2
  have hfp : ∀ x ∈ stripZeros rest, x.isDigit = true :=
    fun x hx => hrd x (mem_stripZeros _ _ hx)
  obtain ⟨k, hk1, hk2⟩ := natOfChars_strip [c] rest
  simp only [List.singleton_append] at hk2
  rw [hval] at hk2
  have hz : Char.isDigit '0' = true := by decide
  -- the digits of the exponent
  have hxd : ∀ x : Nat, (∀ y ∈ (if x < 10 then ['0'] else []) ++ natToChars x, y.isDigit = true) ∧
      (if x < 10 then ['0'] else []) ++ natToChars x ≠ [] ∧
      natOfChars ((if x < 10 then ['0'] else []) ++ natToChars x) = x := by
    intro x
    obtain ⟨v1, v2, v3⟩ := natToChars_spec x
    refine ⟨?_, by simp [v3], ?_⟩
    · intro y hy
      rcases List.mem_append.mp hy with hy | hy
      · split_ifs at hy
        · simp at hy; rw [hy]; exact hz
        · simp at hy
      · exact v2 y hy
    · rw [natOfChars_append, v1]
      split_ifs <;> simp [natOfChars]
  have hlen : (stripZeros rest).length + k = 5 := by rw [hk1, hr]
  have ht1 : List.take 1 (c :: rest) = [c] := rfl
  have hd1 : List.drop 1 (c :: rest) = rest := rfl
  by_cases h45 : 45 ≤ e
  · obtain ⟨hx1, hx2, hx3⟩ := hxd (e - 45)
    have hlay : F32.layout (c :: rest) e =
        c :: ([] ++ ((if stripZeros rest = [] then [] else '.' :: stripZeros rest) ++
          ('e' :: (if false = true then '-' else '+') ::
            ((if e - 45 < 10 then ['0'] else []) ++ natToChars (e - 45))))) := by
      simp only [F32.layout, he, h45, if_true, if_false, ht1, hd1, List.singleton_append,
        List.cons_append, List.nil_append, Bool.false_eq_true]
    refine ⟨natOfChars (c :: [] ++ stripZeros rest) * 10 ^ (e - 45) * 2 ^ 149,
      10 ^ (stripZeros rest).length, by positivity, ?_, ?_⟩
    · have e1 : (10 : Nat) ^ e = 10 ^ (e - 45) * 10 ^ 45 := by
        rw [← pow_add]; congr 1; omega
      rw [List.cons_append, List.nil_append, hk2, e1,
        pow10_split k 45 (stripZeros rest).length (by omega)]
      ring
    · intro neg
      rw [hds, hlay]
      refine ⟨lexFloat_text neg c [] _ _ hc (by simp) (Or.inl hc0) hfp
        (Or.inr ⟨_, _, Or.inl rfl, hx1, rfl⟩), ?_⟩
      rw [strtof_sci neg false c [] _ _ hc (by simp) hfp hx1 hx2, hx3]
      rfl
  · obtain ⟨hx1, hx2, hx3⟩ := hxd (45 - e)
    have hlay : F32.layout (c :: rest) e =
        c :: ([] ++ ((if stripZeros rest = [] then [] else '.' :: stripZeros rest) ++
          ('e' :: (if true = true then '-' else '+') ::
            ((if 45 - e < 10 then ['0'] else []) ++ natToChars (45 - e))))) := by
      simp only [F32.layout, he, h45, if_true, if_false, ht1, hd1, List.singleton_append,
        List.cons_append, List.nil_append]
    refine ⟨natOfChars (c :: [] ++ stripZeros rest) * 2 ^ 149,
      10 ^ ((stripZeros rest).length + (45 - e)), by positivity, ?_, ?_⟩
    · rw [List.cons_append, List.nil_append, hk2,
        pow10_split k e ((stripZeros rest).length + (45 - e)) (by omega)]
      ring
    · intro neg
      rw [hds, hlay]
      refine ⟨lexFloat_text neg c [] _ _ hc (by simp) (Or.inl hc0) hfp
        (Or.inr ⟨_, _, Or.inr rfl, hx1, rfl⟩), ?_⟩
      rw [strtof_sci neg true c [] _ _ hc (by simp) hfp hx1 hx2, hx3]
      rfl

theorem F32.layout_parse (d e : Nat) (hd1 : 10 ^ 5 ≤ d) (hd2 : d < 10 ^ 6) :
    ∃ N Dn, 0 < Dn ∧ N * 10 ^ 50 = d * (10 ^ e * 2 ^ 149) * Dn ∧
      ∀ neg : Bool,
        lexFloat (((if neg then ['-'] else []) ++ F32.layout (natToChars d) e) ++ ['\n']) =
          ((if neg then ['-'] else []) ++ F32.layout (natToChars d) e, ['\n']) ∧
        strtof ((if neg then ['-'] else []) ++ F32.layout (natToChars d) e) =
          some (F32.round neg N Dn) := by
  by_cases he : 41 ≤ e ∧ e < 51
  · by_cases h45 : 45 ≤ e
    · exact F32.layout_fixed d e hd1 hd2 h45 he.2
    · exact F32.layout_small d e hd1 hd2 he.1 (by omega)
  · exact F32.layout_sci d e hd1 hd2 he

theorem F32.rne_reread_exact (n d W N Dn : Nat) (hDn : 0 < Dn) (hW : W ≤ 10 ^ 5 * 2 ^ 149)
    (hd : d < 10 ^ 6) (c1 : 2 * (d * W) ≤ 2 * (n * 10 ^ 50) + W)
    (c2 : 2 * (n * 10 ^ 50) ≤ 2 * (d * W) + W) (hR : N * 10 ^ 50 = d * W * Dn) :
    F32.rne 24 N Dn = n := by
  have hWD : W * Dn ≤ 10 ^ 5 * 2 ^ 149 * Dn := Nat.mul_le_mul_right Dn hW
  have hdW : d * (W * Dn) ≤ 999999 * (W * Dn) :=
    Nat.mul_le_mul_right _ (by norm_num at hd; omega)
  have hR2 : N * 10 ^ 50 = d * (W * Dn) := by rw [hR]; ring
  have m1 : 2 * (d * (W * Dn)) ≤ 2 * (n * Dn * 10 ^ 50) + W * Dn := by
    have := Nat.mul_le_mul_right Dn c1
    calc 2 * (d * (W * Dn)) = 2 * (d * W) * Dn := by ring
      _ ≤ (2 * (n * 10 ^ 50) + W) * Dn := this
      _ = 2 * (n * Dn * 10 ^ 50) + W * Dn := by ring
  have m2 : 2 * (n * Dn * 10 ^ 50) ≤ 2 * (d * (W * Dn)) + W * Dn := by
    have := Nat.mul_le_mul_right Dn c2
    calc 2 * (n * Dn * 10 ^ 50) = 2 * (n * 10 ^ 50) * Dn := by ring
      _ ≤ (2 * (d * W) + W) * Dn := this
      _ = 2 * (d * (W * Dn)) + W * Dn := by ring
  rw [← hR2] at m1 m2 hdW
  generalize W * Dn = WD at hWD hdW m1 m2
  norm_num at hWD hdW m1 m2
  apply F32.rne_exact 24 N Dn n hDn
  · norm_num; omega
  · omega
  · omega

theorem F32.rne_reread_near (d W N Dn : Nat) (hDn : 0 < Dn) (hW : 10 ^ 50 < W) (hd : d < 10 ^ 6)
    (hR : N * 10 ^ 50 = d * W * Dn) :
    2 * (d * W) < 2 * (F32.rne 24 N Dn * 10 ^ 50) + W ∧
      2 * (F32.rne 24 N Dn * 10 ^ 50) < 2 * (d * W) + W ∧
      2 ^ 24 * (F32.rne 24 N Dn * 10 ^ 50) ≤ (2 ^ 24 + 1) * (d * W) + 2 ^ 23 * 10 ^ 50 := by
  obtain ⟨E, hE, b1, b2⟩ := F32.rne_bound 24 N Dn hDn
  generalize F32.rne 24 N Dn = m at b1 b2 ⊢
  have hWD : 10 ^ 50 * Dn < W * Dn := Nat.mul_lt_mul_of_pos_right hW hDn
  have hdW : d * (W * Dn) ≤ 999999 * (W * Dn) :=
    Nat.mul_le_mul_right _ (by norm_num at hd; omega)
  have hR2 : N * 10 ^ 50 = d * (W * Dn) := by rw [hR]; ring
  have hE2 : E * 10 ^ 50 < W * Dn := by
    rcases hE with rfl | hE
    · rw [Nat.mul_comm]; exact hWD
    · rw [← hR2] at hdW
      generalize W * Dn = WD at hdW hWD ⊢
      norm_num at hE hdW ⊢
      omega
  have h3 : 2 ^ 24 * 10 ^ 50 * (m * Dn) ≤ (2 ^ 24 + 1) * (d * (W * Dn)) + 2 ^ 23 * 10 ^ 50 * Dn := by
    rw [← hR2]
    rcases hE with rfl | hE
    · norm_num at b1 ⊢
      omega
    · norm_num at b1 hE ⊢
      omega
  refine ⟨?_, ?_, ?_⟩
  · apply Nat.lt_of_mul_lt_mul_right (a := Dn)
    calc 2 * (d * W) * Dn = 2 * (d * (W * Dn)) := by ring
      _ = 2 * N * 10 ^ 50 := by rw [← hR2]; ring
      _ ≤ (2 * (m * Dn) + E) * 10 ^ 50 := Nat.mul_le_mul_right _ b2
      _ = 2 * (m * Dn) * 10 ^ 50 + E * 10 ^ 50 := by ring
      _ < 2 * (m * Dn) * 10 ^ 50 + W * Dn := by omega
      _ = (2 * (m * 10 ^ 50) + W) * Dn := by ring
  · apply Nat.lt_of_mul_lt_mul_right (a := Dn)
    calc 2 * (m * 10 ^ 50) * Dn = 2 * (m * Dn) * 10 ^ 50 := by ring
      _ ≤ (2 * N + E) * 10 ^ 50 := Nat.mul_le_mul_right _ b1
      _ = 2 * (N * 10 ^ 50) + E * 10 ^ 50 := by ring
      _ < 2 * (N * 10 ^ 50) + W * Dn := by omega
      _ = (2 * (d * W) + W) * Dn := by rw [hR2]; ring
  · apply Nat.le_of_mul_le_mul_right _ hDn
    calc 2 ^ 24 * (m * 10 ^ 50) * Dn = 2 ^ 24 * 10 ^ 50 * (m * Dn) := by ring
      _ ≤ (2 ^ 24 + 1) * (d * (W * Dn)) + 2 ^ 23 * 10 ^ 50 * Dn := h3
      _ = ((2 ^ 24 + 1) * (d * W) + 2 ^ 23 * 10 ^ 50) * Dn := by ring

theorem F32.powTen_table : ∀ e : Fin 84, 6 ≤ e.val →
    (match strtof (F32.layout (natToChars 100000) e.val) with
      | some (F32.fin _ m) =>
        decide (m ≠ 0) && (F32.formatMag m == F32.layout (natToChars 100000) e.val)
      | _ => false) = true := by
  decide

theorem F32.reread_digits (n d e N Dn : Nat) (h0 : 0 < n) (hn : n ≤ FLT_MAX)
    (hd1 : 10 ^ 5 ≤ d) (hd2 : d < 10 ^ 6)
    (hfm : F32.formatMag n = F32.layout (natToChars d) e)
    (c1 : 2 * (d * (10 ^ e * 2 ^ 149)) ≤ 2 * (n * 10 ^ 50) + 10 ^ e * 2 ^ 149)
    (c2 : 2 * (n * 10 ^ 50) ≤ 2 * (d * (10 ^ e * 2 ^ 149)) + 10 ^ e * 2 ^ 149)
    (hDn : 0 < Dn) (hR : N * 10 ^ 50 = d * (10 ^ e * 2 ^ 149) * Dn)
    (hst : strtof (F32.layout (natToChars d) e) = some (F32.round false N Dn)) :
    F32.rne 24 N Dn < 2 ^ 277 ∧ F32.rne 24 N Dn ≠ 0 ∧
      F32.formatMag (F32.rne 24 N Dn) = F32.layout (natToChars d) e := by
  have hnmax : n * 10 ^ 50 ≤ FLT_MAX * 10 ^ 50 := Nat.mul_le_mul_right _ hn
  have hdlo : 100000 * (10 ^ e * 2 ^ 149) ≤ d * (10 ^ e * 2 ^ 149) :=
    Nat.mul_le_mul_right _ (by norm_num at hd1; exact hd1)
  have hdhi : d * (10 ^ e * 2 ^ 149) ≤ 999999 * (10 ^ e * 2 ^ 149) :=
    Nat.mul_le_mul_right _ (by norm_num at hd2; omega)
  have he83 : e ≤ 83 := by
    by_contra h
    have hW : 10 ^ 84 * 2 ^ 149 ≤ 10 ^ e * 2 ^ 149 :=
      Nat.mul_le_mul_right _ (Nat.pow_le_pow_right (by decide) (by omega))
    generalize 10 ^ e * 2 ^ 149 = W at *
    simp only [FLT_MAX] at hnmax
    norm_num at hnmax hW c1
    omega
  by_cases h5 : e ≤ 5
  · have hW : 10 ^ e * 2 ^ 149 ≤ 10 ^ 5 * 2 ^ 149 :=
      Nat.mul_le_mul_right _ (Nat.pow_le_pow_right (by decide) h5)
    have hex := F32.rne_reread_exact n d (10 ^ e * 2 ^ 149) N Dn hDn hW hd2 c1 c2 hR
    rw [hex]
    refine ⟨lt_of_le_of_lt hn ?_, by omega, hfm⟩
    unfold FLT_MAX
    norm_num
  · by_cases hd : d = 100000
    · subst hd
      have ht := F32.powTen_table ⟨e, by omega⟩ (by simp; omega)
      simp only [hst, F32.round] at ht
      split_ifs at ht with hlt
      simp only [Bool.and_eq_true, decide_eq_true_eq, beq_iff_eq] at ht
      exact ⟨hlt, ht.1, ht.2⟩
    · have hW6 : 10 ^ 6 * 2 ^ 149 ≤ 10 ^ e * 2 ^ 149 :=
        Nat.mul_le_mul_right _ (Nat.pow_le_pow_right (by decide) (by omega))
      have hW50 : 10 ^ 50 < 10 ^ e * 2 ^ 149 := lt_of_lt_of_le (by norm_num) hW6
      obtain ⟨n1, n2, n3⟩ := F32.rne_reread_near d (10 ^ e * 2 ^ 149) N Dn hDn hW50 hd2 hR
      have hdlo2 : 100001 * (10 ^ e * 2 ^ 149) ≤ d * (10 ^ e * 2 ^ 149) :=
        Nat.mul_le_mul_right _ (by norm_num at hd1; omega)
      have hlow : 10 ^ e * 2 ^ 149 ≤ F32.rne 24 N Dn * 10 ^ 45 := by
        have hB : F32.rne 24 N Dn * 10 ^ 50 = F32.rne 24 N Dn * 10 ^ 45 * 100000 := by ring
        rw [hB] at n1
        generalize F32.rne 24 N Dn * 10 ^ 45 = M at n1 ⊢
        generalize 10 ^ e * 2 ^ 149 = W at n1 hdlo2 ⊢
        omega
      refine ⟨?_, ?_, F32.formatMag_eq _ d e hd1 hd2 hlow n1 n2⟩
      · by_cases h83 : e = 83
        · subst h83
          simp only [FLT_MAX] at hnmax
          generalize F32.rne 24 N Dn = m at n3 ⊢
          norm_num at hnmax c1 n3 ⊢
          omega
        · have hW82 : 10 ^ e * 2 ^ 149 ≤ 10 ^ 82 * 2 ^ 149 :=
            Nat.mul_le_mul_right _ (Nat.pow_le_pow_right (by decide) (by omega))
          generalize F32.rne 24 N Dn = m at n2 ⊢
          generalize 10 ^ e * 2 ^ 149 = W at n2 hdhi hW82
          norm_num at hW82 n2 ⊢
          omega
      · intro hz
        rw [hz] at hlow
        have : 0 < 10 ^ e * 2 ^ 149 := by positivity
        omega

theorem F32.storable_of_finite (s : Bool) (n : Nat) (hn : n ≤ FLT_MAX) :
    (F32.fin s n).storable = true := by
  rcases Nat.eq_zero_or_pos n with h0 | h0
  · subst h0
    cases s <;> decide
  · obtain ⟨d, e, hd1, hd2, hfm, c1, c2⟩ := F32.formatMag_digits n h0
    obtain ⟨N, Dn, hDn, hR, hlp⟩ := F32.layout_parse d e hd1 hd2
    have hfmt : F32.format (F32.fin s n) =
        (if s then ['-'] else []) ++ F32.layout (natToChars d) e := by
      have hne : ¬ n = 0 := by omega
      simp only [F32.format, hfm, hne, if_false]
    have hst : strtof (F32.layout (natToChars d) e) = some (F32.round false N Dn) := by
      have := (hlp false).2
      simpa using this
    obtain ⟨k1, k2, k3⟩ := F32.reread_digits n d e N Dn h0 hn hd1 hd2 hfm c1 c2 hDn hR hst
    have hround : F32.round s N Dn = F32.fin s (F32.rne 24 N Dn) := by
      simp only [F32.round, k1, if_true]
    have hfmt2 : F32.format (F32.fin s (F32.rne 24 N Dn)) =
        (if s then ['-'] else []) ++ F32.layout (natToChars d) e := by
      simp only [F32.format, k2, if_false, k3]
    simp only [F32.storable, hfmt, (hlp s).1, (hlp s).2, hround, hfmt2, beq_self_eq_true,
      Bool.and_self]

/-! ## C6: the counter and the numbers issued -/

theorem Bank.loadLoop_mono (type0 : Int) (f j : Nat) :
    ∀ (s : IStream) (a : Account) (m : AccountMap) (r : Account × AccountMap),
      Bank.loadLoop type0 f s a m = some r → Bank.loadLoop type0 (f + j) s a m = some r := by
  induction f with
  | zero => intro s a m r h; simp [Bank.loadLoop] at h
  | succ f ih =>
    intro s a m r h
    have e : f + 1 + j = (f + j) + 1 := by omega
    rw [e]
    simp only [Bank.loadLoop] at h ⊢
    by_cases he : s.eofbit = true
    · simpa [he] using h
    · simp only [he, Bool.false_eq_true, if_false] at h ⊢
      exact ih _ _ _ _ h

theorem AccountMap.mem_of_find (m : AccountMap) (n : Int) (a : Account)
    (h : m.find n = some a) : (n, a) ∈ m := by
  induction m with
  | nil => simp [AccountMap.find] at h
  | cons p m ih =>
    obtain ⟨k, a1⟩ := p
    by_cases hk : k = n
    · simp only [AccountMap.find, hk, if_true, Option.some.injEq] at h
      simp [hk, h]
    · simp only [AccountMap.find, hk, if_false] at h
      exact List.mem_cons_of_mem _ (ih h)

theorem AccountMap.keys_set (m : AccountMap) (n : Int) (a : Account) :
    (m.set n a).keys = m.keys := by
  induction m with
  | nil => rfl
  | cons p m ih =>
    obtain ⟨k, a1⟩ := p
    by_cases hk : k = n
    · simp [AccountMap.set, AccountMap.keys, hk]
    · simp only [AccountMap.set, hk, if_false, AccountMap.keys, List.map_cons] at ih ⊢
      rw [ih]

theorem AccountMap.mem_set (m : AccountMap) (n : Int) (a : Account) (p : Int × Account)
    (h : p ∈ m.set n a) : p ∈ m ∨ p = (n, a) := by
  induction m with
  | nil => simp [AccountMap.set] at h
  | cons q m ih =>
    obtain ⟨k, a1⟩ := q
    by_cases hk : k = n
    · simp only [AccountMap.set, hk, if_true, List.mem_cons] at h
      rcases h with h | h
      · right; exact h
      · left; exact List.mem_cons_of_mem _ h
    · simp only [AccountMap.set, hk, if_false, List.mem_cons] at h
      rcases h with h | h
      · left; simp [h]
      · rcases ih h with h1 | h1
        · left; exact List.mem_cons_of_mem _ h1
        · right; exact h1

theorem Account.deposit_accountNumber (a : Account) (x : F32) (now : Int) :
    (a.deposit x now).2.accountNumber = a.accountNumber := by
  unfold Account.deposit
  split <;> rfl

theorem Account.withdraw_accountNumber (a : Account) (x : F32) (now : Int) :
    (a.withdraw x now).2.accountNumber = a.accountNumber := by
  unfold Account.withdraw
  split
  · rfl
  · split <;> rfl

theorem Bank.wellKeyed_set (b : Bank) (n : Int) (acc a1 : Account) (hb : b.wellKeyed)
    (hf : b.accounts.find n = some acc) (ha : a1.accountNumber = acc.accountNumber) :
    Bank.wellKeyed { b with accounts := b.accounts.set n a1 } := by
  obtain ⟨h1, h2, h3⟩ := hb
  have hn : acc.accountNumber = n := h2 _ (AccountMap.mem_of_find _ _ _ hf)
  refine ⟨?_, ?_, ?_⟩
  · simpa [AccountMap.keys_set] using h1
  · intro p hp
    rcases AccountMap.mem_set _ _ _ _ hp with hp | hp
    · exact h2 p hp
    · subst hp
      simp [ha, hn]
  · simpa [AccountMap.keys_set] using h3

theorem Bank.wellKeyed_call (b : Bank) (c : BankCall) (hb : b.wellKeyed) :
    (b.call c).2.wellKeyed := by
  cases c with
  | openAccount f l p x t now =>
    obtain ⟨h1, h2, h3⟩ := hb
    have habove : ∀ q ∈ b.accounts, q.1 < b.nextAccountNumber + 1 := by
      intro q hq
      have := h3 q.1 (List.mem_map_of_mem _ hq)
      omega
    simp only [Bank.call, Bank.openAccount, Account.create, Account.addTransaction,
      AccountMap.insert_above _ _ _ habove]
    refine ⟨?_, ?_, ?_⟩
    · simp only [AccountMap.keys, List.map_append, List.map_cons, List.map_nil]
      rw [List.pairwise_append]
      refine ⟨h1, by simp, ?_⟩
      intro j hj k hk
      simp only [List.mem_singleton] at hk
      have := h3 j hj
      omega
    · intro q hq
      rcases List.mem_append.mp hq with hq | hq
      · exact h2 q hq
      · simp only [List.mem_singleton] at hq
        subst hq
        rfl
    · intro k hk
      simp only [AccountMap.keys, List.map_append, List.map_cons, List.map_nil,
        List.mem_append, List.mem_singleton] at hk
      show k ≤ b.nextAccountNumber + 1
      rcases hk with hk | hk
      · have := h3 k hk
        omega
      · omega
  | balanceEnquiry n p =>
    simp only [Bank.call, Bank.balanceEnquiry]
    split
    · exact hb
    · split <;> exact hb
  | deposit n p x now =>
    simp only [Bank.call, Bank.deposit]
    cases hf : b.accounts.find n with
    | none => exact hb
    | some acc =>
      by_cases hv : (!acc.verifyPassword p) = true
      · simpa [hv] using hb
      · simp only [hv]
        have := Bank.wellKeyed_set b n acc (acc.deposit x now).2 hb hf
          (Account.deposit_accountNumber acc x now)
        cases (acc.deposit x now).1 <;> exact this
  | withdraw n p x now =>
    simp only [Bank.call, Bank.withdraw]
    cases hf : b.accounts.find n with
    | none => exact hb
    | some acc =>
      by_cases hv : (!acc.verifyPassword p) = true
      · simpa [hv] using hb
      · simp only [hv]
        have := Bank.wellKeyed_set b n acc (acc.withdraw x now).2 hb hf
          (Account.withdraw_accountNumber acc x now)
        cases (acc.withdraw x now).1 <;> exact this
  | closeAccount n p =>
    simp only [Bank.call, Bank.closeAccount]
    cases hf : b.accounts.find n with
    | none => exact hb
    | some acc =>
      by_cases hv : (!acc.verifyPassword p) = true
      · simpa [hv] using hb
      · simp only [hv]
        obtain ⟨h1, h2, h3⟩ := hb
        have hsub : (b.accounts.erase n).Sublist b.accounts := List.filter_sublist _
        refine ⟨?_, ?_, ?_⟩
        · exact h1.sublist (hsub.map Prod.fst)
        · exact fun q hq => h2 q (hsub.subset hq)
        · exact fun k hk => h3 k ((hsub.map Prod.fst).subset hk)
  | calculateInterestForAll now =>
    obtain ⟨h1, h2, h3⟩ := hb
    have hk : (b.calculateInterestForAll now).accounts.keys = b.accounts.keys := by
      simp [Bank.calculateInterestForAll, AccountMap.keys, List.map_map, Function.comp_def]
    refine ⟨?_, ?_, ?_⟩
    · simpa [Bank.call, hk] using h1
    · intro q hq
      simp only [Bank.call, Bank.calculateInterestForAll, List.mem_map] at hq
      obtain ⟨q0, hq0, rfl⟩ := hq
      exact h2 q0 hq0
    · intro k hk1
      simp only [Bank.call] at hk1
      rw [hk] at hk1
      exact h3 k hk1

theorem Account.le_getLast (l : List Account) (hne : l ≠ [])
    (h : l.Pairwise (fun x y => x.accountNumber < y.accountNumber)) :
    ∀ x ∈ l, x.accountNumber ≤ (l.getLast hne).accountNumber := by
  induction l with
  | nil => exact absurd rfl hne
  | cons a rest ih =>
    intro x hx
    have hp := List.pairwise_cons.mp h
    by_cases hr : rest = []
    · subst hr
      simp only [List.mem_singleton] at hx
      subst hx
      simp
    · rw [List.getLast_cons hr]
      rcases List.mem_cons.mp hx with rfl | hx
      · exact le_of_lt (hp.1 _ (List.getLast_mem hr))
      · exact ih hr hp.2 x hx

theorem Bank.wellKeyed_restart (b b1 : Bank) (account0 : Account) (type0 : Int) (fuel : Nat)
    (hb : b.wellKeyed) (hs : b.storable)
    (h : Bank.startup b.shutdown account0 type0 fuel = some b1) : b1.wellKeyed := by
  obtain ⟨h1, h2, _⟩ := hb
  have htext : AccountMap.write b.accounts =
      ((b.accounts.map Prod.snd).map Account.write).flatten := by
    simp [AccountMap.write, List.map_map, Function.comp_def]
  have hst : ∀ a ∈ b.accounts.map Prod.snd, a.storable = true := by
    intro a ha
    obtain ⟨p, hp, rfl⟩ := List.mem_map.mp ha
    exact hs p hp
  have hsorted : (b.accounts.map Prod.snd).Pairwise
      (fun x y => x.accountNumber < y.accountNumber) := by
    rw [List.pairwise_map]
    have h1' : b.accounts.Pairwise (fun p q => p.1 < q.1) := by
      simpa [AccountMap.keys, List.pairwise_map] using h1
    exact h1'.imp_of_mem (fun hp hq hlt => by rw [h2 _ hp, h2 _ hq]; exact hlt)
  simp only [Bank.shutdown, Bank.startup] at h
  rw [htext] at h
  cases hl : Bank.loadLoop type0 fuel
      { buf := ((b.accounts.map Prod.snd).map Account.write).flatten, failbit := false,
        eofbit := false } account0 [] with
  | none =>
    rw [hl] at h
    exact absurd h (by simp)
  | some r =>
    obtain ⟨ra, rm⟩ := r
    rw [hl] at h
    simp only [Option.some.injEq] at h
    have hm := Bank.loadLoop_mono type0 fuel ((b.accounts.map Prod.snd).length + 2) _ _ _ _ hl
    have hw := Bank.loadLoop_written type0 (b.accounts.map Prod.snd) hst [] (by simp) account0 []
      fuel
    simp only [List.nil_append] at hw
    have e : fuel + ((b.accounts.map Prod.snd).length + 2) =
        (b.accounts.map Prod.snd).length + 2 + fuel := by omega
    rw [e, hw, Option.some.injEq] at hm
    subst h
    have hra : ra = (Bank.loadAccounts type0 (b.accounts.map Prod.snd) account0 []).1 := by
      rw [hm]
    have hrm : rm = (Bank.loadAccounts type0 (b.accounts.map Prod.snd) account0 []).2 := by
      rw [hm]
    rw [hra, hrm]
    clear hra hrm hm hw hl e htext hst
    cases hacc : b.accounts.map Prod.snd with
    | nil =>
      simp only [Bank.loadAccounts, AccountMap.insert]
      refine ⟨by simp [AccountMap.keys], ?_, ?_⟩
      · intro p hp
        simp only [List.mem_singleton] at hp
        subst hp
        rfl
      · intro k hk
        simp only [AccountMap.keys, List.map_cons, List.map_nil, List.mem_singleton] at hk
        subst hk
        exact le_refl _
    | cons a rest =>
      rw [hacc] at hsorted
      have hload := Bank.loadAccounts_sorted type0 account0 rest a account0 [] hsorted (by simp) rfl
      simp only [List.nil_append] at hload
      rw [hload]
      refine ⟨?_, ?_, ?_⟩
      · simp only [AccountMap.keys, List.map_map, Function.comp_def]
        rw [List.pairwise_map]
        exact hsorted
      · intro p hp
        obtain ⟨x, _, rfl⟩ := List.mem_map.mp hp
        rfl
      · intro k hk
        simp only [AccountMap.keys, List.map_map, Function.comp_def] at hk
        obtain ⟨x, hx, rfl⟩ := List.mem_map.mp hk
        exact Account.le_getLast (a :: rest) (List.cons_ne_nil a rest) hsorted x hx

/-- C6, as stated, fails: open accounts 1 and 2, close account 2, restart.  The store
written at shutdown holds account 1 only, so the new process sets the counter to `1`,
below the number `2` issued before the restart. -/
theorem counter_below_issued_after_restart :
    Reachable (fun _ => True) restartedBank [1, 2] [] ∧ restartedBank.nextAccountNumber = 1 ∧
      (2 : Int) ∈ [1, 2] ∧ restartedBank.nextAccountNumber < 2 := by
  have h0 : Reachable (fun _ => True) freshBank [] [] :=
    Reachable.start blankAccount 0 0 freshBank rfl
  have h1 := Reachable.call _ _ _
    (BankCall.openAccount "A" "B" "p1" (F32.ofInt 1000) AccountType.SAVINGS 0) h0
  have h2 := Reachable.call _ _ _
    (BankCall.openAccount "C" "D" "p2" (F32.ofInt 2000) AccountType.CHECKING 1) h1
  have h3 := Reachable.call _ _ _ (BankCall.closeAccount 2 "p2") h2
  have h4 := Reachable.restart _ _ _ blankAccount 0 3 restartedBank h3 trivial (by decide)
  exact ⟨h4, rfl, by decide, by decide⟩

/-- C6, amended: in every state reachable from an absent store by `Bank` calls and
restarts, the counter is at least every account number that `openAccount` has issued
since the process started; and when every shutdown happens with a ledger whose accounts
are all storable, the counter is also at least the number of every account in the
ledger.  (The number of an account closed before a restart is not covered.) -/
theorem counter_ge_issued_in_run (ok : Bank → Prop) (b : Bank) (all run : List Int)
    (h : Reachable ok b all run) :
    (∀ n ∈ run, n ≤ b.nextAccountNumber) ∧
      ((∀ b0, ok b0 → b0.storable) → ∀ k ∈ b.accounts.keys, k ≤ b.nextAccountNumber) := by
  constructor
  · induction h with
    | start account0 type0 fuel b hb => simp
    | call b all run c _ ih =>
      intro n hn
      rcases Bank.call_counter b c with ⟨e1, e2⟩ | ⟨e1, e2⟩
      · rw [e1] at hn
        rw [e2]
        exact ih n (by simpa using hn)
      · rw [e1] at hn
        rw [e2]
        simp only [Option.toList, List.mem_append, List.mem_singleton] at hn
        rcases hn with hn | rfl
        · have := ih n hn
          omega
        · omega
    | restart b all run account0 type0 fuel b1 _ _ _ _ => simp
  · intro hok
    have hw : b.wellKeyed := by
      induction h with
      | start account0 type0 fuel b hb =>
        simp only [Bank.startup, Option.some.injEq] at hb
        subst hb
        exact ⟨by simp [AccountMap.keys], by simp, by simp [AccountMap.keys]⟩
      | call b all run c _ ih => exact Bank.wellKeyed_call b c ih
      | restart b all run account0 type0 fuel b1 _ hokb hstart ih =>
        exact Bank.wellKeyed_restart b b1 account0 type0 fuel ih (hok b hokb) hstart
    exact hw.2.2

theorem counter_ge_issued_in_run_witness :
    Reachable Bank.storable reopenedBank [1, 2, 2] [2] ∧
      (∀ n ∈ [(2 : Int)], n ≤ reopenedBank.nextAccountNumber) ∧
      ((∀ b0, Bank.storable b0 → b0.storable) →
        ∀ k ∈ reopenedBank.accounts.keys, k ≤ reopenedBank.nextAccountNumber) := by
  have h0 : Reachable Bank.storable freshBank [] [] :=
    Reachable.start blankAccount 0 0 freshBank rfl
  have h1 := Reachable.call _ _ _
    (BankCall.openAccount "A" "B" "p1" (F32.ofInt 1000) AccountType.SAVINGS 0) h0
  have h2 := Reachable.call _ _ _
    (BankCall.openAccount "C" "D" "p2" (F32.ofInt 2000) AccountType.CHECKING 1) h1
  have h3 := Reachable.call _ _ _ (BankCall.closeAccount 2 "p2") h2
  have hs : Bank.storable closedBank := by
    unfold Bank.storable
    decide
  have h4 := Reachable.restart _ _ _ blankAccount 0 3 restartedBank h3 hs (by decide)
  have h5 := Reachable.call _ _ _
    (BankCall.openAccount "E" "F" "p3" (F32.ofInt 3000) AccountType.SAVINGS 2) h4
  exact ⟨h5, counter_ge_issued_in_run Bank.storable reopenedBank [1, 2, 2] [2] h5⟩

/-! ## C12, C13: the effect of the `Account` operations -/

/-- C12: `deposit`, `withdraw` and `calculateInterest` either throw and leave the account
as it was (balance, history and every other field), or return and append exactly one
record to the history, of type `Deposit`, `Withdrawal` or `Interest`, whose amount is the
amount deposited, withdrawn or credited and whose balance is the new balance; the
account number, the names, the password and the type do not change. -/
theorem account_operation_frame (a : Account) (amount : F32) (now : Int) :
    ((∃ e, a.deposit amount now = (Outcome.thrown e, a)) ∨
        ((a.deposit amount now).1 = Outcome.ok () ∧
          (a.deposit amount now).2 =
            { a with balance := F32.add a.balance amount,
                     transactions := a.transactions ++
                       [⟨"Deposit", amount, F32.add a.balance amount, now⟩] })) ∧
      ((∃ e, a.withdraw amount now = (Outcome.thrown e, a)) ∨
        ((a.withdraw amount now).1 = Outcome.ok () ∧
          (a.withdraw amount now).2 =
            { a with balance := F32.sub a.balance amount,
                     transactions := a.transactions ++
                       [⟨"Withdrawal", amount, F32.sub a.balance amount, now⟩] })) ∧
      a.calculateInterest now =
        { a with
          balance := F32.add a.balance
            (F32.mul a.balance
              (if a.type = AccountType.SAVINGS then F32.ofF64 SAVINGS_INTEREST_RATE
                else F32.ofF64 CHECKING_INTEREST_RATE)),
          transactions := a.transactions ++
            [⟨"Interest",
              F32.mul a.balance
                (if a.type = AccountType.SAVINGS then F32.ofF64 SAVINGS_INTEREST_RATE
                  else F32.ofF64 CHECKING_INTEREST_RATE),
              F32.add a.balance
                (F32.mul a.balance
                  (if a.type = AccountType.SAVINGS then F32.ofF64 SAVINGS_INTEREST_RATE
                    else F32.ofF64 CHECKING_INTEREST_RATE)), now⟩] } := by
  refine ⟨?_, ?_, rfl⟩
  · by_cases h : F32.le amount (F32.ofInt 0) = true
    · left; exact ⟨Error.InvalidInput, by simp [Account.deposit, h]⟩
    · right; simp [Account.deposit, h, Account.addTransaction]
  · by_cases h : F32.le amount (F32.ofInt 0) = true
    · left; exact ⟨Error.InvalidInput, by simp [Account.withdraw, h]⟩
    · by_cases h2 : F32.lt (F32.sub a.balance amount) (F32.ofInt MIN_BALANCE) = true
      · left; exact ⟨Error.InsufficientFunds, by simp [Account.withdraw, h, h2]⟩
      · right; simp [Account.withdraw, h, h2, Account.addTransaction]

/-- C13: for every first name, last name, password, type and initial balance, zero and
negative values included, the constructor returns an account whose number is the counter
plus one, which becomes the counter, whose balance is the initial balance, and whose
history is the single record `Initial Deposit` with amount and balance equal to the
initial balance; `Bank::openAccount` returns that account. -/
theorem constructor_spec (counter : Int) (fname lname pwd : String) (balance : F32)
    (t : AccountType) (now : Int) (b : Bank) :
    Account.create counter fname lname pwd balance t now =
        ({ accountNumber := counter + 1, firstName := fname, lastName := lname, password := pwd,
           balance := balance, type := t,
           transactions := [⟨"Initial Deposit", balance, balance, now⟩] }, counter + 1) ∧
      (b.openAccount fname lname pwd balance t now).1 =
        { accountNumber := b.nextAccountNumber + 1, firstName := fname, lastName := lname,
          password := pwd, balance := balance, type := t,
          transactions := [⟨"Initial Deposit", balance, balance, now⟩] } ∧
      (b.openAccount fname lname pwd balance t now).2.nextAccountNumber =
        b.nextAccountNumber + 1 ∧
      (Account.create counter fname lname pwd (F32.ofInt 0) t now).1.transactions =
        [⟨"Initial Deposit", F32.ofInt 0, F32.ofInt 0, now⟩] ∧
      (Account.create counter fname lname pwd (F32.ofInt (-250)) t now).1.balance =
        F32.ofInt (-250) := by
  simp [Account.create, Account.addTransaction, Bank.openAccount]

/-! ## Facts about the map -/

theorem AccountMap.find_erase_self (m : AccountMap) (n : Int) : (m.erase n).find n = none := by
  induction m with
  | nil => rfl
  | cons p m ih =>
    obtain ⟨k, a⟩ := p
    by_cases hk : k = n
    · simpa [AccountMap.erase, List.filter, hk] using ih
    · have : (AccountMap.erase ((k, a) :: m) n) = (k, a) :: AccountMap.erase m n := by
        simp [AccountMap.erase, List.filter, hk]
      rw [this]
      simp only [AccountMap.find, hk, if_false]
      exact ih

theorem AccountMap.find_erase_ne (m : AccountMap) (n k : Int) (h : k ≠ n) :
    (m.erase n).find k = m.find k := by
  induction m with
  | nil => rfl
  | cons p m ih =>
    obtain ⟨k1, a⟩ := p
    by_cases hk : k1 = n
    · have : (AccountMap.erase ((k1, a) :: m) n) = AccountMap.erase m n := by
        simp [AccountMap.erase, List.filter, hk]
      have hne : ¬ k1 = k := by rw [hk]; exact fun e => h e.symm
      rw [this, ih]
      simp [AccountMap.find, hne]
    · have : (AccountMap.erase ((k1, a) :: m) n) = (k1, a) :: AccountMap.erase m n := by
        simp [AccountMap.erase, List.filter, hk]
      rw [this]
      simp only [AccountMap.find, ih]

theorem AccountMap.keys_erase (m : AccountMap) (n : Int) :
    (m.erase n).keys = m.keys.filter (fun k => k ≠ n) := by
  simp only [AccountMap.erase, AccountMap.keys, List.filter_map]
  rfl

theorem AccountMap.find_set_ne (m : AccountMap) (n k : Int) (a : Account) (h : k ≠ n) :
    (m.set n a).find k = m.find k := by
  induction m with
  | nil => rfl
  | cons p m ih =>
    obtain ⟨k1, a1⟩ := p
    by_cases hk : k1 = n
    · have hne : ¬ k1 = k := by rw [hk]; exact fun e => h e.symm
      simp only [AccountMap.set, hk, if_true, AccountMap.find]
      rw [hk] at hne
      simp only [hne, if_false]
    · simp only [AccountMap.set, hk, if_false, AccountMap.find]
      rw [ih]

theorem AccountMap.find_set_self (m : AccountMap) (n : Int) (acc a : Account)
    (h : m.find n = some acc) : (m.set n a).find n = some a := by
  induction m with
  | nil => simp [AccountMap.find] at h
  | cons p m ih =>
    obtain ⟨k1, a1⟩ := p
    by_cases hk : k1 = n
    · simp [AccountMap.set, AccountMap.find, hk]
    · simp only [AccountMap.find, hk, if_false] at h
      simp only [AccountMap.set, hk, if_false, AccountMap.find]
      exact ih h

theorem AccountMap.set_find_self (m : AccountMap) (n : Int) (acc : Account)
    (h : m.find n = some acc) : m.set n acc = m := by
  induction m with
  | nil => rfl
  | cons p m ih =>
    obtain ⟨k1, a1⟩ := p
    by_cases hk : k1 = n
    · simp only [AccountMap.find, hk, if_true, Option.some.injEq] at h
      simp [AccountMap.set, hk, h]
    · simp only [AccountMap.find, hk, if_false] at h
      simp only [AccountMap.set, hk, if_false]
      rw [ih h]

theorem AccountMap.find_map (m : AccountMap) (f : Int → Account → Account) (k : Int) :
    AccountMap.find (m.map (fun p => (p.1, f p.1 p.2))) k = (m.find k).map (f k) := by
  induction m with
  | nil => rfl
  | cons p m ih =>
    obtain ⟨k1, a1⟩ := p
    by_cases hk : k1 = k
    · simp [AccountMap.find, hk]
    · simp only [List.map_cons, AccountMap.find, hk, if_false]
      exact ih

theorem AccountMap.mem_keys_of_find (m : AccountMap) (n : Int) (a : Account)
    (h : m.find n = some a) : n ∈ m.keys :=
  List.mem_map.mpr ⟨(n, a), AccountMap.mem_of_find m n a h, rfl⟩

/-! ## C15, C16, C20: the frame of the `Bank` operations -/

/-- C15: for an account number that is in the map and the stored password,
`closeAccount` returns; afterwards the number is no longer in the map, every other
number is still found with the same account, the counter, the admin password and the
store are what they were (the store is not rewritten), and `balanceEnquiry`, `deposit`,
`withdraw` and `closeAccount` on the closed number throw `InvalidInput`, as for an absent
account, and change nothing. -/
theorem closeAccount_spec (b : Bank) (n : Int) (acc : Account) (pwd : String)
    (h : b.accounts.find n = some acc) (hp : pwd = acc.password) :
    (b.closeAccount n pwd).1 = Outcome.ok () ∧
      (b.closeAccount n pwd).2.accounts.find n = none ∧
      (∀ k, k ≠ n → (b.closeAccount n pwd).2.accounts.find k = b.accounts.find k) ∧
      (b.closeAccount n pwd).2.accounts.keys = b.accounts.keys.filter (fun k => k ≠ n) ∧
      (b.closeAccount n pwd).2.nextAccountNumber = b.nextAccountNumber ∧
      (b.closeAccount n pwd).2.store = b.store ∧
      (b.closeAccount n pwd).2.adminPassword = b.adminPassword ∧
      ∀ (pwd2 : String) (amount : F32) (now : Int),
        (b.closeAccount n pwd).2.balanceEnquiry n pwd2 =
            (Outcome.thrown Error.InvalidInput, (b.closeAccount n pwd).2) ∧
          (b.closeAccount n pwd).2.deposit n pwd2 amount now =
            (Outcome.thrown Error.InvalidInput, (b.closeAccount n pwd).2) ∧
          (b.closeAccount n pwd).2.withdraw n pwd2 amount now =
            (Outcome.thrown Error.InvalidInput, (b.closeAccount n pwd).2) ∧
          (b.closeAccount n pwd).2.closeAccount n pwd2 =
            (Outcome.thrown Error.InvalidInput, (b.closeAccount n pwd).2) := by
  have hv : acc.verifyPassword pwd = true := by simp [Account.verifyPassword, hp]
  have hc : b.closeAccount n pwd =
      (Outcome.ok (), { b with accounts := b.accounts.erase n }) := by
    simp [Bank.closeAccount, h, hv]
  rw [hc]
  have hnone := AccountMap.find_erase_self b.accounts n
  refine ⟨rfl, hnone, fun k hk => AccountMap.find_erase_ne b.accounts n k hk,
    AccountMap.keys_erase b.accounts n, rfl, rfl, rfl, ?_⟩
  intro pwd2 amount now
  simp [Bank.balanceEnquiry, Bank.deposit, Bank.withdraw, Bank.closeAccount, hnone]

theorem closeAccount_spec_witness :
    sampleBank.accounts.find 1 = some sampleAccount ∧ "p1" = sampleAccount.password ∧
      (sampleBank.closeAccount 1 "p1").1 = Outcome.ok () ∧
      (sampleBank.closeAccount 1 "p1").2.accounts.find 1 = none :=
  ⟨by decide, by decide,
    (closeAccount_spec sampleBank 1 sampleAccount "p1" (by decide) (by decide)).1,
    (closeAccount_spec sampleBank 1 sampleAccount "p1" (by decide) (by decide)).2.1⟩

/-- C16: `calculateInterestForAll` takes no password and always returns; afterwards the
account numbers of the map are what they were, and under every number the account is the
result of `Account::calculateInterest` applied once to the account that was there: the
balance is increased by the interest at the rate of its type and one `Interest` record
is appended.  The counter and the store are unchanged. -/
theorem calculateInterestForAll_spec (b : Bank) (now : Int → Int) :
    (b.calculateInterestForAll now).accounts.keys = b.accounts.keys ∧
      (∀ k, (b.calculateInterestForAll now).accounts.find k =
        (b.accounts.find k).map (fun a => a.calculateInterest (now k))) ∧
      (∀ k a, b.accounts.find k = some a →
        ∃ a1, (b.calculateInterestForAll now).accounts.find k = some a1 ∧
          a1.balance = F32.add a.balance (F32.mul a.balance
            (if a.type = AccountType.SAVINGS then F32.ofF64 SAVINGS_INTEREST_RATE
              else F32.ofF64 CHECKING_INTEREST_RATE)) ∧
          a1.transactions = a.transactions ++
            [⟨"Interest", F32.mul a.balance
              (if a.type = AccountType.SAVINGS then F32.ofF64 SAVINGS_INTEREST_RATE
                else F32.ofF64 CHECKING_INTEREST_RATE), a1.balance, now k⟩]) ∧
      (b.calculateInterestForAll now).nextAccountNumber = b.nextAccountNumber ∧
      (b.calculateInterestForAll now).store = b.store := by
  have hf : ∀ k, (b.calculateInterestForAll now).accounts.find k =
      (b.accounts.find k).map (fun a => a.calculateInterest (now k)) := fun k =>
    AccountMap.find_map b.accounts (fun j a => a.calculateInterest (now j)) k
  refine ⟨?_, hf, ?_, rfl, rfl⟩
  · simp [Bank.calculateInterestForAll, AccountMap.keys, List.map_map, Function.comp_def]
  · intro k a hka
    exact ⟨a.calculateInterest (now k), by rw [hf k, hka]; rfl, rfl, rfl⟩

/-- The frame of an operation that looks an account up, checks the password and applies
an `Account` operation to it. -/
theorem Bank.update_frame (b : Bank) (n : Int) (a1 : Account) :
    (∀ k, k ≠ n →
        AccountMap.find ({ b with accounts := b.accounts.set n a1 } : Bank).accounts k =
          b.accounts.find k) ∧
      ({ b with accounts := b.accounts.set n a1 } : Bank).accounts.keys = b.accounts.keys :=
  ⟨fun k hk => AccountMap.find_set_ne b.accounts n k a1 hk, AccountMap.keys_set b.accounts n a1⟩

/-- C20: `Bank::deposit` and `Bank::withdraw` on the number `n` leave every account stored
under another number, the account numbers of the map, the counter and the store as they
were, whether they return or throw; when they throw, the whole state is unchanged; when
they return, the account returned is the account now stored under `n`, and its balance is
the old balance plus the amount for `deposit`, minus the amount for `withdraw`, in
`float` arithmetic. -/
theorem deposit_withdraw_frame (b : Bank) (n : Int) (pwd : String) (amount : F32) (now : Int) :
    ((∀ k, k ≠ n → (b.deposit n pwd amount now).2.accounts.find k = b.accounts.find k) ∧
        (b.deposit n pwd amount now).2.accounts.keys = b.accounts.keys ∧
        (b.deposit n pwd amount now).2.nextAccountNumber = b.nextAccountNumber ∧
        (b.deposit n pwd amount now).2.store = b.store ∧
        (∀ e, (b.deposit n pwd amount now).1 = Outcome.thrown e →
          (b.deposit n pwd amount now).2 = b) ∧
        (∀ a1, (b.deposit n pwd amount now).1 = Outcome.ok a1 →
          (b.deposit n pwd amount now).2.accounts.find n = some a1 ∧
          ∃ a, b.accounts.find n = some a ∧ a1.balance = F32.add a.balance amount)) ∧
      ((∀ k, k ≠ n → (b.withdraw n pwd amount now).2.accounts.find k = b.accounts.find k) ∧
        (b.withdraw n pwd amount now).2.accounts.keys = b.accounts.keys ∧
        (b.withdraw n pwd amount now).2.nextAccountNumber = b.nextAccountNumber ∧
        (b.withdraw n pwd amount now).2.store = b.store ∧
        (∀ e, (b.withdraw n pwd amount now).1 = Outcome.thrown e →
          (b.withdraw n pwd amount now).2 = b) ∧
        (∀ a1, (b.withdraw n pwd amount now).1 = Outcome.ok a1 →
          (b.withdraw n pwd amount now).2.accounts.find n = some a1 ∧
          ∃ a, b.accounts.find n = some a ∧ a1.balance = F32.sub a.balance amount)) := by
  constructor
  · cases hf : b.accounts.find n with
    | none => simp [Bank.deposit, hf]
    | some acc =>
      by_cases hv : (!acc.verifyPassword pwd) = true
      · simp [Bank.deposit, hf, hv]
      · have hfr := Bank.update_frame b n (acc.deposit amount now).2
        by_cases ha : F32.le amount (F32.ofInt 0) = true
        · have hd : acc.deposit amount now = (Outcome.thrown Error.InvalidInput, acc) := by
            simp [Account.deposit, ha]
          simp only [Bank.deposit, hf, hv, hd, AccountMap.set_find_self _ _ _ hf]
          simp
        · have hd : acc.deposit amount now = (Outcome.ok (),
              { acc with balance := F32.add acc.balance amount,
                         transactions := acc.transactions ++
                           [⟨"Deposit", amount, F32.add acc.balance amount, now⟩] }) := by
            simp [Account.deposit, ha, Account.addTransaction]
          rw [hd] at hfr
          simp only [Bank.deposit, hf, hv, hd]
          refine ⟨hfr.1, hfr.2, rfl, rfl, by simp, ?_⟩
          intro a1 ha1
          have ha2 := Outcome.ok.inj ha1
          subst ha2
          exact ⟨AccountMap.find_set_self _ _ _ _ hf, acc, rfl, rfl⟩
  · cases hf : b.accounts.find n with
    | none => simp [Bank.withdraw, hf]
    | some acc =>
      by_cases hv : (!acc.verifyPassword pwd) = true
      · simp [Bank.withdraw, hf, hv]
      · have hfr := Bank.update_frame b n (acc.withdraw amount now).2
        by_cases ha : F32.le amount (F32.ofInt 0) = true
        · have hd : acc.withdraw amount now = (Outcome.thrown Error.InvalidInput, acc) := by
            simp [Account.withdraw, ha]
          simp only [Bank.withdraw, hf, hv, hd, AccountMap.set_find_self _ _ _ hf]
          simp
        · by_cases hb : F32.lt (F32.sub acc.balance amount) (F32.ofInt MIN_BALANCE) = true
          · have hd : acc.withdraw amount now =
                (Outcome.thrown Error.InsufficientFunds, acc) := by
              simp [Account.withdraw, ha, hb]
            simp only [Bank.withdraw, hf, hv, hd, AccountMap.set_find_self _ _ _ hf]
            simp
          · have hd : acc.withdraw amount now = (Outcome.ok (),
                { acc with balance := F32.sub acc.balance amount,
                           transactions := acc.transactions ++
                             [⟨"Withdrawal", amount, F32.sub acc.balance amount, now⟩] }) := by
              simp [Account.withdraw, ha, hb, Account.addTransaction]
            rw [hd] at hfr
            simp only [Bank.withdraw, hf, hv, hd]
            refine ⟨hfr.1, hfr.2, rfl, rfl, by simp, ?_⟩
            intro a1 ha1
            have ha2 := Outcome.ok.inj ha1
            subst ha2
            exact ⟨AccountMap.find_set_self _ _ _ _ hf, acc, rfl, rfl⟩

/-! ## C11, C19: the states of one process -/

theorem AccountMap.mem_insert (m : AccountMap) (k : Int) (a : Account) (p : Int × Account)
    (h : p ∈ m.insert k a) : p ∈ m ∨ p = (k, a) := by
  induction m with
  | nil =>
    simp only [AccountMap.insert, List.mem_singleton] at h
    right; exact h
  | cons q m ih =>
    obtain ⟨k1, a1⟩ := q
    simp only [AccountMap.insert] at h
    split_ifs at h with h1 h2
    · simp only [List.mem_cons] at h
      rcases h with h | h | h
      · right; exact h
      · left; simp [h]
      · left; simp [h]
    · left; exact h
    · simp only [List.mem_cons] at h
      rcases h with h | h
      · left; simp [h]
      · rcases ih h with h3 | h3
        · left; exact List.mem_cons_of_mem _ h3
        · right; exact h3

theorem Account.deposit_consistent (a : Account) (x : F32) (now : Int) :
    (a.deposit x now).2 = a ∨ (a.deposit x now).2.consistent := by
  unfold Account.deposit
  split
  · left; rfl
  · right
    exact ⟨⟨"Deposit", x, F32.add a.balance x, now⟩, by simp [Account.addTransaction], rfl⟩

theorem Account.withdraw_consistent (a : Account) (x : F32) (now : Int) :
    (a.withdraw x now).2 = a ∨ (a.withdraw x now).2.consistent := by
  unfold Account.withdraw
  split
  · left; rfl
  · split
    · left; rfl
    · right
      exact ⟨⟨"Withdrawal", x, F32.sub a.balance x, now⟩, by simp [Account.addTransaction], rfl⟩

theorem Account.calculateInterest_consistent (a : Account) (now : Int) :
    (a.calculateInterest now).consistent :=
  ⟨⟨"Interest",
      F32.mul a.balance (if a.type = AccountType.SAVINGS then F32.ofF64 SAVINGS_INTEREST_RATE
        else F32.ofF64 CHECKING_INTEREST_RATE),
      (a.calculateInterest now).balance, now⟩,
    by simp [Account.calculateInterest, Account.addTransaction], rfl⟩

theorem Account.create_consistent (counter : Int) (f l p : String) (x : F32) (t : AccountType)
    (now : Int) : (Account.create counter f l p x t now).1.consistent :=
  ⟨⟨"Initial Deposit", x, x, now⟩, by simp [Account.create, Account.addTransaction], rfl⟩

theorem Bank.call_consistent (b : Bank) (c : BankCall)
    (hb : ∀ p ∈ b.accounts, p.2.consistent) : ∀ p ∈ (b.call c).2.accounts, p.2.consistent := by
  cases c with
  | openAccount f l pw x t now =>
    intro p hp
    rcases AccountMap.mem_insert _ _ _ _ hp with hp | hp
    · exact hb p hp
    · rw [hp]
      exact Account.create_consistent _ _ _ _ _ _ _
  | balanceEnquiry n pw =>
    simp only [Bank.call, Bank.balanceEnquiry]
    split
    · exact hb
    · split <;> exact hb
  | deposit n pw x now =>
    simp only [Bank.call, Bank.deposit]
    cases hf : b.accounts.find n with
    | none => exact hb
    | some acc =>
      by_cases hv : (!acc.verifyPassword pw) = true
      · simpa [hv] using hb
      · simp only [hv]
        have hacc : acc.consistent := hb _ (AccountMap.mem_of_find _ _ _ hf)
        have hnew : (acc.deposit x now).2.consistent := by
          rcases Account.deposit_consistent acc x now with h | h
          · rw [h]; exact hacc
          · exact h
        have : ∀ p ∈ b.accounts.set n (acc.deposit x now).2, p.2.consistent := by
          intro p hp
          rcases AccountMap.mem_set _ _ _ _ hp with hp | hp
          · exact hb p hp
          · rw [hp]; exact hnew
        cases (acc.deposit x now).1 <;> exact this
  | withdraw n pw x now =>
    simp only [Bank.call, Bank.withdraw]
    cases hf : b.accounts.find n with
    | none => exact hb
    | some acc =>
      by_cases hv : (!acc.verifyPassword pw) = true
      · simpa [hv] using hb
      · simp only [hv]
        have hacc : acc.consistent := hb _ (AccountMap.mem_of_find _ _ _ hf)
        have hnew : (acc.withdraw x now).2.consistent := by
          rcases Account.withdraw_consistent acc x now with h | h
          · rw [h]; exact hacc
          · exact h
        have : ∀ p ∈ b.accounts.set n (acc.withdraw x now).2, p.2.consistent := by
          intro p hp
          rcases AccountMap.mem_set _ _ _ _ hp with hp | hp
          · exact hb p hp
          · rw [hp]; exact hnew
        cases (acc.withdraw x now).1 <;> exact this
  | closeAccount n pw =>
    simp only [Bank.call, Bank.closeAccount]
    cases hf : b.accounts.find n with
    | none => exact hb
    | some acc =>
      by_cases hv : (!acc.verifyPassword pw) = true
      · simpa [hv] using hb
      · simp only [hv]
        intro p hp
        exact hb p (List.mem_of_mem_filter hp)
  | calculateInterestForAll now =>
    intro p hp
    simp only [Bank.call, Bank.calculateInterestForAll, List.mem_map] at hp
    obtain ⟨q, _, rfl⟩ := hp
    exact Account.calculateInterest_consistent _ _

theorem Bank.loadLoop_transactions (type0 : Int) (T : List Transaction) (fuel : Nat) :
    ∀ (s : IStream) (account : Account) (m : AccountMap) (r : Account × AccountMap),
      account.transactions = T → (∀ p ∈ m, p.2.transactions = T) →
      Bank.loadLoop type0 fuel s account m = some r →
      r.1.transactions = T ∧ ∀ p ∈ r.2, p.2.transactions = T := by
  induction fuel with
  | zero => intro s account m r _ _ h; simp [Bank.loadLoop] at h
  | succ fuel ih =>
    intro s account m r ha hm h
    simp only [Bank.loadLoop] at h
    by_cases he : s.eofbit = true
    · simp only [he, if_true, Option.some.injEq] at h
      subst h
      exact ⟨ha, hm⟩
    · simp only [he, Bool.false_eq_true, if_false] at h
      have ha1 : (Account.read s account type0).1.transactions = T := ha
      refine ih _ _ _ _ ha1 ?_ h
      intro p hp
      rcases AccountMap.mem_insert _ _ _ _ hp with hp | hp
      · exact hm p hp
      · rw [hp]; exact ha1

theorem Bank.call_keys (b : Bank) (c : BankCall) :
    ∀ k ∈ (b.call c).2.accounts.keys, k ∈ b.accounts.keys ∨ k = b.nextAccountNumber + 1 := by
  cases c with
  | openAccount f l pw x t now =>
    intro k hk
    obtain ⟨p, hp, rfl⟩ := List.mem_map.mp hk
    rcases AccountMap.mem_insert _ _ _ _ hp with hp | hp
    · left; exact List.mem_map_of_mem _ hp
    · right; rw [hp]; rfl
  | balanceEnquiry n pw =>
    intro k hk
    left
    simp only [Bank.call, Bank.balanceEnquiry] at hk
    split at hk
    · exact hk
    · split at hk <;> exact hk
  | deposit n pw x now =>
    intro k hk
    left
    simp only [Bank.call, Bank.deposit] at hk
    cases hf : b.accounts.find n with
    | none => simpa [hf] using hk
    | some acc =>
      rw [hf] at hk
      by_cases hv : (!acc.verifyPassword pw) = true
      · simpa [hv] using hk
      · simp only [hv] at hk
        have : ∀ j ∈ AccountMap.keys (b.accounts.set n (acc.deposit x now).2),
            j ∈ b.accounts.keys := by
          intro j hj; rwa [AccountMap.keys_set] at hj
        cases hd : (acc.deposit x now).1 <;> (rw [hd] at hk; exact this k hk)
  | withdraw n pw x now =>
    intro k hk
    left
    simp only [Bank.call, Bank.withdraw] at hk
    cases hf : b.accounts.find n with
    | none => simpa [hf] using hk
    | some acc =>
      rw [hf] at hk
      by_cases hv : (!acc.verifyPassword pw) = true
      · simpa [hv] using hk
      · simp only [hv] at hk
        have : ∀ j ∈ AccountMap.keys (b.accounts.set n (acc.withdraw x now).2),
            j ∈ b.accounts.keys := by
          intro j hj; rwa [AccountMap.keys_set] at hj
        cases hd : (acc.withdraw x now).1 <;> (rw [hd] at hk; exact this k hk)
  | closeAccount n pw =>
    intro k hk
    left
    simp only [Bank.call, Bank.closeAccount] at hk
    cases hf : b.accounts.find n with
    | none => simpa [hf] using hk
    | some acc =>
      rw [hf] at hk
      by_cases hv : (!acc.verifyPassword pw) = true
      · simpa [hv] using hk
      · simp only [hv, Bool.false_eq_true, if_false] at hk
        rw [AccountMap.keys_erase] at hk
        exact List.mem_of_mem_filter hk
  | calculateInterestForAll now =>
    intro k hk
    left
    simpa [Bank.call, Bank.calculateInterestForAll, AccountMap.keys, List.map_map,
      Function.comp_def] using hk

/-- The invariants of the states that one process reaches from an absent store. -/
theorem Reachable.run_invariant (b : Bank) (all run : List Int)
    (h : Reachable (fun _ => False) b all run) :
    b.wellKeyed ∧ 0 ≤ b.nextAccountNumber ∧ (∀ k ∈ b.accounts.keys, 1 ≤ k) ∧
      ∀ p ∈ b.accounts, p.2.consistent := by
  induction h with
  | start account0 type0 fuel b hb =>
    simp only [Bank.startup, Option.some.injEq] at hb
    subst hb
    exact ⟨⟨by simp [AccountMap.keys], by simp, by simp [AccountMap.keys]⟩, le_refl _,
      by simp [AccountMap.keys], by simp⟩
  | call b all run c _ ih =>
    obtain ⟨h1, h2, h3, h4⟩ := ih
    refine ⟨Bank.wellKeyed_call b c h1, ?_, ?_, Bank.call_consistent b c h4⟩
    · rcases Bank.call_counter b c with ⟨_, e2⟩ | ⟨_, e2⟩ <;> rw [e2] <;> omega
    · intro k hk
      rcases Bank.call_keys b c k hk with hk | hk
      · exact h3 k hk
      · omega
  | restart b all run account0 type0 fuel b1 _ hok _ _ => exact absurd hok id

theorem AccountMap.find_append_new (m : AccountMap) (k : Int) (a : Account)
    (h : ∀ p ∈ m, p.1 < k) : AccountMap.find (m ++ [(k, a)]) k = some a := by
  induction m with
  | nil => simp [AccountMap.find]
  | cons p m ih =>
    obtain ⟨k1, a1⟩ := p
    have h1 : k1 < k := h (k1, a1) (by simp)
    have h2 : ¬ k1 = k := by omega
    simp only [List.cons_append, AccountMap.find, h2, if_false]
    exact ih (fun p hp => h p (by simp [hp]))

/-- C19: in every state that a process reaches from an absent store (counter `0`) by
`Bank` calls, every entry `(k, a)` of the map has `a.accountNumber = k` and
`1 ≤ k ≤ nextAccountNumber`; so the number that `openAccount` issues next is not in the
map, and after `openAccount` the account returned is the one stored under its number. -/
theorem reachable_entries_keyed (b : Bank) (all run : List Int)
    (h : Reachable (fun _ => False) b all run) :
    (∀ k a, (k, a) ∈ b.accounts → a.accountNumber = k ∧ 1 ≤ k ∧ k ≤ b.nextAccountNumber) ∧
      b.nextAccountNumber + 1 ∉ b.accounts.keys ∧
      ∀ (f l p : String) (x : F32) (t : AccountType) (now : Int),
        (b.openAccount f l p x t now).2.accounts.find
            (b.openAccount f l p x t now).1.accountNumber =
          some (b.openAccount f l p x t now).1 := by
  obtain ⟨⟨_, h2, h3⟩, _, h5, _⟩ := Reachable.run_invariant b all run h
  have habove : ∀ q ∈ b.accounts, q.1 < b.nextAccountNumber + 1 := by
    intro q hq
    have := h3 q.1 (List.mem_map_of_mem _ hq)
    omega
  refine ⟨?_, ?_, ?_⟩
  · intro k a hka
    have hk : k ∈ b.accounts.keys := List.mem_map.mpr ⟨(k, a), hka, rfl⟩
    exact ⟨h2 _ hka, h5 k hk, h3 k hk⟩
  · intro hmem
    have := h3 _ hmem
    omega
  · intro f l p x t now
    simp only [Bank.openAccount, Account.create, Account.addTransaction,
      AccountMap.insert_above _ _ _ habove]
    exact AccountMap.find_append_new _ _ _ habove

theorem reachable_entries_keyed_witness :
    Reachable (fun _ => False) sampleBank [1] [1] ∧
      (∀ k a, (k, a) ∈ sampleBank.accounts →
        a.accountNumber = k ∧ 1 ≤ k ∧ k ≤ sampleBank.nextAccountNumber) ∧
      sampleBank.nextAccountNumber + 1 ∉ sampleBank.accounts.keys := by
  have h0 : Reachable (fun _ => False) freshBank [] [] :=
    Reachable.start blankAccount 0 0 freshBank rfl
  have h := Reachable.call _ _ _
    (BankCall.openAccount "A" "B" "p1" (F32.ofInt 1000) AccountType.SAVINGS 0) h0
  exact ⟨h, (reachable_entries_keyed sampleBank [1] [1] h).1,
    (reachable_entries_keyed sampleBank [1] [1] h).2.1⟩

/-- C11, as stated, fails for an account loaded from the store: after accounts 1 and 2
are opened, account 2 is closed and the process is restarted, account 1 is in the
ledger with its balance and an empty history, because the history is neither written to
the store nor rebuilt from it. -/
theorem loaded_account_has_empty_history :
    Reachable (fun _ => True) restartedBank [1, 2] [] ∧
      ∃ a, (1, a) ∈ restartedBank.accounts ∧ a.transactions = [] ∧
        a.balance = F32.ofInt 1000 := by
  have h0 : Reachable (fun _ => True) freshBank [] [] :=
    Reachable.start blankAccount 0 0 freshBank rfl
  have h1 := Reachable.call _ _ _
    (BankCall.openAccount "A" "B" "p1" (F32.ofInt 1000) AccountType.SAVINGS 0) h0
  have h2 := Reachable.call _ _ _
    (BankCall.openAccount "C" "D" "p2" (F32.ofInt 2000) AccountType.CHECKING 1) h1
  have h3 := Reachable.call _ _ _ (BankCall.closeAccount 2 "p2") h2
  have h4 := Reachable.restart _ _ _ blankAccount 0 3 restartedBank h3 trivial (by decide)
  exact ⟨h4, _, List.mem_singleton.mpr rfl, rfl, rfl⟩

/-- C11, amended: in every state that a process reaches from an absent store by `Bank`
calls, every account of the ledger has a non-empty history, and its balance is the
balance of the last record of the history.  An account loaded from the store at startup
has the history of the default-constructed object it was read into (none), and from then
on every `deposit`, `withdraw` and `calculateInterest` either leaves the account as it was
or leaves it with a non-empty history whose last record carries the balance. -/
theorem history_consistent_in_run (b : Bank) (all run : List Int)
    (h : Reachable (fun _ => False) b all run) :
    (∀ k a, (k, a) ∈ b.accounts →
        a.transactions ≠ [] ∧ ∃ t, a.transactions.getLast? = some t ∧ a.balance = t.balance) ∧
      (∀ (text : List Char) (account0 : Account) (type0 : Int) (fuel : Nat) (b1 : Bank),
        Bank.startup (some text) account0 type0 fuel = some b1 →
        ∀ p ∈ b1.accounts, p.2.transactions = account0.transactions) ∧
      ∀ (a : Account) (c : AccountCall),
        (a.call c).2 = a ∨
          ((a.call c).2.transactions ≠ [] ∧
            ∃ t, (a.call c).2.transactions.getLast? = some t ∧
              (a.call c).2.balance = t.balance) := by
  have hne : ∀ a : Account, a.consistent →
      a.transactions ≠ [] ∧ ∃ t, a.transactions.getLast? = some t ∧ a.balance = t.balance := by
    intro a ha
    obtain ⟨t, ht, hb⟩ := ha
    refine ⟨?_, t, ht, hb⟩
    intro hnil
    rw [hnil] at ht
    simp at ht
  refine ⟨?_, ?_, ?_⟩
  · intro k a hka
    exact hne a ((Reachable.run_invariant b all run h).2.2.2 _ hka)
  · intro text account0 type0 fuel b1 hs p hp
    simp only [Bank.startup] at hs
    cases hl : Bank.loadLoop type0 fuel { buf := text, failbit := false, eofbit := false }
        account0 [] with
    | none => rw [hl] at hs; exact absurd hs (by simp)
    | some r =>
      obtain ⟨ra, rm⟩ := r
      rw [hl] at hs
      simp only [Option.some.injEq] at hs
      subst hs
      exact (Bank.loadLoop_transactions type0 account0.transactions fuel _ _ _ _ rfl
        (by simp) hl).2 p hp
  · intro a c
    cases c with
    | deposit x now =>
      rcases Account.deposit_consistent a x now with h1 | h1
      · left; exact h1
      · right; exact hne _ h1
    | withdraw x now =>
      rcases Account.withdraw_consistent a x now with h1 | h1
      · left; exact h1
      · right; exact hne _ h1
    | calculateInterest now =>
      right; exact hne _ (Account.calculateInterest_consistent a now)

theorem history_consistent_in_run_witness :
    Reachable (fun _ => False) sampleBank [1] [1] ∧
      ∀ k a, (k, a) ∈ sampleBank.accounts →
        a.transactions ≠ [] ∧ ∃ t, a.transactions.getLast? = some t ∧ a.balance = t.balance := by
  have h0 : Reachable (fun _ => False) freshBank [] [] :=
    Reachable.start blankAccount 0 0 freshBank rfl
  have h := Reachable.call _ _ _
    (BankCall.openAccount "A" "B" "p1" (F32.ofInt 1000) AccountType.SAVINGS 0) h0
  exact ⟨h, (history_consistent_in_run sampleBank [1] [1] h).1⟩

/-! ## C17: the counter after a load -/

theorem Bank.loadAccounts_last (type0 : Int) (accs : List Account) (hne : accs ≠ []) :
    ∀ (account : Account) (m : AccountMap),
      (Bank.loadAccounts type0 accs account m).1.accountNumber =
        (accs.getLast hne).accountNumber := by
  induction accs with
  | nil => exact absurd rfl hne
  | cons a rest ih =>
    intro account m
    by_cases hr : rest = []
    · subst hr
      simp [Bank.loadAccounts, Account.reload]
    · rw [Bank.loadAccounts, List.getLast_cons hr]
      exact ih hr _ _

theorem AccountMap.mem_keys_insert (m : AccountMap) (k : Int) (a : Account) :
    k ∈ (m.insert k a).keys ∧ ∀ j ∈ m.keys, j ∈ (m.insert k a).keys := by
  induction m with
  | nil => simp [AccountMap.insert, AccountMap.keys]
  | cons p m ih =>
    obtain ⟨k1, a1⟩ := p
    simp only [AccountMap.insert]
    split_ifs with h1 h2
    · refine ⟨by simp [AccountMap.keys], fun j hj => ?_⟩
      simp only [AccountMap.keys, List.map_cons, List.mem_cons] at hj ⊢
      right; exact hj
    · subst h2
      exact ⟨by simp [AccountMap.keys], fun j hj => hj⟩
    · constructor
      · simp only [AccountMap.keys, List.map_cons, List.mem_cons]
        right; exact ih.1
      · intro j hj
        simp only [AccountMap.keys, List.map_cons, List.mem_cons] at hj ⊢
        rcases hj with hj | hj
        · left; exact hj
        · right; exact ih.2 j hj

theorem Bank.loadAccounts_keys (type0 : Int) (accs : List Account) :
    ∀ (account : Account) (m : AccountMap),
      (∀ j ∈ m.keys, j ∈ (Bank.loadAccounts type0 accs account m).2.keys) ∧
        ∀ a ∈ accs, a.accountNumber ∈ (Bank.loadAccounts type0 accs account m).2.keys := by
  induction accs with
  | nil =>
    intro account m
    exact ⟨fun j hj => (AccountMap.mem_keys_insert m _ _).2 j hj, by simp⟩
  | cons a rest ih =>
    intro account m
    have h := ih (Account.reload account a) (m.insert a.accountNumber (Account.reload account a))
    have hi := AccountMap.mem_keys_insert m a.accountNumber (Account.reload account a)
    constructor
    · intro j hj
      exact h.1 j (hi.2 j hj)
    · intro x hx
      rcases List.mem_cons.mp hx with rfl | hx
      · exact h.1 _ hi.1
      · exact h.2 x hx

/-- C17: for every store that holds the text of a non-empty list of storable accounts, in
any order, `Bank::Bank` ends with every account number of the store in the map and with
the counter equal to the account number of the last record, which need not be the
largest: on a store that holds account 2 and then account 1, the counter is `1`, below
the number `2` that is in the ledger. -/
theorem counter_is_last_record (accs : List Account) (account0 : Account) (type0 : Int)
    (k : Nat) (hne : accs ≠ []) (hst : ∀ a ∈ accs, a.storable = true) :
    (∃ b, Bank.startup (some (accs.map Account.write).flatten) account0 type0
          (accs.length + 2 + k) = some b ∧
        b.nextAccountNumber = (accs.getLast hne).accountNumber ∧
        ∀ a ∈ accs, a.accountNumber ∈ b.accounts.keys) ∧
      Bank.startup (some unsortedStore) blankAccount 0 4 = some unsortedBank ∧
      unsortedBank.nextAccountNumber = 1 ∧ (2 : Int) ∈ unsortedBank.accounts.keys ∧
      unsortedBank.nextAccountNumber < 2 := by
  refine ⟨?_, by decide, rfl, by decide, by decide⟩
  have h1 := Bank.loadLoop_written type0 accs hst [] (by simp) account0 [] k
  simp only [List.nil_append] at h1
  refine ⟨{ accounts := (Bank.loadAccounts type0 accs account0 []).2,
             adminPassword := "admin123",
             nextAccountNumber := (Bank.loadAccounts type0 accs account0 []).1.accountNumber,
             store := some (accs.map Account.write).flatten },
    by simp only [Bank.startup, h1], ?_, ?_⟩
  · exact Bank.loadAccounts_last type0 accs hne account0 []
  · exact (Bank.loadAccounts_keys type0 accs account0 []).2

theorem counter_is_last_record_witness :
    [secondAccount, sampleAccount] ≠ [] ∧
      (∀ a ∈ [secondAccount, sampleAccount], a.storable = true) ∧
      ∃ b, Bank.startup (some ([secondAccount, sampleAccount].map Account.write).flatten)
          blankAccount 0 ([secondAccount, sampleAccount].length + 2 + 0) = some b ∧
        b.nextAccountNumber =
          ([secondAccount, sampleAccount].getLast (by decide)).accountNumber ∧
        ∀ a ∈ [secondAccount, sampleAccount], a.accountNumber ∈ b.accounts.keys :=
  ⟨by decide, by decide,
    (counter_is_last_record [secondAccount, sampleAccount] blankAccount 0 0 (by decide)
      (by decide)).1⟩

/-! ## C14: the store after `openAccount` -/

theorem AccountMap.find_insert_new (m : AccountMap) (k : Int) (a : Account)
    (h : k ∉ m.keys) : (m.insert k a).find k = some a := by
  induction m with
  | nil => simp [AccountMap.insert, AccountMap.find]
  | cons p m ih =>
    obtain ⟨k1, a1⟩ := p
    simp only [AccountMap.keys, List.map_cons, List.mem_cons, not_or] at h
    have h2 : ¬ k = k1 := h.1
    have h3 : ¬ k1 = k := fun e => h.1 e.symm
    simp only [AccountMap.insert]
    split_ifs with h1
    · simp [AccountMap.find]
    · simp only [AccountMap.find, h3, if_false]
      exact ih h.2

theorem AccountMap.find_insert_ne (m : AccountMap) (k j : Int) (a : Account) (h : j ≠ k) :
    (m.insert k a).find j = m.find j := by
  induction m with
  | nil =>
    have : ¬ k = j := fun e => h e.symm
    simp [AccountMap.insert, AccountMap.find, this]
  | cons p m ih =>
    obtain ⟨k1, a1⟩ := p
    have hkj : ¬ k = j := fun e => h e.symm
    simp only [AccountMap.insert]
    split_ifs with h1 h2
    · simp only [AccountMap.find, hkj, if_false]
    · rfl
    · simp only [AccountMap.find, ih]

theorem AccountMap.insert_sorted (m : AccountMap) (k : Int) (a : Account)
    (hs : m.keys.Pairwise (fun i j => i < j)) (h : k ∉ m.keys) :
    (m.insert k a).keys.Pairwise (fun i j => i < j) := by
  induction m with
  | nil => simp [AccountMap.insert, AccountMap.keys]
  | cons p m ih =>
    obtain ⟨k1, a1⟩ := p
    simp only [AccountMap.keys, List.map_cons, List.mem_cons, not_or] at h
    simp only [AccountMap.keys, List.map_cons, List.pairwise_cons] at hs
    simp only [AccountMap.insert]
    split_ifs with h1 h2
    · simp only [AccountMap.keys, List.map_cons, List.pairwise_cons, List.mem_cons]
      refine ⟨?_, hs.1, hs.2⟩
      intro j hj
      rcases hj with rfl | hj
      · exact h1
      · exact lt_trans h1 (hs.1 j hj)
    · exact absurd h2 h.1
    · simp only [AccountMap.keys, List.map_cons, List.pairwise_cons]
      refine ⟨?_, ih hs.2 h.2⟩
      intro j hj
      obtain ⟨q, hq, rfl⟩ := List.mem_map.mp hj
      rcases AccountMap.mem_insert _ _ _ _ hq with hq | hq
      · exact hs.1 _ (List.mem_map_of_mem _ hq)
      · rw [hq]
        show k1 < k
        omega

/-- C14, as stated, fails in a state where the number to be issued is already in the
map, as after a load of a store whose last record is not the largest: in `unsortedBank`
(accounts 1 and 2, counter 1) `openAccount` returns an account numbered 2, but
`map::insert` keeps the account already stored under 2; the map is unchanged and the
store is rewritten without the account returned. -/
theorem openAccount_on_existing_key :
    Bank.startup (some unsortedStore) blankAccount 0 4 = some unsortedBank ∧
      (unsortedBank.openAccount "E" "F" "p3" (F32.ofInt 3000) AccountType.SAVINGS 2).1.accountNumber
        = 2 ∧
      (unsortedBank.openAccount "E" "F" "p3" (F32.ofInt 3000) AccountType.SAVINGS 2).2.accounts
        = unsortedBank.accounts ∧
      (unsortedBank.openAccount "E" "F" "p3" (F32.ofInt 3000) AccountType.SAVINGS 2).2.accounts.find
          2 ≠
        some (unsortedBank.openAccount "E" "F" "p3" (F32.ofInt 3000) AccountType.SAVINGS 2).1 ∧
      (unsortedBank.openAccount "E" "F" "p3" (F32.ofInt 3000) AccountType.SAVINGS 2).2.store =
        some (AccountMap.write unsortedBank.accounts) := by
  decide

/-- C14, amended: in every state whose map does not hold the number to be issued
(counter plus one), after `openAccount` the store is the concatenation of the six-line
texts of all the accounts then in the map, the new account included, in the order of the
map, which is the strictly ascending order of the account numbers; the account returned
is the one stored under its number, and under every other number the map holds what it
held. -/
theorem openAccount_store (b : Bank) (f l p : String) (x : F32) (t : AccountType) (now : Int)
    (hs : b.accounts.keys.Pairwise (fun i j => i < j))
    (hnew : b.nextAccountNumber + 1 ∉ b.accounts.keys) :
    (b.openAccount f l p x t now).2.store =
        some ((b.openAccount f l p x t now).2.accounts.map (fun q => q.2.write)).flatten ∧
      (b.openAccount f l p x t now).2.accounts.keys.Pairwise (fun i j => i < j) ∧
      (b.openAccount f l p x t now).1.accountNumber = b.nextAccountNumber + 1 ∧
      (b.openAccount f l p x t now).2.accounts.find (b.nextAccountNumber + 1) =
        some (b.openAccount f l p x t now).1 ∧
      (∀ k, k ≠ b.nextAccountNumber + 1 →
        (b.openAccount f l p x t now).2.accounts.find k = b.accounts.find k) ∧
      ∀ k, k ∈ (b.openAccount f l p x t now).2.accounts.keys ↔
        k ∈ b.accounts.keys ∨ k = b.nextAccountNumber + 1 := by
  refine ⟨rfl, AccountMap.insert_sorted _ _ _ hs hnew, rfl,
    AccountMap.find_insert_new _ _ _ hnew,
    fun k hk => AccountMap.find_insert_ne _ _ _ _ hk, ?_⟩
  intro k
  constructor
  · intro hk
    obtain ⟨q, hq, rfl⟩ := List.mem_map.mp hk
    rcases AccountMap.mem_insert _ _ _ _ hq with hq | hq
    · left; exact List.mem_map_of_mem _ hq
    · right; rw [hq]; rfl
  · intro hk
    rcases hk with hk | hk
    · exact (AccountMap.mem_keys_insert _ _ _).2 k hk
    · rw [hk]; exact (AccountMap.mem_keys_insert _ _ _).1

theorem openAccount_store_witness :
    sampleBank.accounts.keys.Pairwise (fun i j => i < j) ∧
      sampleBank.nextAccountNumber + 1 ∉ sampleBank.accounts.keys ∧
      (sampleBank.openAccount "C" "D" "p2" (F32.ofInt 2000) AccountType.CHECKING 1).2.store =
        some ((sampleBank.openAccount "C" "D" "p2" (F32.ofInt 2000) AccountType.CHECKING
          1).2.accounts.map (fun q => q.2.write)).flatten ∧
      (sampleBank.openAccount "C" "D" "p2" (F32.ofInt 2000) AccountType.CHECKING
          1).2.accounts.keys.Pairwise (fun i j => i < j) :=
  ⟨by decide, by decide,
    (openAccount_store sampleBank "C" "D" "p2" (F32.ofInt 2000) AccountType.CHECKING 1
      (by decide) (by decide)).1,
    (openAccount_store sampleBank "C" "D" "p2" (F32.ofInt 2000) AccountType.CHECKING 1
      (by decide) (by decide)).2.1⟩

/-! ## C18: shutdown, then startup -/

/-- The loop of `Bank::Bank` never ends on the text of the account whose balance is
`+infinity`. -/
theorem Bank.startup_overflow_none (fuel : Nat) :
    Bank.startup (some ([overflowAccount].map Account.write).flatten) blankAccount 0 fuel =
      none := by
  have key : ∀ r, r = Account.read ⟨([overflowAccount].map Account.write).flatten, false, false⟩
      blankAccount 0 →
      Account.read r.2 r.1 0 = r ∧
        AccountMap.insert (AccountMap.insert [] r.1.accountNumber r.1) r.1.accountNumber r.1 =
          AccountMap.insert [] r.1.accountNumber r.1 ∧
        r.2.eofbit = false := by
    intro r hr
    subst hr
    decide
  cases fuel with
  | zero => rfl
  | succ f =>
    simp only [Bank.startup, Bank.loadLoop, Bool.false_eq_true, if_false]
    obtain ⟨hfix, hins, heof⟩ := key _ rfl
    generalize Account.read ⟨([overflowAccount].map Account.write).flatten, false, false⟩
      blankAccount 0 = r at hfix hins heof
    have hstuck : ∀ g, Bank.loadLoop 0 g r.2 r.1 (AccountMap.insert [] r.1.accountNumber r.1) =
        none := by
      intro g
      induction g with
      | zero => rfl
      | succ g ih => simp only [Bank.loadLoop, heof, hfix, hins, ih]; simp
    rw [hstuck f]

/-- C18, as stated, fails: after an account is opened with the largest finite `float` and
the same amount is deposited, the ledger holds one account with token names and
password and the balance `+infinity`; the store written at shutdown holds `inf`, and the
startup that loads it never returns. -/
theorem overflow_ledger_never_reloaded :
    overflowBank.accounts ≠ [] ∧
      (∀ p ∈ overflowBank.accounts,
        (isToken p.2.firstName && isToken p.2.lastName && isToken p.2.password) = true) ∧
      ∀ fuel, Bank.startup overflowBank.shutdown blankAccount 0 fuel = none := by
  refine ⟨by decide, by decide, fun fuel => ?_⟩
  have hs : overflowBank.shutdown = some ([overflowAccount].map Account.write).flatten := by
    decide
  rw [hs]
  exact Bank.startup_overflow_none fuel

/-- C18, amended: for every non-empty ledger whose map is in strictly ascending order of
keys, with each account stored under its own number, and whose accounts are storable
(token names and passwords, storable balances), the store written at shutdown lists the
accounts in strictly ascending order of account number, and the startup that loads it
returns a ledger with the same account numbers and with a counter that is the largest of
them. -/
theorem shutdown_then_startup (b : Bank) (account0 : Account) (type0 : Int) (k : Nat)
    (hne : b.accounts ≠ [])
    (hs : b.accounts.keys.Pairwise (fun i j => i < j))
    (hown : ∀ p ∈ b.accounts, p.2.accountNumber = p.1)
    (hst : b.storable) :
    b.shutdown = some ((b.accounts.map Prod.snd).map Account.write).flatten ∧
      (b.accounts.map Prod.snd).Pairwise (fun x y => x.accountNumber < y.accountNumber) ∧
      ∃ b1, Bank.startup b.shutdown account0 type0 (b.accounts.length + 2 + k) = some b1 ∧
        b1.accounts.keys = b.accounts.keys ∧
        b1.nextAccountNumber ∈ b1.accounts.keys ∧
        ∀ j ∈ b1.accounts.keys, j ≤ b1.nextAccountNumber := by
  have htext : b.shutdown = some ((b.accounts.map Prod.snd).map Account.write).flatten := by
    simp [Bank.shutdown, AccountMap.write, List.map_map, Function.comp_def]
  have hst1 : ∀ a ∈ b.accounts.map Prod.snd, a.storable = true := by
    intro a ha
    obtain ⟨p, hp, rfl⟩ := List.mem_map.mp ha
    exact hst p hp
  have hsorted : (b.accounts.map Prod.snd).Pairwise
      (fun x y => x.accountNumber < y.accountNumber) := by
    rw [List.pairwise_map]
    have h1 : b.accounts.Pairwise (fun p q => p.1 < q.1) := by
      simpa [AccountMap.keys, List.pairwise_map] using hs
    exact h1.imp_of_mem (fun hp hq hlt => by rw [hown _ hp, hown _ hq]; exact hlt)
  have hkeys : (b.accounts.map Prod.snd).map (fun x => x.accountNumber) = b.accounts.keys := by
    simp only [AccountMap.keys, List.map_map]
    apply List.map_congr_left
    intro p hp
    exact hown p hp
  refine ⟨htext, hsorted, ?_⟩
  rw [htext]
  have hlen : b.accounts.length = (b.accounts.map Prod.snd).length := by simp
  rw [hlen]
  have hne1 : b.accounts.map Prod.snd ≠ [] := by simpa using hne
  revert hst1 hsorted hkeys hne1
  generalize b.accounts.map Prod.snd = accs
  intro hst1 hsorted hkeys hne1
  obtain ⟨a, rest, rfl⟩ := List.exists_cons_of_ne_nil hne1
  have h1 := Bank.loadLoop_written type0 (a :: rest) hst1 [] (by simp) account0 [] k
  have h2 := Bank.loadAccounts_sorted type0 account0 rest a account0 [] hsorted (by simp) rfl
  simp only [List.nil_append] at h1 h2
  have hk2 : AccountMap.keys
      ((a :: rest).map (fun x => (x.accountNumber, Account.reload account0 x))) =
      b.accounts.keys := by
    rw [← hkeys]
    simp [AccountMap.keys, List.map_map, Function.comp_def]
  refine ⟨{ accounts := (a :: rest).map (fun x => (x.accountNumber, Account.reload account0 x)),
            adminPassword := "admin123",
            nextAccountNumber := ((a :: rest).getLast (List.cons_ne_nil a rest)).accountNumber,
            store := some ((a :: rest).map Account.write).flatten },
    ?_, hk2, ?_, ?_⟩
  · simp only [Bank.startup, h1, h2]
    rfl
  · show _ ∈ AccountMap.keys _
    rw [hk2, ← hkeys]
    exact List.mem_map_of_mem _ (List.getLast_mem _)
  · intro j hj
    have hj1 : j ∈ AccountMap.keys
        ((a :: rest).map (fun x => (x.accountNumber, Account.reload account0 x))) := hj
    rw [hk2, ← hkeys] at hj1
    obtain ⟨x, hx, rfl⟩ := List.mem_map.mp hj1
    exact Account.le_getLast (a :: rest) (List.cons_ne_nil a rest) hsorted x hx

theorem shutdown_then_startup_witness :
    sampleBank.accounts ≠ [] ∧ sampleBank.accounts.keys.Pairwise (fun i j => i < j) ∧
      (∀ p ∈ sampleBank.accounts, p.2.accountNumber = p.1) ∧ sampleBank.storable ∧
      ∃ b1, Bank.startup sampleBank.shutdown blankAccount 0 (sampleBank.accounts.length + 2 + 0) =
          some b1 ∧
        b1.accounts.keys = sampleBank.accounts.keys ∧
        b1.nextAccountNumber ∈ b1.accounts.keys ∧
        ∀ j ∈ b1.accounts.keys, j ≤ b1.nextAccountNumber := by
  have hst : sampleBank.storable := by
    unfold Bank.storable
    decide
  exact ⟨by decide, by decide, by decide, hst,
    (shutdown_then_startup sampleBank blankAccount 0 0 (by decide) (by decide) (by decide)
      hst).2.2⟩

theorem deposit_withdraw_frame_witness :
    (sampleBank.deposit 1 "p1" (F32.ofInt 100) 1).1 =
        Outcome.ok (sampleAccount.deposit (F32.ofInt 100) 1).2 ∧
      (sampleBank.deposit 1 "p1" (F32.ofInt 100) 1).2.accounts.find 1 =
        some (sampleAccount.deposit (F32.ofInt 100) 1).2 ∧
      (sampleAccount.deposit (F32.ofInt 100) 1).2.balance = F32.ofInt 1100 ∧
      (sampleBank.deposit 1 "p1" (F32.ofInt 100) 1).2.accounts.keys = sampleBank.accounts.keys :=
  ⟨by decide,
    ((deposit_withdraw_frame sampleBank 1 "p1" (F32.ofInt 100) 1).1.2.2.2.2.2
      (sampleAccount.deposit (F32.ofInt 100) 1).2 (by decide)).1,
    by decide,
    (deposit_withdraw_frame sampleBank 1 "p1" (F32.ofInt 100) 1).1.2.1⟩

/-! ## C7: the round trip through the store -/

theorem Account.storable_of_wellFormed (a : Account) (h : a.wellFormed = true) :
    a.storable = true := by
  simp only [Account.wellFormed, Bool.and_eq_true] at h
  obtain ⟨h1, hb⟩ := h
  have hs : a.balance.storable = true := by
    cases hbal : a.balance with
    | nan => rw [hbal] at hb; simp [F32.isFinite] at hb
    | inf s => rw [hbal] at hb; simp [F32.isFinite] at hb
    | fin s n =>
      rw [hbal] at hb
      simp only [F32.isFinite, decide_eq_true_eq] at hb
      exact F32.storable_of_finite s n hb
  simp only [Account.storable, Bool.and_eq_true]
  exact ⟨h1, hs⟩

theorem AccountMap.insert_present (m : AccountMap) (k : Int) (a : Account)
    (hs : m.keys.Pairwise (fun i j => i < j)) (h : k ∈ m.keys) : m.insert k a = m := by
  induction m with
  | nil => simp [AccountMap.keys] at h
  | cons p m ih =>
    obtain ⟨k1, a1⟩ := p
    simp only [AccountMap.keys, List.map_cons, List.pairwise_cons, List.mem_cons] at hs h
    rcases h with h | h
    · subst h
      simp [AccountMap.insert]
    · have hlt : k1 < k := hs.1 k h
      have h2 : ¬ k < k1 := by omega
      have h3 : ¬ k = k1 := by omega
      simp only [AccountMap.insert, h2, h3, if_false]
      rw [ih hs.2 h]

theorem Bank.loadAccounts_map (type0 : Int) (account0 : Account) (accs : List Account) :
    ∀ (account : Account) (m : AccountMap),
      account.transactions = account0.transactions →
      m.keys.Pairwise (fun i j => i < j) →
      (accs.map Account.accountNumber).Nodup →
      (∀ a ∈ accs, a.accountNumber ∉ m.keys) →
      (accs = [] → account.accountNumber ∈ m.keys) →
      (Bank.loadAccounts type0 accs account m).2.keys.Pairwise (fun i j => i < j) ∧
      (∀ j ∈ m.keys, (Bank.loadAccounts type0 accs account m).2.find j = m.find j) ∧
      (∀ a ∈ accs, (Bank.loadAccounts type0 accs account m).2.find a.accountNumber =
        some (Account.reload account0 a)) ∧
      (∀ p ∈ (Bank.loadAccounts type0 accs account m).2,
        p ∈ m ∨ ∃ a ∈ accs, p = (a.accountNumber, Account.reload account0 a)) := by
  induction accs with
  | nil =>
    intro account m _ hs _ _ hlast
    have e : (Bank.loadAccounts type0 [] account m).2 = m := by
      simp only [Bank.loadAccounts, AccountMap.insert_present m _ _ hs (hlast rfl)]
    rw [e]
    exact ⟨hs, fun _ _ => rfl, by simp, fun p hp => Or.inl hp⟩
  | cons a rest ih =>
    intro account m hacc hs hnd hnew _
    have hr := Account.reload_congr account account0 a hacc
    have ha : a.accountNumber ∉ m.keys := hnew a (by simp)
    simp only [List.map_cons, List.nodup_cons] at hnd
    have hs1 := AccountMap.insert_sorted m a.accountNumber (Account.reload account0 a) hs ha
    have hk := AccountMap.mem_keys_insert m a.accountNumber (Account.reload account0 a)
    have hnew1 : ∀ b ∈ rest, b.accountNumber ∉
        (m.insert a.accountNumber (Account.reload account0 a)).keys := by
      intro b hb hmem
      obtain ⟨p, hp, hpk⟩ := List.mem_map.mp hmem
      rcases AccountMap.mem_insert m _ _ p hp with hp | hp
      · exact hnew b (by simp [hb]) (List.mem_map.mpr ⟨p, hp, hpk⟩)
      · rw [hp] at hpk
        exact hnd.1 (List.mem_map.mpr ⟨b, hb, hpk.symm⟩)
    obtain ⟨i1, i2, i3, i4⟩ := ih (Account.reload account0 a)
      (m.insert a.accountNumber (Account.reload account0 a)) rfl hs1 hnd.2 hnew1
      (fun _ => hk.1)
    simp only [Bank.loadAccounts, hr]
    refine ⟨i1, ?_, ?_, ?_⟩
    · intro j hj
      have hne : j ≠ a.accountNumber := fun e => ha (e ▸ hj)
      rw [i2 j (hk.2 j hj), AccountMap.find_insert_ne m _ j _ hne]
    · intro b hb
      rcases List.mem_cons.mp hb with rfl | hb
      · rw [i2 _ hk.1, AccountMap.find_insert_new m _ _ ha]
      · exact i3 b hb
    · intro p hp
      rcases i4 p hp with hp | ⟨b, hb, hp⟩
      · rcases AccountMap.mem_insert m _ _ p hp with hp | hp
        · exact Or.inl hp
        · exact Or.inr ⟨a, by simp, hp⟩
      · exact Or.inr ⟨b, by simp [hb], hp⟩

/-- C7, as stated, fails in two ways.  First, an account whose balance has overflowed to
`+infinity` has token names and password, but its text holds `inf`, which the extractor
does not read as a number: the extraction fails without reaching the end of the file,
every later extraction fails at once, and the loop of `Bank::Bank` never ends, so that
no amount of fuel lets the startup return.  Second, the list that holds account 2 and then
account 1 has distinct numbers, token names and passwords and finite balances; it is
read back, but the map is written in ascending order of key, account 1 first, which is
not the text that was read. -/
theorem store_round_trip_fails :
    (overflowAccount.balance = F32.inf false ∧
      (isToken overflowAccount.firstName && isToken overflowAccount.lastName &&
        isToken overflowAccount.password) = true ∧
      ∀ fuel, Bank.startup (some ([overflowAccount].map Account.write).flatten) blankAccount 0
        fuel = none) ∧
    (([secondAccount, sampleAccount].map Account.accountNumber).Nodup ∧
      (∀ a ∈ [secondAccount, sampleAccount], a.wellFormed = true) ∧
      Bank.startup (some ([secondAccount, sampleAccount].map Account.write).flatten)
        blankAccount 0 4 = some unsortedBank ∧
      AccountMap.write unsortedBank.accounts ≠
        ([secondAccount, sampleAccount].map Account.write).flatten) := by
  refine ⟨⟨by decide, by decide, ?_⟩, by decide, by decide, by decide, by decide⟩
  have key : ∀ r, r = Account.read ⟨([overflowAccount].map Account.write).flatten, false, false⟩
      blankAccount 0 →
      Account.read r.2 r.1 0 = r ∧
        AccountMap.insert (AccountMap.insert [] r.1.accountNumber r.1) r.1.accountNumber r.1 =
          AccountMap.insert [] r.1.accountNumber r.1 ∧
        r.2.eofbit = false := by
    intro r hr
    subst hr
    decide
  intro fuel
  cases fuel with
  | zero => rfl
  | succ f =>
    simp only [Bank.startup, Bank.loadLoop, Bool.false_eq_true, if_false]
    obtain ⟨hfix, hins, heof⟩ := key _ rfl
    generalize Account.read ⟨([overflowAccount].map Account.write).flatten, false, false⟩
      blankAccount 0 = r at hfix hins heof
    have hstuck : ∀ g, Bank.loadLoop 0 g r.2 r.1 (AccountMap.insert [] r.1.accountNumber r.1) =
        none := by
      intro g
      induction g with
      | zero => rfl
      | succ g ih => simp only [Bank.loadLoop, heof, hfix, hins, ih]; simp
    rw [hstuck f]

/-- C7, amended: for every non-empty list of accounts with distinct account numbers, whose
numbers are `long` values, whose names and passwords are non-empty tokens without white
space and whose balances are finite, the text written by the file inserter, six lines
per account, is read back by the loop of `Bank::Bank`, which ends.  The map then holds,
in strictly ascending order of key, exactly the account numbers of the list; under each
number it holds an account with the same number, names, password and type, whose balance
has the same text and which the inserter writes as the same six lines; every entry of
the map is such a record; the counter is the number of the last account of the list; and
when the list is in ascending order of account number, the text written from the map is
the text read. -/
theorem store_round_trip (accs : List Account) (account0 : Account) (type0 : Int) (k : Nat)
    (hne : accs ≠ []) (hnd : (accs.map Account.accountNumber).Nodup)
    (hwf : ∀ a ∈ accs, a.wellFormed = true) :
    ∃ b,
      Bank.startup (some (accs.map Account.write).flatten) account0 type0 (accs.length + 2 + k) =
        some b ∧
      b.accounts.keys.Pairwise (fun i j => i < j) ∧
      (∀ j, j ∈ b.accounts.keys ↔ ∃ a ∈ accs, a.accountNumber = j) ∧
      (∀ a ∈ accs, ∃ r, b.accounts.find a.accountNumber = some r ∧
        r.accountNumber = a.accountNumber ∧ r.firstName = a.firstName ∧
        r.lastName = a.lastName ∧ r.password = a.password ∧ r.type = a.type ∧
        F32.format r.balance = F32.format a.balance ∧ r.write = a.write) ∧
      (∀ p ∈ b.accounts, ∃ a ∈ accs, p.1 = a.accountNumber ∧ p.2.write = a.write) ∧
      b.nextAccountNumber = (accs.getLast hne).accountNumber ∧
      (accs.Pairwise (fun x y => x.accountNumber < y.accountNumber) →
        AccountMap.write b.accounts = (accs.map Account.write).flatten) := by
  have hst : ∀ a ∈ accs, a.storable = true :=
    fun a ha => Account.storable_of_wellFormed a (hwf a ha)
  have h1 := Bank.loadLoop_written type0 accs hst [] (by simp) account0 [] k
  simp only [List.nil_append] at h1
  obtain ⟨m1, m2, m3, m4⟩ := Bank.loadAccounts_map type0 account0 accs account0 [] rfl
    (by simp [AccountMap.keys]) hnd (by simp [AccountMap.keys]) (fun e => absurd e hne)
  refine ⟨{ accounts := (Bank.loadAccounts type0 accs account0 []).2,
            adminPassword := "admin123",
            nextAccountNumber := (Bank.loadAccounts type0 accs account0 []).1.accountNumber,
            store := some (accs.map Account.write).flatten },
    by simp only [Bank.startup, h1], m1, ?_, ?_, ?_, ?_, ?_⟩
  · intro j
    constructor
    · intro hj
      obtain ⟨p, hp, hpj⟩ := List.mem_map.mp hj
      rcases m4 p hp with hp | ⟨a, ha, hp⟩
      · simp at hp
      · exact ⟨a, ha, by rw [← hpj, hp]⟩
    · rintro ⟨a, ha, rfl⟩
      exact AccountMap.mem_keys_of_find _ _ _ (m3 a ha)
  · intro a ha
    have hs := hst a ha
    have hw := Account.write_reload account0 a hs
    simp only [Account.storable, Bool.and_eq_true] at hs
    exact ⟨Account.reload account0 a, m3 a ha, rfl, rfl, rfl, rfl, rfl,
      (IStream.readFloat_written a.balance hs.2 [] [] (by simp) a.balance).2, hw⟩
  · intro p hp
    rcases m4 p hp with hp | ⟨a, ha, hp⟩
    · simp at hp
    · exact ⟨a, ha, by rw [hp], by rw [hp]; exact Account.write_reload account0 a (hst a ha)⟩
  · exact Bank.loadAccounts_last type0 accs hne account0 []
  · intro hsorted
    obtain ⟨a, rest, rfl⟩ := List.exists_cons_of_ne_nil hne
    have h2 := Bank.loadAccounts_sorted type0 account0 rest a account0 [] hsorted (by simp) rfl
    simp only [List.nil_append] at h2
    simp only [h2, AccountMap.write, List.map_map]
    congr 1
    apply List.map_congr_left
    intro x hx
    exact Account.write_reload account0 x (hst x hx)

theorem store_round_trip_witness :
    [secondAccount, sampleAccount] ≠ [] ∧
      ([secondAccount, sampleAccount].map Account.accountNumber).Nodup ∧
      (∀ a ∈ [secondAccount, sampleAccount], a.wellFormed = true) ∧
      ∃ b, Bank.startup (some ([secondAccount, sampleAccount].map Account.write).flatten)
          blankAccount 0 ([secondAccount, sampleAccount].length + 2 + 0) = some b ∧
        b.accounts.keys.Pairwise (fun i j => i < j) ∧
        ∀ j, j ∈ b.accounts.keys ↔ ∃ a ∈ [secondAccount, sampleAccount], a.accountNumber = j :=
  ⟨by decide, by decide, by decide,
    (store_round_trip [secondAccount, sampleAccount] blankAccount 0 0 (by decide) (by decide)
      (by decide)).imp (fun _ h => ⟨h.1, h.2.1, h.2.2.1⟩)⟩
